import Mathlib

/-!
Verification development for the kiro.rs protocol-translation gateway.

The Rust sources are shallowly embedded: byte strings become `List Nat`
(each element a byte value), machine integers become `Nat`/`Int` (overflow
is irrelevant to every property below), `HashMap`s become association
lists in insertion order (a deterministic refinement of the map iteration
order; every property proved here is either order-independent or evaluated
on traces in which at most one element matches each iteration filter), and
fallible code returns `Option`/`Except`.
-/

namespace KiroRs

/-- Byte strings, as in Rust `&[u8]` / `&str` (UTF-8 bytes). -/
abbrev Bytes := List Nat

/-- UTF-8 encoding of a single code point (standard encoding). -/
def utf8EncodeCharNat (c : Nat) : List Nat :=
  if c < 0x80 then [c]
  else if c < 0x800 then [0xC0 + c / 64, 0x80 + c % 64]
  else if c < 0x10000 then [0xE0 + c / 4096, 0x80 + (c / 64) % 64, 0x80 + c % 64]
  else [0xF0 + c / 0x40000, 0x80 + (c / 4096) % 64, 0x80 + (c / 64) % 64, 0x80 + c % 64]

/-- The UTF-8 bytes of a Lean string literal (used to write concrete byte
strings the way the Rust sources write `str` literals). -/
def strBytes (s : String) : Bytes :=
  s.data.foldr (fun c acc => utf8EncodeCharNat c.toNat ++ acc) []

/-! ### CRC32 (src/kiro/parser/crc.rs and the frame codec)

Both CRC32 variants that appear in the repository are reflected
(LSB-first) CRCs with init `0xFFFFFFFF` and final xor `0xFFFFFFFF`; they
differ only in the (reflected) polynomial:
`CRC_32_ISO_HDLC` uses `0xEDB88320`, `CRC_32_ISCSI` (Castagnoli) uses
`0x82F63B78`.  This is exactly the `crc` crate algorithm the sources
instantiate. -/

/-- One reflected CRC round: shift right, conditionally xor the polynomial. -/
def crcRound (poly c : Nat) : Nat :=
  if c % 2 = 1 then Nat.xor (c / 2) poly else c / 2

/-- Fold one input byte into the reflected CRC state. -/
def crcByte (poly c b : Nat) : Nat :=
  Nat.repeat (crcRound poly) 8 (Nat.xor c (b % 256))

/-- Reflected CRC32 with the given reflected polynomial,
init `0xFFFFFFFF`, xorout `0xFFFFFFFF`. -/
def crcCompute (poly : Nat) (data : Bytes) : Nat :=
  Nat.xor (data.foldl (fun c b => crcByte poly c b) 0xFFFFFFFF) 0xFFFFFFFF

/-- Modelled from the spec: the `crc32` function called by
`parse_frame` (src/kiro/parser/frame.rs imports `super::crc::crc32`) is
not present in the given sources — `crc.rs` only defines `crc32c`.  Per
the spec ("CRC32 (ISO-HDLC)") and `debug.rs` (which marks the
`CRC_32_ISO_HDLC` checksum as the one matching real frame data), the
frame codec's checksum is CRC-32/ISO-HDLC. -/
def crc32 (data : Bytes) : Nat := crcCompute 0xEDB88320 data

/-- `crc32c` from src/kiro/parser/crc.rs: `Crc::<u32>::new(&CRC_32_ISCSI)`
(Castagnoli).  It is not called by `parse_frame`. -/
def crc32c (data : Bytes) : Nat := crcCompute 0x82F63B78 data

/-! ### Constant-time comparison (src/common/auth.rs)

`constant_time_eq(a, b)` is `a.as_bytes().ct_eq(b.as_bytes()).into()`
from the `subtle` crate: false when the lengths differ, otherwise the
conjunction of the per-byte equalities. -/

/-- `constant_time_eq` from src/common/auth.rs via `subtle::ConstantTimeEq`
on byte slices. -/
def constant_time_eq (a b : Bytes) : Bool :=
  a.length == b.length && (List.zip a b).all fun p => p.1 == p.2

/-! ### Credential pool (src/kiro/token_manager.rs)

Only the entry fields that `report_quota_exhausted` reads or writes are
modelled; `last_used_at` (wall-clock time) and the persistence side
effects (`save_stats_debounced`) are outside the shallow embedding. -/

/-- `DisabledReason` from src/kiro/token_manager.rs. -/
inductive DisabledReason
  | manual
  | tooManyFailures
  | quotaExceeded
deriving DecidableEq

/-- One runtime credential entry (the fields used by the failover logic). -/
structure CredentialEntry where
  id : Nat
  priority : Int
  disabled : Bool
  disabledReason : Option DisabledReason
  failureCount : Nat
  successCount : Nat
deriving DecidableEq

/-- The pool state guarded by the two mutexes in `KiroTokenManager`:
the entry vector and the current-credential pointer. -/
structure TokenManagerState where
  entries : List CredentialEntry
  currentId : Nat
deriving DecidableEq

/-- `MAX_FAILURES_PER_CREDENTIAL` from src/kiro/token_manager.rs. -/
def MAX_FAILURES_PER_CREDENTIAL : Nat := 3

/-- One step of `min_by_key` (keep the first element attaining the
minimum, as Rust's `Iterator::min_by_key` does). -/
def minByStep (acc : Option CredentialEntry) (e : CredentialEntry) :
    Option CredentialEntry :=
  match acc with
  | none => some e
  | some m => if e.priority < m.priority then some e else acc

/-- `iter().filter(|e| !e.disabled).min_by_key(|e| e.credentials.priority)`:
Rust returns the first element attaining the minimum. -/
def minByPriority (l : List CredentialEntry) : Option CredentialEntry :=
  l.foldl minByStep none

/-- `entries.iter_mut().find(|e| e.id == id)` followed by a mutation:
update the first entry with the given id. -/
def updateFirstById (l : List CredentialEntry) (i : Nat)
    (f : CredentialEntry → CredentialEntry) : List CredentialEntry :=
  match l with
  | [] => []
  | e :: rest => if e.id = i then f e :: rest else e :: updateFirstById rest i f

/-- `report_quota_exhausted` from src/kiro/token_manager.rs: disable the
entry with `QuotaExceeded`, pin its failure count to the threshold,
switch to the highest-priority remaining enabled entry, and return
whether any entry is still enabled. -/
def report_quota_exhausted (st : TokenManagerState) (i : Nat) :
    Bool × TokenManagerState :=
  match st.entries.find? (fun e => e.id == i) with
  | none => (st.entries.any (fun e => !e.disabled), st)
  | some e =>
    if e.disabled then (st.entries.any (fun e => !e.disabled), st)
    else
      let entries := updateFirstById st.entries i (fun e =>
        { e with
          disabled := true
          disabledReason := some .quotaExceeded
          failureCount := MAX_FAILURES_PER_CREDENTIAL })
      match minByPriority (entries.filter (fun e => !e.disabled)) with
      | some next => (true, { entries := entries, currentId := next.id })
      | none => (false, { entries := entries, currentId := st.currentId })

/-! ### Generic list search (Rust `str::find` / substring containment) -/

/-- Rust `str::find(pattern)`: byte index of the first occurrence of
`pat` in `hay` (`some 0` for the empty pattern, as in Rust). -/
def findFrom {α : Type} [DecidableEq α] : List α → List α → Option Nat
  | hay, pat =>
    match hay with
    | [] => if pat = [] then some 0 else none
    | _ :: t =>
      if pat.isPrefixOf hay then some 0
      else (findFrom t pat).map (· + 1)

/-- Rust `str::contains(pattern)` on Lean strings. -/
def strContainsSub (s pat : String) : Bool :=
  (findFrom s.data pat.data).isSome

/-- Rust `str::to_lowercase()` (ASCII-relevant part; the model names fed
to it are ASCII). -/
def strToLower (s : String) : String :=
  ⟨s.data.map Char.toLower⟩

/-! ### Request converter (src/anthropic/converter.rs)

JSON payloads that the converter never inspects (tool-use `input`
values) are carried as opaque strings. -/

/-- `ToolUseEntry` from src/kiro/model/requests/tool.rs (input carried
opaquely). -/
structure ToolUseEntry where
  toolUseId : String
  name : String
  input : String
deriving DecidableEq

/-- `ToolResult` from src/kiro/model/requests/tool.rs (the `status`
string mirrors `is_error` and is omitted). -/
structure ToolResult where
  toolUseId : String
  content : String
  isError : Bool
deriving DecidableEq

/-- `AssistantResponseMessage` (content plus optional tool uses). -/
structure AssistantResponseMessage where
  content : String
  toolUses : Option (List ToolUseEntry)
deriving DecidableEq

/-- A history user message: `UserInputMessage` with its context's
`tool_results` (images carried as opaque (format, data) pairs). -/
structure KUserMessage where
  content : String
  modelId : String
  images : List (String × String)
  toolResults : List ToolResult
deriving DecidableEq

/-- `Message` from src/kiro/model/requests/conversation.rs. -/
inductive KMessage
  | user (m : KUserMessage)
  | assistant (m : AssistantResponseMessage)
deriving DecidableEq

/-- `HistoryUserMessage::new(content, model_id)`. -/
def mkHistUser (content modelId : String) : KUserMessage :=
  { content := content, modelId := modelId, images := [], toolResults := [] }

/-- `HistoryAssistantMessage::new(content)`. -/
def mkHistAssistant (content : String) : AssistantResponseMessage :=
  { content := content, toolUses := none }

/-- `HashSet::insert` modelled on a duplicate-free list (order is
irrelevant: the sets are only ever queried for membership). -/
def insertSet (s : List String) (x : String) : List String :=
  if x ∈ s then s else s ++ [x]

/-- One message's contribution to `all_tool_use_ids`. -/
def collectAllStep (acc : List String) (msg : KMessage) : List String :=
  match msg with
  | .assistant am =>
    match am.toolUses with
    | some tus => tus.foldl (fun a tu => insertSet a tu.toolUseId) acc
    | none => acc
  | .user _ => acc

/-- Collect `all_tool_use_ids`: every `tool_use_id` of every assistant
message in history (`validate_tool_pairing`, step 1). -/
def collectAllToolUseIds (history : List KMessage) : List String :=
  history.foldl collectAllStep []

/-- One message's contribution to `history_tool_result_ids`. -/
def collectHistStep (acc : List String) (msg : KMessage) : List String :=
  match msg with
  | .user um => um.toolResults.foldl (fun a r => insertSet a r.toolUseId) acc
  | .assistant _ => acc

/-- Collect `history_tool_result_ids`: every `tool_use_id` answered by a
user message inside history (`validate_tool_pairing`, step 2). -/
def collectHistoryToolResultIds (history : List KMessage) : List String :=
  history.foldl collectHistStep []

/-- One iteration of the sweep over the current message's tool_results:
keep the result if its id is still unpaired (removing it from the
unpaired set); duplicates and orphans are dropped with a warning log. -/
def sweepStep (acc : List ToolResult × List String) (r : ToolResult) :
    List ToolResult × List String :=
  if r.toolUseId ∈ acc.2 then
    (acc.1 ++ [r], acc.2.filter (fun x => x ≠ r.toolUseId))
  else acc

/-- Steps 4–5 of `validate_tool_pairing`. -/
def sweepToolResults (toolResults : List ToolResult)
    (unpaired0 : List String) : List ToolResult × List String :=
  toolResults.foldl sweepStep ([], unpaired0)

/-- `validate_tool_pairing` from src/anthropic/converter.rs: returns the
validated tool_results for the current message together with the set of
orphaned tool_use ids. -/
def validate_tool_pairing (history : List KMessage)
    (toolResults : List ToolResult) : List ToolResult × List String :=
  let allIds := collectAllToolUseIds history
  let historyIds := collectHistoryToolResultIds history
  let unpaired := allIds.filter (fun x => x ∉ historyIds)
  sweepToolResults toolResults unpaired

/-- The per-message orphan strip inside `remove_orphaned_tool_uses`. -/
def removeOrphanStep (orphanedIds : List String) (msg : KMessage) : KMessage :=
  match msg with
  | .assistant am =>
    match am.toolUses with
    | some tus =>
      let retained := tus.filter (fun tu => tu.toolUseId ∉ orphanedIds)
      .assistant { am with
        toolUses := if retained.isEmpty then none else some retained }
    | none => .assistant am
  | .user um => .user um

/-- `remove_orphaned_tool_uses` from src/anthropic/converter.rs: strip
every orphaned tool_use from every assistant message, collapsing a
now-empty `tool_uses` vector to `None`. -/
def remove_orphaned_tool_uses (history : List KMessage)
    (orphanedIds : List String) : List KMessage :=
  if orphanedIds.isEmpty then history
  else history.map (removeOrphanStep orphanedIds)

/-! ### Inbound Anthropic request model (src/anthropic/types.rs)

A message's JSON `content` is either a string, an array of blocks, or
something else; a block element that fails to deserialize as
`ContentBlock` is represented as `none` (the converter skips it).
JSON values the converter only re-renders are carried opaquely. -/

/-- The `content` of a `tool_result` block as `extract_tool_result_content`
sees it: a string, an array of items (each item's `"text"` string field,
when present), or any other value (rendered to a string). -/
inductive TrContent
  | str (s : String)
  | arr (texts : List (Option String))
  | other (rendered : String)
deriving DecidableEq

/-- `ContentBlock` from src/anthropic/types.rs (fields the converter reads). -/
structure ABlock where
  blockType : String
  text : Option String := none
  thinking : Option String := none
  toolUseId : Option String := none
  content : Option TrContent := none
  name : Option String := none
  input : Option String := none
  id : Option String := none
  isError : Option Bool := none
  sourceMediaType : Option String := none
  sourceData : String := ""
deriving DecidableEq

/-- A message's raw JSON `content`. -/
inductive AContent
  | str (s : String)
  | blocks (bs : List (Option ABlock))
  | other
deriving DecidableEq

/-- `Message` from src/anthropic/types.rs. -/
structure AMessage where
  role : String
  content : AContent
deriving DecidableEq

/-- `SystemMessage` from src/anthropic/types.rs. -/
structure ASystemMessage where
  text : String
deriving DecidableEq

/-- `Thinking` from src/anthropic/types.rs. -/
structure AThinking where
  thinkingType : String
  budgetTokens : Int
deriving DecidableEq

/-- `OutputConfig` from src/anthropic/types.rs. -/
structure AOutputConfig where
  effort : String
deriving DecidableEq

/-- `MessagesRequest` (the fields the converter reads; `max_tokens`,
`stream`, `tools`, `tool_choice` and `metadata` do not affect the history
construction and pairing logic modelled here). -/
structure MessagesRequest where
  model : String
  messages : List AMessage
  system : Option (List ASystemMessage) := none
  thinking : Option AThinking := none
  outputConfig : Option AOutputConfig := none
deriving DecidableEq

/-- `map_model` from src/anthropic/converter.rs. -/
def map_model (model : String) : Option String :=
  let ml := strToLower model
  if strContainsSub ml "sonnet" then
    if strContainsSub ml "4-5" || strContainsSub ml "4.5" then
      some "CLAUDE_SONNET_4_5_20250929_V1_0"
    else if strContainsSub ml "sonnet-4" || strContainsSub ml "sonnet_4" then
      some "CLAUDE_SONNET_4_20250514_V1_0"
    else if strContainsSub ml "3-7" || strContainsSub ml "3.7" then
      some "CLAUDE_3_7_SONNET_20250219_V1_0"
    else
      some "claude-sonnet-4.5"
  else if strContainsSub ml "opus" then
    if strContainsSub ml "4-5" || strContainsSub ml "4.5" then
      some "claude-opus-4.5"
    else
      some "claude-opus-4.6"
  else if strContainsSub ml "haiku" then
    some "claude-haiku-4.5"
  else
    none

/-- `get_image_format` from src/anthropic/converter.rs. -/
def get_image_format (mediaType : String) : Option String :=
  if mediaType = "image/jpeg" then some "jpeg"
  else if mediaType = "image/png" then some "png"
  else if mediaType = "image/gif" then some "gif"
  else if mediaType = "image/webp" then some "webp"
  else none

/-- `extract_tool_result_content` from src/anthropic/converter.rs. -/
def extract_tool_result_content : Option TrContent → String
  | some (.str s) => s
  | some (.arr items) => String.intercalate "\n" (items.filterMap id)
  | some (.other v) => v
  | none => ""

/-- Processing of one parsed content block inside
`process_message_content`'s loop. -/
def processBlock (st : List String × List (String × String) × List ToolResult)
    (b : ABlock) : List String × List (String × String) × List ToolResult :=
  let (textParts, images, toolResults) := st
  if b.blockType = "text" then
    match b.text with
    | some t => (textParts ++ [t], images, toolResults)
    | none => st
  else if b.blockType = "image" then
    match b.sourceMediaType with
    | some mt =>
      match get_image_format mt with
      | some fmt => (textParts, images ++ [(fmt, b.sourceData)], toolResults)
      | none => st
    | none => st
  else if b.blockType = "tool_result" then
    match b.toolUseId with
    | some tid =>
      let rc := extract_tool_result_content b.content
      let isErr := b.isError.getD false
      (textParts, images, toolResults ++ [⟨tid, rc, isErr⟩])
    | none => st
  else st

/-- `process_message_content` from src/anthropic/converter.rs: extract the
joined text, the images and the tool_results of a message content value. -/
def process_message_content (c : AContent) :
    String × List (String × String) × List ToolResult :=
  match c with
  | .str s => (s, [], [])
  | .blocks bs =>
    let (textParts, images, toolResults) :=
      bs.foldl (fun st ob => match ob with
        | some b => processBlock st b
        | none => st) ([], [], [])
    (String.intercalate "\n" textParts, images, toolResults)
  | .other => ("", [], [])

/-- `merge_user_messages` from src/anthropic/converter.rs. -/
def merge_user_messages (messages : List AMessage) (modelId : String) :
    KUserMessage :=
  let (contentParts, allImages, allToolResults) :=
    messages.foldl
      (fun (st : List String × List (String × String) × List ToolResult) m =>
        let (text, images, toolResults) := process_message_content m.content
        let parts := if text ≠ "" then st.1 ++ [text] else st.1
        (parts, st.2.1 ++ images, st.2.2 ++ toolResults))
      ([], [], [])
  { content := String.intercalate "\n" contentParts
    modelId := modelId
    images := allImages
    toolResults := allToolResults }

/-- The opaque rendering of the default `json!({})` tool input. -/
def defaultJsonObj : String := "\x7b\x7d"

/-- `convert_assistant_message` from src/anthropic/converter.rs. -/
def convert_assistant_message (msg : AMessage) : AssistantResponseMessage :=
  let (thinkingContent, textContent, toolUses) :=
    match msg.content with
    | .str s => ("", s, [])
    | .blocks bs =>
      bs.foldl
        (fun (st : String × String × List ToolUseEntry) ob =>
          match ob with
          | none => st
          | some b =>
            if b.blockType = "thinking" then
              match b.thinking with
              | some t => (st.1 ++ t, st.2.1, st.2.2)
              | none => st
            else if b.blockType = "text" then
              match b.text with
              | some t => (st.1, st.2.1 ++ t, st.2.2)
              | none => st
            else if b.blockType = "tool_use" then
              match b.id, b.name with
              | some i, some n =>
                (st.1, st.2.1, st.2.2 ++ [⟨i, n, b.input.getD defaultJsonObj⟩])
              | _, _ => st
            else st)
        ("", "", [])
    | .other => ("", "", [])
  let finalContent :=
    if thinkingContent ≠ "" then
      if textContent ≠ "" then
        "<thinking>" ++ thinkingContent ++ "</thinking>\n\n" ++ textContent
      else
        "<thinking>" ++ thinkingContent ++ "</thinking>"
    else if textContent = "" ∧ toolUses ≠ [] then " "
    else textContent
  { content := finalContent
    toolUses := if toolUses.isEmpty then none else some toolUses }

/-- `generate_thinking_prefix` from src/anthropic/converter.rs. -/
def generate_thinking_prefix (req : MessagesRequest) : Option String :=
  match req.thinking with
  | some t =>
    if t.thinkingType = "enabled" then
      some ("<thinking_mode>enabled</thinking_mode><max_thinking_length>"
        ++ toString t.budgetTokens ++ "</max_thinking_length>")
    else if t.thinkingType = "adaptive" then
      let effort := (req.outputConfig.map (·.effort)).getD "high"
      some ("<thinking_mode>adaptive</thinking_mode><thinking_effort>"
        ++ effort ++ "</thinking_effort>")
    else none
  | none => none

/-- `has_thinking_tags` from src/anthropic/converter.rs. -/
def has_thinking_tags (content : String) : Bool :=
  strContainsSub content "<thinking_mode>"
    || strContainsSub content "<max_thinking_length>"

/-- `SYSTEM_CHUNKED_POLICY` from src/anthropic/converter.rs. -/
def SYSTEM_CHUNKED_POLICY : String :=
  "When the Write or Edit tool has content size limits, always comply silently. Never suggest bypassing these limits via alternative tools. Never ask the user whether to switch approaches. Complete all chunked operations without commentary."

/-- The optional system-pair user content of `build_history` (step 1):
`some c` when a `(user c, assistant "I will follow these instructions.")`
pair is prepended, `none` otherwise. -/
def buildSystemUserContent (req : MessagesRequest) : Option String :=
  let thinkingPrefix := generate_thinking_prefix req
  match req.system with
  | some system =>
    let systemContent := String.intercalate "\n" (system.map (·.text))
    if systemContent ≠ "" then
      let systemContent := systemContent ++ "\n" ++ SYSTEM_CHUNKED_POLICY
      some
        (match thinkingPrefix with
         | some p =>
           if !has_thinking_tags systemContent then p ++ "\n" ++ systemContent
           else systemContent
         | none => systemContent)
    else none
  | none => thinkingPrefix

/-- The system-prompt part of `build_history` (step 1). -/
def buildSystemPart (req : MessagesRequest) (modelId : String) :
    List KMessage :=
  match buildSystemUserContent req with
  | some c =>
    [.user (mkHistUser c modelId),
     .assistant (mkHistAssistant "I will follow these instructions.")]
  | none => []

/-- One iteration of `build_history`'s message loop (step 2): state is
(history so far, buffered consecutive user messages). -/
def buildHistStep (modelId : String)
    (st : List KMessage × List AMessage) (msg : AMessage) :
    List KMessage × List AMessage :=
  let (history, buf) := st
  if msg.role = "user" then (history, buf ++ [msg])
  else if msg.role = "assistant" then
    if buf ≠ [] then
      (history
        ++ [.user (merge_user_messages buf modelId),
            .assistant (convert_assistant_message msg)],
       [])
    else (history, buf)
  else st

/-- `history_end_index` of `build_history` (step 2): the last message is
kept out of history unless it is an assistant message. -/
def historyEndIndex (req : MessagesRequest) : Nat :=
  let lastIsAssistant :=
    (req.messages.getLast?.map (fun m => m.role == "assistant")).getD false
  if lastIsAssistant then req.messages.length else req.messages.length - 1

/-- The tail of `build_history`: a trailing user buffer is paired with a
synthetic `assistant "OK"`. -/
def buildHistFinish (modelId : String)
    (st : List KMessage × List AMessage) : List KMessage :=
  if st.2 ≠ [] then
    st.1 ++ [.user (merge_user_messages st.2 modelId),
             .assistant (mkHistAssistant "OK")]
  else st.1

/-- `build_history` from src/anthropic/converter.rs. -/
def build_history (req : MessagesRequest) (modelId : String) :
    List KMessage :=
  buildHistFinish modelId
    ((req.messages.take (historyEndIndex req)).foldl (buildHistStep modelId)
      (buildSystemPart req modelId, []))

/-- The conversion output (the components of the resulting
`ConversationState` that the claims are about: the repaired history and
the current message payload). -/
structure ConvResult where
  modelId : String
  history : List KMessage
  currentContent : String
  currentImages : List (String × String)
  currentToolResults : List ToolResult
deriving DecidableEq

/-- `convert_request` from src/anthropic/converter.rs (steps 1–2, 5, 7–9,
12: model mapping, emptiness check, current-message extraction, history
construction and tool_use/tool_result repair; the conversation/agent
UUIDs and the tool-list synthesis do not interact with these claims). -/
def convert_request (req : MessagesRequest) : Option ConvResult :=
  match map_model req.model with
  | none => none
  | some modelId =>
    match req.messages.getLast? with
    | none => none
    | some lastMessage =>
      let pmc := process_message_content lastMessage.content
      let history := build_history req modelId
      let vp := validate_tool_pairing history pmc.2.2
      some
        { modelId := modelId
          history := remove_orphaned_tool_uses history vp.2
          currentContent := pmc.1
          currentImages := pmc.2.1
          currentToolResults := vp.1 }

/-! ### Frame codec (src/kiro/parser/{error,header,frame,decoder}.rs) -/

/-- `ParseError` from src/kiro/parser/error.rs.  Display strings, the
wrapped `serde_json`/`io` payloads and the `last_error` rendering inside
`TooManyErrors` are non-semantic and not carried. -/
inductive ParseError
  | incomplete (needed available : Nat)
  | preludeCrcMismatch (expected actual : Nat)
  | messageCrcMismatch (expected actual : Nat)
  | invalidHeaderType (t : Nat)
  | headerParseFailed (msg : String)
  | messageTooLarge (length max : Nat)
  | messageTooSmall (length min : Nat)
  | invalidMessageType (t : String)
  | payloadDeserialize
  | ioError
  | tooManyErrors (count : Nat)
  | bufferOverflow (size max : Nat)
deriving DecidableEq

/-- A decoded header value (strings and uuids carried as raw bytes;
`from_utf8_lossy` is a displayable view of the same bytes). -/
inductive HeaderVal
  | boolV (b : Bool)
  | byteV (v : Int)
  | shortV (v : Int)
  | integerV (v : Int)
  | longV (v : Int)
  | byteArrayV (v : Bytes)
  | stringV (v : Bytes)
  | timestampV (v : Int)
  | uuidV (v : Bytes)
deriving DecidableEq

/-- `Headers` (`HashMap<String, HeaderValue>`): association list, insert
replaces an existing key. -/
abbrev Headers := List (Bytes × HeaderVal)

/-- `HashMap::insert`. -/
def headersInsert (hs : Headers) (name : Bytes) (v : HeaderVal) : Headers :=
  if hs.any (fun p => p.1 == name) then
    hs.map (fun p => if p.1 == name then (name, v) else p)
  else hs ++ [(name, v)]

/-- Big-endian unsigned 32-bit read at byte offset `i` (callers ensure
the four bytes are in range). -/
def be32 (l : Bytes) (i : Nat) : Nat :=
  l.getD i 0 * 0x1000000 + l.getD (i + 1) 0 * 0x10000
    + l.getD (i + 2) 0 * 0x100 + l.getD (i + 3) 0

/-- Interpret a `w`-bit unsigned value as two's-complement signed. -/
def toSigned (v w : Nat) : Int :=
  if v < 2 ^ (w - 1) then (v : Int) else (v : Int) - 2 ^ w

/-- `ensure_bytes` from src/kiro/parser/header.rs. -/
def ensure_bytes (data : Bytes) (needed : Nat) : Except ParseError Unit :=
  if data.length < needed then .error (.incomplete needed data.length)
  else .ok ()

/-- `parse_header_value` from src/kiro/parser/header.rs: the decoded
value and the number of value bytes consumed. -/
def parse_header_value (data : Bytes) (valueType : Nat) :
    Except ParseError (HeaderVal × Nat) :=
  match valueType with
  | 0 => .ok (.boolV true, 0)
  | 1 => .ok (.boolV false, 0)
  | 2 => do
    let _ ← ensure_bytes data 1
    .ok (.byteV (toSigned (data.getD 0 0) 8), 1)
  | 3 => do
    let _ ← ensure_bytes data 2
    .ok (.shortV (toSigned (be32 ([0, 0] ++ data) 0 % 0x10000) 16), 2)
  | 4 => do
    let _ ← ensure_bytes data 4
    .ok (.integerV (toSigned (be32 data 0) 32), 4)
  | 5 => do
    let _ ← ensure_bytes data 8
    .ok (.longV (toSigned (be32 data 0 * 0x100000000 + be32 data 4) 64), 8)
  | 6 => do
    let _ ← ensure_bytes data 2
    let len := data.getD 0 0 * 0x100 + data.getD 1 0
    let _ ← ensure_bytes data (2 + len)
    .ok (.byteArrayV ((data.drop 2).take len), 2 + len)
  | 7 => do
    let _ ← ensure_bytes data 2
    let len := data.getD 0 0 * 0x100 + data.getD 1 0
    let _ ← ensure_bytes data (2 + len)
    .ok (.stringV ((data.drop 2).take len), 2 + len)
  | 8 => do
    let _ ← ensure_bytes data 8
    .ok (.timestampV (toSigned (be32 data 0 * 0x100000000 + be32 data 4) 64), 8)
  | 9 => do
    let _ ← ensure_bytes data 16
    .ok (.uuidV (data.take 16), 16)
  | t => .error (.invalidHeaderType t)

/-- The `while offset < header_length` loop of `parse_headers`.  Each
iteration advances `offset` by at least 2, so `headerLength + 1` fuel
never runs out; the fuel-exhaustion branch is dead code. -/
def parse_headers_loop (data : Bytes) (headerLength : Nat) :
    Nat → Nat → Headers → Except ParseError Headers
  | 0, _, hs => .ok hs
  | fuel + 1, offset, hs =>
    if offset < headerLength then
      if offset ≥ data.length then .ok hs
      else
        let nameLen := data.getD offset 0
        let offset := offset + 1
        if nameLen = 0 then
          .error (.headerParseFailed "Header name length cannot be 0")
        else if offset + nameLen > data.length then
          .error (.incomplete nameLen (data.length - offset))
        else
          let name := (data.drop offset).take nameLen
          let offset := offset + nameLen
          if offset ≥ data.length then .error (.incomplete 1 0)
          else
            let valueType := data.getD offset 0
            let offset := offset + 1
            match parse_header_value (data.drop offset) valueType with
            | .error e => .error e
            | .ok (value, consumed) =>
              parse_headers_loop data headerLength fuel (offset + consumed)
                (headersInsert hs name value)
    else .ok hs

/-- `parse_headers` from src/kiro/parser/header.rs. -/
def parse_headers (data : Bytes) (headerLength : Nat) :
    Except ParseError Headers :=
  if data.length < headerLength then
    .error (.incomplete headerLength data.length)
  else parse_headers_loop data headerLength (headerLength + 1) 0 []

/-- `PRELUDE_SIZE` from src/kiro/parser/frame.rs. -/
def PRELUDE_SIZE : Nat := 12

/-- `MIN_MESSAGE_SIZE` from src/kiro/parser/frame.rs. -/
def MIN_MESSAGE_SIZE : Nat := PRELUDE_SIZE + 4

/-- `MAX_MESSAGE_SIZE` from src/kiro/parser/frame.rs. -/
def MAX_MESSAGE_SIZE : Nat := 16 * 1024 * 1024

/-- `Frame` from src/kiro/parser/frame.rs. -/
structure Frame where
  headers : Headers
  payload : Bytes
deriving DecidableEq

/-- `parse_frame` from src/kiro/parser/frame.rs: `ok none` means more
data is needed, `ok (some (frame, consumed))` is a parsed frame. -/
def parse_frame (buffer : Bytes) : Except ParseError (Option (Frame × Nat)) :=
  if buffer.length < PRELUDE_SIZE then .ok none
  else
    let totalLength := be32 buffer 0
    let headerLength := be32 buffer 4
    let preludeCrc := be32 buffer 8
    if totalLength < MIN_MESSAGE_SIZE then
      .error (.messageTooSmall totalLength MIN_MESSAGE_SIZE)
    else if totalLength > MAX_MESSAGE_SIZE then
      .error (.messageTooLarge totalLength MAX_MESSAGE_SIZE)
    else if buffer.length < totalLength then .ok none
    else
      let actualPreludeCrc := crc32 (buffer.take 8)
      if actualPreludeCrc ≠ preludeCrc then
        .error (.preludeCrcMismatch preludeCrc actualPreludeCrc)
      else
        let messageCrc := be32 buffer (totalLength - 4)
        let actualMessageCrc := crc32 (buffer.take (totalLength - 4))
        if actualMessageCrc ≠ messageCrc then
          .error (.messageCrcMismatch messageCrc actualMessageCrc)
        else
          let headersEnd := PRELUDE_SIZE + headerLength
          if headersEnd > totalLength - 4 then
            .error (.headerParseFailed "Header length exceeds message boundary")
          else
            match parse_headers ((buffer.drop PRELUDE_SIZE).take headerLength)
                headerLength with
            | .error e => .error e
            | .ok headers =>
              let payload := (buffer.drop headersEnd).take
                (totalLength - 4 - headersEnd)
              .ok (some (⟨headers, payload⟩, totalLength))

/-- `DecoderState` from src/kiro/parser/decoder.rs. -/
inductive DecoderState
  | ready
  | parsing
  | recovering
  | stopped
deriving DecidableEq

/-- `EventStreamDecoder` from src/kiro/parser/decoder.rs. -/
structure EventStreamDecoder where
  buffer : Bytes
  state : DecoderState
  framesDecoded : Nat
  errorCount : Nat
  maxErrors : Nat
  maxBufferSize : Nat
  bytesSkipped : Nat
deriving DecidableEq

/-- `EventStreamDecoder::new()` (defaults: 5 max errors, 16 MiB cap). -/
def EventStreamDecoder.new : EventStreamDecoder :=
  { buffer := [], state := .ready, framesDecoded := 0, errorCount := 0
    maxErrors := 5, maxBufferSize := 16 * 1024 * 1024, bytesSkipped := 0 }

/-- `feed` from src/kiro/parser/decoder.rs. -/
def feed (d : EventStreamDecoder) (data : Bytes) :
    Except ParseError EventStreamDecoder :=
  let newSize := d.buffer.length + data.length
  if newSize > d.maxBufferSize then
    .error (.bufferOverflow newSize d.maxBufferSize)
  else
    let d := { d with buffer := d.buffer ++ data }
    if d.state = .recovering then .ok { d with state := .ready }
    else .ok d

/-- `try_recover` from src/kiro/parser/decoder.rs: prelude-phase errors
skip one byte; data-phase errors skip the whole declared frame when the
declared `total_length` is plausible and covered, else one byte. -/
def try_recover (d : EventStreamDecoder) (e : ParseError) :
    EventStreamDecoder :=
  if d.buffer.isEmpty then d
  else
    match e with
    | .preludeCrcMismatch _ _ | .messageTooSmall _ _ | .messageTooLarge _ _ =>
      { d with buffer := d.buffer.drop 1, bytesSkipped := d.bytesSkipped + 1 }
    | .messageCrcMismatch _ _ | .headerParseFailed _ =>
      if PRELUDE_SIZE ≤ d.buffer.length then
        let totalLength := be32 d.buffer 0
        if 16 ≤ totalLength ∧ totalLength ≤ d.buffer.length then
          { d with
            buffer := d.buffer.drop totalLength
            bytesSkipped := d.bytesSkipped + totalLength }
        else
          { d with buffer := d.buffer.drop 1
                   bytesSkipped := d.bytesSkipped + 1 }
      else
        { d with buffer := d.buffer.drop 1, bytesSkipped := d.bytesSkipped + 1 }
    | _ =>
      { d with buffer := d.buffer.drop 1, bytesSkipped := d.bytesSkipped + 1 }

/-- `decode` from src/kiro/parser/decoder.rs: attempt one frame,
returning the result and the updated decoder state. -/
def decode (d : EventStreamDecoder) :
    Except ParseError (Option Frame) × EventStreamDecoder :=
  if d.state = .stopped then
    (.error (.tooManyErrors d.errorCount), d)
  else if d.buffer.isEmpty then
    (.ok none, { d with state := .ready })
  else
    let d := { d with state := .parsing }
    match parse_frame d.buffer with
    | .ok (some (frame, consumed)) =>
      (.ok (some frame),
       { d with
         buffer := d.buffer.drop consumed
         state := .ready
         framesDecoded := d.framesDecoded + 1
         errorCount := 0 })
    | .ok none => (.ok none, { d with state := .ready })
    | .error e =>
      let d := { d with errorCount := d.errorCount + 1 }
      if d.maxErrors ≤ d.errorCount then
        (.error (.tooManyErrors d.errorCount), { d with state := .stopped })
      else
        let d := try_recover d e
        (.error e, { d with state := .recovering })

/-- `try_resume` from src/kiro/parser/decoder.rs. -/
def try_resume (d : EventStreamDecoder) : EventStreamDecoder :=
  if d.state = .stopped then { d with errorCount := 0, state := .ready }
  else d

/-- Prelude-phase recovery errors (the first `try_recover` match arm). -/
def isPreludeError : ParseError → Bool
  | .preludeCrcMismatch _ _ | .messageTooSmall _ _ | .messageTooLarge _ _ =>
    true
  | _ => false

/-- Data-phase recovery errors (the second `try_recover` match arm). -/
def isDataError : ParseError → Bool
  | .messageCrcMismatch _ _ | .headerParseFailed _ => true
  | _ => false

/-! ### Streaming engine (src/anthropic/stream.rs)

Assistant content is carried as UTF-8 bytes exactly as the Rust code
slices it (`&str` byte indices, `is_char_boundary`, …). -/

/-- One byte of ASCII whitespace.  Rust `char::is_whitespace` also
covers multi-byte Unicode whitespace; those characters never consist of
ASCII bytes, and the `trim`-based tests in the engine are only applied
to decide whether a run of bytes is entirely whitespace or to strip
leading whitespace, so the byte-level model agrees with the source on
every ASCII input (all inputs below) and errs only on exotic Unicode
spaces that no claim touches. -/
def isWhitespaceByte (b : Nat) : Bool :=
  b == 0x20 || (decide (0x09 ≤ b) && decide (b ≤ 0x0D))

/-- `s.trim().is_empty()`. -/
def allWhitespace (s : Bytes) : Bool :=
  s.all isWhitespaceByte

/-- `s.trim_start()`. -/
def trimStartBytes (s : Bytes) : Bytes :=
  s.dropWhile isWhitespaceByte

/-- Rust `str::is_char_boundary`. -/
def isCharBoundary (s : Bytes) (i : Nat) : Bool :=
  i == 0 ||
    (match s.get? i with
     | some b => decide (b < 0x80) || decide (0xC0 ≤ b)
     | none => i == s.length)

/-- The backward scan of `find_char_boundary`. -/
def fcbAux (s : Bytes) : Nat → Nat
  | 0 => 0
  | p + 1 => if isCharBoundary s (p + 1) then p + 1 else fcbAux s p

/-- `find_char_boundary` from src/anthropic/stream.rs. -/
def find_char_boundary (s : Bytes) (target : Nat) : Nat :=
  if s.length ≤ target then s.length
  else fcbAux s target

/-- `QUOTE_CHARS` from src/anthropic/stream.rs:
backtick, double quote, single quote, backslash, and
`#!@$%^&*()-_=+[]` braces `;:<>,.?/`. -/
def QUOTE_CHARS : Bytes :=
  [0x60, 0x22, 0x27, 0x5C, 0x23, 0x21, 0x40, 0x24, 0x25, 0x5E, 0x26, 0x2A,
   0x28, 0x29, 0x2D, 0x5F, 0x3D, 0x2B, 0x5B, 0x5D, 0x7B, 0x7D, 0x3B, 0x3A,
   0x3C, 0x3E, 0x2C, 0x2E, 0x3F, 0x2F]

/-- `is_quote_char` from src/anthropic/stream.rs. -/
def is_quote_char (buffer : Bytes) (pos : Nat) : Bool :=
  match buffer.get? pos with
  | some c => QUOTE_CHARS.contains c
  | none => false

/-- The byte string `<thinking>` (length 10). -/
def thinkingOpenTag : Bytes := strBytes "<thinking>"

/-- The byte string `</thinking>` (length 11). -/
def thinkingCloseTag : Bytes := strBytes "</thinking>"

/-- The byte string `</thinking>` followed by two newlines (length 13). -/
def closeTagNl2 : Bytes := strBytes "</thinking>\n\n"

/-- Two newline bytes. -/
def nl2 : Bytes := strBytes "\n\n"

/-- The `while let Some(pos) = buffer[search_start..].find(TAG)` loop of
`find_real_thinking_end_tag`; `search_start` strictly increases, so
`buffer.length + 1` fuel never runs out. -/
def findEndTagAux (buffer : Bytes) : Nat → Nat → Option Nat
  | 0, _ => none
  | fuel + 1, searchStart =>
    match findFrom (buffer.drop searchStart) thinkingCloseTag with
    | none => none
    | some pos =>
      let absolutePos := searchStart + pos
      let afterPos := absolutePos + thinkingCloseTag.length
      let hasQuoteBefore :=
        decide (0 < absolutePos) && is_quote_char buffer (absolutePos - 1)
      let hasQuoteAfter := is_quote_char buffer afterPos
      if hasQuoteBefore || hasQuoteAfter then
        findEndTagAux buffer fuel (absolutePos + 1)
      else
        let afterContent := buffer.drop afterPos
        if afterContent.length < 2 then none
        else if nl2.isPrefixOf afterContent then some absolutePos
        else findEndTagAux buffer fuel (absolutePos + 1)

/-- `find_real_thinking_end_tag` from src/anthropic/stream.rs. -/
def find_real_thinking_end_tag (buffer : Bytes) : Option Nat :=
  findEndTagAux buffer (buffer.length + 1) 0

/-- The loop of `find_real_thinking_end_tag_at_buffer_end`. -/
def findEndTagAtEndAux (buffer : Bytes) : Nat → Nat → Option Nat
  | 0, _ => none
  | fuel + 1, searchStart =>
    match findFrom (buffer.drop searchStart) thinkingCloseTag with
    | none => none
    | some pos =>
      let absolutePos := searchStart + pos
      let afterPos := absolutePos + thinkingCloseTag.length
      let hasQuoteBefore :=
        decide (0 < absolutePos) && is_quote_char buffer (absolutePos - 1)
      let hasQuoteAfter := is_quote_char buffer afterPos
      if hasQuoteBefore || hasQuoteAfter then
        findEndTagAtEndAux buffer fuel (absolutePos + 1)
      else if allWhitespace (buffer.drop afterPos) then some absolutePos
      else findEndTagAtEndAux buffer fuel (absolutePos + 1)

/-- `find_real_thinking_end_tag_at_buffer_end` from src/anthropic/stream.rs. -/
def find_real_thinking_end_tag_at_buffer_end (buffer : Bytes) : Option Nat :=
  findEndTagAtEndAux buffer (buffer.length + 1) 0

/-- The loop of `find_real_thinking_start_tag`. -/
def findStartTagAux (buffer : Bytes) : Nat → Nat → Option Nat
  | 0, _ => none
  | fuel + 1, searchStart =>
    match findFrom (buffer.drop searchStart) thinkingOpenTag with
    | none => none
    | some pos =>
      let absolutePos := searchStart + pos
      let afterPos := absolutePos + thinkingOpenTag.length
      let hasQuoteBefore :=
        decide (0 < absolutePos) && is_quote_char buffer (absolutePos - 1)
      let hasQuoteAfter := is_quote_char buffer afterPos
      if !hasQuoteBefore && !hasQuoteAfter then some absolutePos
      else findStartTagAux buffer fuel (absolutePos + 1)

/-- `find_real_thinking_start_tag` from src/anthropic/stream.rs. -/
def find_real_thinking_start_tag (buffer : Bytes) : Option Nat :=
  findStartTagAux buffer (buffer.length + 1) 0

/-- Total UTF-8 decoder (code points) used by `estimate_tokens`
(`text.chars()`); on the valid UTF-8 that Rust's `&str` guarantees it is
the standard decoding. -/
def utf8Decode : Nat → Bytes → List Nat
  | 0, _ => []
  | _, [] => []
  | fuel + 1, b :: rest =>
    if b < 0xC0 then b :: utf8Decode fuel rest
    else if b < 0xE0 then
      match rest with
      | b2 :: r => (b % 0x20 * 0x40 + b2 % 0x40) :: utf8Decode fuel r
      | [] => [b % 0x20]
    else if b < 0xF0 then
      match rest with
      | b2 :: b3 :: r =>
        (b % 0x10 * 0x1000 + b2 % 0x40 * 0x40 + b3 % 0x40) :: utf8Decode fuel r
      | _ => []
    else
      match rest with
      | b2 :: b3 :: b4 :: r =>
        (b % 8 * 0x40000 + b2 % 0x40 * 0x1000 + b3 % 0x40 * 0x40 + b4 % 0x40)
          :: utf8Decode fuel r
      | _ => []

/-- `estimate_tokens` from src/anthropic/stream.rs. -/
def estimate_tokens (text : Bytes) : Int :=
  let chars := utf8Decode text.length text
  let chineseCount :=
    (chars.filter (fun c => decide (0x4E00 ≤ c) && decide (c ≤ 0x9FFF))).length
  let otherCount := chars.length - chineseCount
  max (((chineseCount : Int) * 2 + 2) / 3 + ((otherCount : Int) + 3) / 4) 1

/-- Content block types emitted on the SSE stream. -/
inductive BType
  | text
  | thinking
  | toolUse
deriving DecidableEq

/-- The `stop_reason` strings the engine can set. -/
inductive StopReason
  | endTurn
  | toolUse
  | maxTokens
  | modelContextWindowExceeded
deriving DecidableEq

/-- The delta payload of a `content_block_delta`. -/
inductive SseDelta
  | textDelta (t : Bytes)
  | thinkingDelta (t : Bytes)
  | inputJsonDelta (t : Bytes)
deriving DecidableEq

/-- One SSE event (payload fields restricted to the ones the claims
inspect: kind, block index, block type, delta contents, usage numbers). -/
inductive SseEvt
  | messageStart (inputTokens : Int)
  | contentBlockStart (index : Nat) (btype : BType)
  | contentBlockDelta (index : Nat) (delta : SseDelta)
  | contentBlockStop (index : Nat)
  | messageDelta (stopReason : StopReason) (inputTokens outputTokens : Int)
  | messageStop
deriving DecidableEq

/-- `BlockState` from src/anthropic/stream.rs. -/
structure BlockState where
  btype : BType
  started : Bool
  stopped : Bool
deriving DecidableEq

/-- `SseStateManager` from src/anthropic/stream.rs (`active_blocks` is a
`HashMap<i32, BlockState>`, modelled in insertion order). -/
structure SseStateManager where
  messageStarted : Bool
  messageDeltaSent : Bool
  activeBlocks : List (Nat × BlockState)
  messageEnded : Bool
  nextBlockIndex : Nat
  stopReason : Option StopReason
  hasToolUse : Bool
deriving DecidableEq

/-- `SseStateManager::new()`. -/
def SseStateManager.new : SseStateManager :=
  { messageStarted := false, messageDeltaSent := false, activeBlocks := []
    messageEnded := false, nextBlockIndex := 0, stopReason := none
    hasToolUse := false }

/-- `active_blocks.get(&index)`. -/
def blockLookup (bs : List (Nat × BlockState)) (i : Nat) : Option BlockState :=
  (bs.find? (fun p => p.1 == i)).map (·.2)

/-- `is_block_open_of_type` from src/anthropic/stream.rs. -/
def SseStateManager.is_block_open_of_type (sm : SseStateManager) (i : Nat)
    (bt : BType) : Bool :=
  match blockLookup sm.activeBlocks i with
  | some b => b.started && !b.stopped && b.btype == bt
  | none => false

/-- `next_block_index()`: return the counter and bump it. -/
def SseStateManager.nextIndex (sm : SseStateManager) : Nat × SseStateManager :=
  (sm.nextBlockIndex, { sm with nextBlockIndex := sm.nextBlockIndex + 1 })

/-- `handle_message_start` from src/anthropic/stream.rs. -/
def SseStateManager.handle_message_start (sm : SseStateManager)
    (inputTokens : Int) : List SseEvt × SseStateManager :=
  if sm.messageStarted then ([], sm)
  else ([.messageStart inputTokens], { sm with messageStarted := true })

/-- The `for (block_index, block) in self.active_blocks.iter_mut()` loop
of `handle_content_block_start` that auto-closes open text blocks. -/
def closeOpenTextBlocks :
    List (Nat × BlockState) → List SseEvt × List (Nat × BlockState)
  | [] => ([], [])
  | (i, b) :: rest =>
    let (evts, rest') := closeOpenTextBlocks rest
    if b.btype == .text && b.started && !b.stopped then
      (.contentBlockStop i :: evts, (i, { b with stopped := true }) :: rest')
    else (evts, (i, b) :: rest')

/-- `handle_content_block_start` from src/anthropic/stream.rs. -/
def SseStateManager.handle_content_block_start (sm : SseStateManager)
    (index : Nat) (btype : BType) : List SseEvt × SseStateManager :=
  let (evts, sm) :=
    if btype == .toolUse then
      let (stops, blocks) := closeOpenTextBlocks sm.activeBlocks
      (stops, { sm with hasToolUse := true, activeBlocks := blocks })
    else ([], sm)
  match blockLookup sm.activeBlocks index with
  | some b =>
    if b.started then (evts, sm)
    else
      let blocks := sm.activeBlocks.map
        (fun p => if p.1 == index then (p.1, { p.2 with started := true }) else p)
      (evts ++ [.contentBlockStart index btype], { sm with activeBlocks := blocks })
  | none =>
    (evts ++ [.contentBlockStart index btype],
     { sm with activeBlocks := sm.activeBlocks ++ [(index, ⟨btype, true, false⟩)] })

/-- `handle_content_block_delta` from src/anthropic/stream.rs. -/
def SseStateManager.handle_content_block_delta (sm : SseStateManager)
    (index : Nat) (delta : SseDelta) : Option SseEvt :=
  match blockLookup sm.activeBlocks index with
  | some b =>
    if !b.started || b.stopped then none
    else some (.contentBlockDelta index delta)
  | none => none

/-- `handle_content_block_stop` from src/anthropic/stream.rs. -/
def SseStateManager.handle_content_block_stop (sm : SseStateManager)
    (index : Nat) : Option SseEvt × SseStateManager :=
  match blockLookup sm.activeBlocks index with
  | some b =>
    if b.stopped then (none, sm)
    else
      let blocks := sm.activeBlocks.map
        (fun p => if p.1 == index then (p.1, { p.2 with stopped := true }) else p)
      (some (.contentBlockStop index), { sm with activeBlocks := blocks })
  | none => (none, sm)

/-- `get_stop_reason` from src/anthropic/stream.rs. -/
def SseStateManager.get_stop_reason (sm : SseStateManager) : StopReason :=
  match sm.stopReason with
  | some r => r
  | none => if sm.hasToolUse then .toolUse else .endTurn

/-- `has_non_thinking_blocks` from src/anthropic/stream.rs. -/
def SseStateManager.has_non_thinking_blocks (sm : SseStateManager) : Bool :=
  sm.activeBlocks.any (fun p => !(p.2.btype == .thinking))

/-- The close-all-unclosed-blocks loop of the manager's
`generate_final_events`. -/
def closeAllOpenBlocks :
    List (Nat × BlockState) → List SseEvt × List (Nat × BlockState)
  | [] => ([], [])
  | (i, b) :: rest =>
    let (evts, rest') := closeAllOpenBlocks rest
    if b.started && !b.stopped then
      (.contentBlockStop i :: evts, (i, { b with stopped := true }) :: rest')
    else (evts, (i, b) :: rest')

/-- `SseStateManager::generate_final_events` from src/anthropic/stream.rs. -/
def SseStateManager.generate_final_events (sm : SseStateManager)
    (inputTokens outputTokens : Int) : List SseEvt × SseStateManager :=
  let (evts, blocks) := closeAllOpenBlocks sm.activeBlocks
  let sm := { sm with activeBlocks := blocks }
  let (evts, sm) :=
    if !sm.messageDeltaSent then
      (evts ++ [.messageDelta sm.get_stop_reason inputTokens outputTokens],
       { sm with messageDeltaSent := true })
    else (evts, sm)
  if !sm.messageEnded then
    (evts ++ [.messageStop], { sm with messageEnded := true })
  else (evts, sm)

/-- `CONTEXT_WINDOW_SIZE` from src/anthropic/stream.rs. -/
def CONTEXT_WINDOW_SIZE : Int := 200000

/-- Rust `as i32` on an `f64`: truncation toward zero with saturation.
The floating-point products the engine computes are modelled exactly
over `ℚ`; every concrete value the claims touch is exactly
representable. -/
def castF64ToI32 (q : ℚ) : Int :=
  let t : Int := if q < 0 then ⌈q⌉ else ⌊q⌋
  max (-2147483648) (min 2147483647 t)

/-- `StreamContext` from src/anthropic/stream.rs (the random
`message_id` is not modelled). -/
structure StreamContext where
  sm : SseStateManager
  model : String
  inputTokens : Int
  contextInputTokens : Option Int
  outputTokens : Int
  toolBlockIndices : List (Bytes × Nat)
  thinkingEnabled : Bool
  thinkingBuffer : Bytes
  inThinkingBlock : Bool
  thinkingExtracted : Bool
  thinkingBlockIndex : Option Nat
  textBlockIndex : Option Nat
  stripThinkingLeadingNewline : Bool
deriving DecidableEq

/-- `StreamContext::new_with_thinking`. -/
def StreamContext.new_with_thinking (model : String) (inputTokens : Int)
    (thinkingEnabled : Bool) : StreamContext :=
  { sm := SseStateManager.new, model := model, inputTokens := inputTokens
    contextInputTokens := none, outputTokens := 0, toolBlockIndices := []
    thinkingEnabled := thinkingEnabled, thinkingBuffer := []
    inThinkingBlock := false, thinkingExtracted := false
    thinkingBlockIndex := none, textBlockIndex := none
    stripThinkingLeadingNewline := false }

/-- `create_text_delta_events` from src/anthropic/stream.rs. -/
def StreamContext.create_text_delta_events (ctx : StreamContext)
    (text : Bytes) : List SseEvt × StreamContext :=
  let ctx :=
    match ctx.textBlockIndex with
    | some idx =>
      if !ctx.sm.is_block_open_of_type idx .text then
        { ctx with textBlockIndex := none }
      else ctx
    | none => ctx
  let (events, textIndex, ctx) :=
    match ctx.textBlockIndex with
    | some idx => (([] : List SseEvt), idx, ctx)
    | none =>
      let (idx, sm) := ctx.sm.nextIndex
      let ctx := { ctx with sm := sm, textBlockIndex := some idx }
      let (startEvts, sm) := ctx.sm.handle_content_block_start idx .text
      (startEvts, idx, { ctx with sm := sm })
  match ctx.sm.handle_content_block_delta textIndex (.textDelta text) with
  | some e => (events ++ [e], ctx)
  | none => (events, ctx)

/-- `create_thinking_delta_event` from src/anthropic/stream.rs. -/
def createThinkingDeltaEvent (index : Nat) (thinking : Bytes) : SseEvt :=
  .contentBlockDelta index (.thinkingDelta thinking)

/-- Close the thinking block: emit the empty `thinking_delta`, then the
`content_block_stop` (the shared tail of every thinking-closing path). -/
def StreamContext.emitThinkingClose (ctx : StreamContext) :
    List SseEvt × StreamContext :=
  match ctx.thinkingBlockIndex with
  | some ti =>
    let (stopEvt, sm) := ctx.sm.handle_content_block_stop ti
    ([createThinkingDeltaEvent ti []] ++ stopEvt.toList, { ctx with sm := sm })
  | none => ([], ctx)

/-- The thinking-content delta (emitted only when the content is
nonempty and a thinking block index exists). -/
def StreamContext.thinkingContentDelta (ctx : StreamContext)
    (content : Bytes) : List SseEvt :=
  if content ≠ [] then
    match ctx.thinkingBlockIndex with
    | some ti => [createThinkingDeltaEvent ti content]
    | none => []
  else []

/-- The third branch of `process_content_with_thinking`'s loop (thinking
extraction complete): flush the buffer as text and break. -/
def StreamContext.pcwtPhase3 (ctx : StreamContext) :
    List SseEvt × StreamContext :=
  if ctx.thinkingBuffer ≠ [] then
    let remaining := ctx.thinkingBuffer
    let ctx := { ctx with thinkingBuffer := [] }
    ctx.create_text_delta_events remaining
  else ([], ctx)

/-- The second branch of `process_content_with_thinking`'s loop (inside a
thinking block): strip the leading newline, then either close at a real
end tag (continuing in the third branch) or flush the safe prefix as a
thinking delta and break. -/
def StreamContext.pcwtPhase2 (ctx : StreamContext) :
    List SseEvt × StreamContext :=
  let ctx :=
    if ctx.stripThinkingLeadingNewline then
      if ctx.thinkingBuffer.head? == some 0x0A then
        { ctx with
          thinkingBuffer := ctx.thinkingBuffer.tail
          stripThinkingLeadingNewline := false }
      else if ctx.thinkingBuffer ≠ [] then
        { ctx with stripThinkingLeadingNewline := false }
      else ctx
    else ctx
  match find_real_thinking_end_tag ctx.thinkingBuffer with
  | some endPos =>
    let evA := ctx.thinkingContentDelta (ctx.thinkingBuffer.take endPos)
    let ctx := { ctx with inThinkingBlock := false, thinkingExtracted := true }
    let (evB, ctx) := ctx.emitThinkingClose
    let ctx :=
      { ctx with thinkingBuffer :=
          ctx.thinkingBuffer.drop (endPos + closeTagNl2.length) }
    let (evC, ctx) := ctx.pcwtPhase3
    (evA ++ evB ++ evC, ctx)
  | none =>
    let targetLen := ctx.thinkingBuffer.length - closeTagNl2.length
    let safeLen := find_char_boundary ctx.thinkingBuffer targetLen
    if 0 < safeLen then
      let safeContent := ctx.thinkingBuffer.take safeLen
      (ctx.thinkingContentDelta safeContent,
       { ctx with thinkingBuffer := ctx.thinkingBuffer.drop safeLen })
    else ([], ctx)

/-- The first branch of `process_content_with_thinking`'s loop (no
thinking block yet): either enter a thinking block at a real start tag
(continuing in the second branch) or flush the safe non-whitespace
prefix as text and break. -/
def StreamContext.pcwtPhase1 (ctx : StreamContext) :
    List SseEvt × StreamContext :=
  match find_real_thinking_start_tag ctx.thinkingBuffer with
  | some startPos =>
    let beforeThinking := ctx.thinkingBuffer.take startPos
    let (evA, ctx) :=
      if beforeThinking ≠ [] && !allWhitespace beforeThinking then
        ctx.create_text_delta_events beforeThinking
      else ([], ctx)
    let ctx :=
      { ctx with
        inThinkingBlock := true
        stripThinkingLeadingNewline := true
        thinkingBuffer :=
          ctx.thinkingBuffer.drop (startPos + thinkingOpenTag.length) }
    let (thinkingIndex, sm) := ctx.sm.nextIndex
    let ctx := { ctx with sm := sm, thinkingBlockIndex := some thinkingIndex }
    let (startEvts, sm) := ctx.sm.handle_content_block_start thinkingIndex .thinking
    let ctx := { ctx with sm := sm }
    let (evB, ctx) := ctx.pcwtPhase2
    (evA ++ startEvts ++ evB, ctx)
  | none =>
    let targetLen := ctx.thinkingBuffer.length - thinkingOpenTag.length
    let safeLen := find_char_boundary ctx.thinkingBuffer targetLen
    if 0 < safeLen then
      let safeContent := ctx.thinkingBuffer.take safeLen
      if safeContent ≠ [] && !allWhitespace safeContent then
        let (evts, ctx) := ctx.create_text_delta_events safeContent
        (evts, { ctx with thinkingBuffer := ctx.thinkingBuffer.drop safeLen })
      else ([], ctx)
    else ([], ctx)

/-- `process_content_with_thinking` from src/anthropic/stream.rs.  The
Rust `loop` visits its three branches at most once each and in this
order (entering a thinking block is guarded by `!thinking_extracted`,
which is set permanently on exit), so it is exactly the phase chain
below, entered at the phase matching the current state. -/
def StreamContext.process_content_with_thinking (ctx : StreamContext)
    (content : Bytes) : List SseEvt × StreamContext :=
  let ctx := { ctx with thinkingBuffer := ctx.thinkingBuffer ++ content }
  if !ctx.inThinkingBlock && !ctx.thinkingExtracted then ctx.pcwtPhase1
  else if ctx.inThinkingBlock then ctx.pcwtPhase2
  else ctx.pcwtPhase3

/-- `process_assistant_response` from src/anthropic/stream.rs. -/
def StreamContext.process_assistant_response (ctx : StreamContext)
    (content : Bytes) : List SseEvt × StreamContext :=
  if content = [] then ([], ctx)
  else
    let ctx := { ctx with outputTokens := ctx.outputTokens + estimate_tokens content }
    if ctx.thinkingEnabled then ctx.process_content_with_thinking content
    else ctx.create_text_delta_events content

/-- `process_tool_use` from src/anthropic/stream.rs. -/
def StreamContext.process_tool_use (ctx : StreamContext)
    (toolUseId input : Bytes) (stop : Bool) : List SseEvt × StreamContext :=
  let ctx := { ctx with sm := { ctx.sm with hasToolUse := true } }
  let (evts1, ctx) :=
    if ctx.thinkingEnabled && ctx.inThinkingBlock then
      match find_real_thinking_end_tag_at_buffer_end ctx.thinkingBuffer with
      | some endPos =>
        let evA := ctx.thinkingContentDelta (ctx.thinkingBuffer.take endPos)
        let ctx := { ctx with inThinkingBlock := false, thinkingExtracted := true }
        let (evB, ctx) := ctx.emitThinkingClose
        let afterPos := endPos + thinkingCloseTag.length
        let remaining := trimStartBytes (ctx.thinkingBuffer.drop afterPos)
        let ctx := { ctx with thinkingBuffer := [] }
        let (evC, ctx) :=
          if remaining ≠ [] then ctx.create_text_delta_events remaining
          else ([], ctx)
        (evA ++ evB ++ evC, ctx)
      | none => ([], ctx)
    else ([], ctx)
  let (evts2, ctx) :=
    if ctx.thinkingEnabled && !ctx.inThinkingBlock && !ctx.thinkingExtracted
        && ctx.thinkingBuffer ≠ [] then
      let buffered := ctx.thinkingBuffer
      let ctx := { ctx with thinkingBuffer := [] }
      ctx.create_text_delta_events buffered
    else ([], ctx)
  let (blockIndex, ctx) :=
    match (ctx.toolBlockIndices.find? (fun p => p.1 == toolUseId)).map (·.2) with
    | some idx => (idx, ctx)
    | none =>
      let (idx, sm) := ctx.sm.nextIndex
      (idx, { ctx with sm := sm
                       toolBlockIndices := ctx.toolBlockIndices ++ [(toolUseId, idx)] })
  let (startEvts, sm) := ctx.sm.handle_content_block_start blockIndex .toolUse
  let ctx := { ctx with sm := sm }
  let (deltaEvts, ctx) :=
    if input ≠ [] then
      let ctx := { ctx with
        outputTokens := ctx.outputTokens + ((input.length : Int) + 3) / 4 }
      match ctx.sm.handle_content_block_delta blockIndex (.inputJsonDelta input) with
      | some e => ([e], ctx)
      | none => ([], ctx)
    else ([], ctx)
  let (stopEvts, ctx) :=
    if stop then
      let (stopEvt, sm) := ctx.sm.handle_content_block_stop blockIndex
      (stopEvt.toList, { ctx with sm := sm })
    else ([], ctx)
  (evts1 ++ evts2 ++ startEvts ++ deltaEvts ++ stopEvts, ctx)

/-- Stage 1 of `process_tool_use` (its thinking-close flush), split out
for modular reasoning; `process_tool_use_decomp` below ties the stages
back to the whole. -/
def StreamContext.ptuThinkFlush (ctx : StreamContext) :
    List SseEvt × StreamContext :=
  if ctx.thinkingEnabled && ctx.inThinkingBlock then
    match find_real_thinking_end_tag_at_buffer_end ctx.thinkingBuffer with
    | some endPos =>
      let evA := ctx.thinkingContentDelta (ctx.thinkingBuffer.take endPos)
      let ctx := { ctx with inThinkingBlock := false, thinkingExtracted := true }
      let (evB, ctx) := ctx.emitThinkingClose
      let afterPos := endPos + thinkingCloseTag.length
      let remaining := trimStartBytes (ctx.thinkingBuffer.drop afterPos)
      let ctx := { ctx with thinkingBuffer := [] }
      let (evC, ctx) :=
        if remaining ≠ [] then ctx.create_text_delta_events remaining
        else ([], ctx)
      (evA ++ evB ++ evC, ctx)
    | none => ([], ctx)
  else ([], ctx)

/-- Stage 2 of `process_tool_use`: flush a buffered never-started
thinking prefix as text. -/
def StreamContext.ptuBufFlush (ctx : StreamContext) :
    List SseEvt × StreamContext :=
  if ctx.thinkingEnabled && !ctx.inThinkingBlock && !ctx.thinkingExtracted
      && ctx.thinkingBuffer ≠ [] then
    let buffered := ctx.thinkingBuffer
    let ctx := { ctx with thinkingBuffer := [] }
    ctx.create_text_delta_events buffered
  else ([], ctx)

/-- Stage 4 of `process_tool_use`: the input-json delta. -/
def StreamContext.ptuDelta (ctx : StreamContext) (blockIndex : Nat)
    (input : Bytes) : List SseEvt × StreamContext :=
  if input ≠ [] then
    let ctx := { ctx with
      outputTokens := ctx.outputTokens + ((input.length : Int) + 3) / 4 }
    match ctx.sm.handle_content_block_delta blockIndex (.inputJsonDelta input) with
    | some e => ([e], ctx)
    | none => ([], ctx)
  else ([], ctx)

/-- Stage 5 of `process_tool_use`: the optional stop. -/
def StreamContext.ptuStop (ctx : StreamContext) (blockIndex : Nat)
    (stop : Bool) : List SseEvt × StreamContext :=
  if stop then
    let (stopEvt, sm) := ctx.sm.handle_content_block_stop blockIndex
    (stopEvt.toList, { ctx with sm := sm })
  else ([], ctx)

/-- Stage 3 of `process_tool_use`: resolve the block index and start the
tool block, then run stages 4 and 5. -/
def StreamContext.ptuEmit (ctx : StreamContext) (toolUseId input : Bytes)
    (stop : Bool) : List SseEvt × StreamContext :=
  let (blockIndex, ctx) :=
    match (ctx.toolBlockIndices.find? (fun p => p.1 == toolUseId)).map (·.2) with
    | some idx => (idx, ctx)
    | none =>
      let (idx, sm) := ctx.sm.nextIndex
      (idx, { ctx with sm := sm
                       toolBlockIndices := ctx.toolBlockIndices ++ [(toolUseId, idx)] })
  let (startEvts, sm) := ctx.sm.handle_content_block_start blockIndex .toolUse
  let ctx := { ctx with sm := sm }
  let (deltaEvts, ctx) := ctx.ptuDelta blockIndex input
  let (stopEvts, ctx) := ctx.ptuStop blockIndex stop
  (startEvts ++ deltaEvts ++ stopEvts, ctx)

/-- Typed upstream event (src/kiro/model/events/base.rs; the
`context_usage_percentage` f64 is modelled exactly over `ℚ`). -/
inductive KEvent
  | assistantResponse (content : Bytes)
  | toolUse (toolUseId input : Bytes) (stop : Bool)
  | contextUsage (pct : ℚ)
  | metering
  | unknown
  | errorEvt (code msg : String)
  | exception (exceptionType msg : String)

/-- `process_kiro_event` from src/anthropic/stream.rs. -/
def StreamContext.process_kiro_event (ctx : StreamContext) (e : KEvent) :
    List SseEvt × StreamContext :=
  match e with
  | .assistantResponse content => ctx.process_assistant_response content
  | .toolUse toolUseId input stop => ctx.process_tool_use toolUseId input stop
  | .contextUsage pct =>
    let actualInputTokens := castF64ToI32 (pct * (CONTEXT_WINDOW_SIZE : ℚ) / 100)
    let ctx := { ctx with contextInputTokens := some actualInputTokens }
    let ctx :=
      if 100 ≤ pct then
        { ctx with sm := { ctx.sm with
          stopReason := some .modelContextWindowExceeded } }
      else ctx
    ([], ctx)
  | .errorEvt _ _ => ([], ctx)
  | .exception exceptionType _ =>
    if exceptionType = "ContentLengthExceededException" then
      ([], { ctx with sm := { ctx.sm with stopReason := some .maxTokens } })
    else ([], ctx)
  | .metering => ([], ctx)
  | .unknown => ([], ctx)

/-- `generate_initial_events` from src/anthropic/stream.rs. -/
def StreamContext.generate_initial_events (ctx : StreamContext) :
    List SseEvt × StreamContext :=
  let (msEvts, sm) := ctx.sm.handle_message_start ctx.inputTokens
  let ctx := { ctx with sm := sm }
  if ctx.thinkingEnabled then (msEvts, ctx)
  else
    let (idx, sm) := ctx.sm.nextIndex
    let ctx := { ctx with sm := sm, textBlockIndex := some idx }
    let (startEvts, sm) := ctx.sm.handle_content_block_start idx .text
    (msEvts ++ startEvts, { ctx with sm := sm })

/-- The thinking-buffer flush at the top of the context's
`generate_final_events`. -/
def StreamContext.flushThinkingBuffer (ctx : StreamContext) :
    List SseEvt × StreamContext :=
  if ctx.thinkingEnabled && ctx.thinkingBuffer ≠ [] then
    let (evts, ctx) :=
      if ctx.inThinkingBlock then
        match find_real_thinking_end_tag_at_buffer_end ctx.thinkingBuffer with
        | some endPos =>
          let evA := ctx.thinkingContentDelta (ctx.thinkingBuffer.take endPos)
          let (evB, ctx) := ctx.emitThinkingClose
          let afterPos := endPos + thinkingCloseTag.length
          let remaining := trimStartBytes (ctx.thinkingBuffer.drop afterPos)
          let ctx := { ctx with
            thinkingBuffer := []
            inThinkingBlock := false
            thinkingExtracted := true }
          let (evC, ctx) :=
            if remaining ≠ [] then ctx.create_text_delta_events remaining
            else ([], ctx)
          (evA ++ evB ++ evC, ctx)
        | none =>
          let evA := ctx.thinkingContentDelta ctx.thinkingBuffer
          let (evB, ctx) := ctx.emitThinkingClose
          (evA ++ evB, ctx)
      else
        let bufferContent := ctx.thinkingBuffer
        ctx.create_text_delta_events bufferContent
    (evts, { ctx with thinkingBuffer := [] })
  else ([], ctx)

/-- `StreamContext::generate_final_events` from src/anthropic/stream.rs. -/
def StreamContext.generate_final_events (ctx : StreamContext) :
    List SseEvt × StreamContext :=
  let (evts1, ctx) := ctx.flushThinkingBuffer
  let (evts2, ctx) :=
    if ctx.thinkingEnabled && ctx.thinkingBlockIndex.isSome
        && !ctx.sm.has_non_thinking_blocks then
      let ctx := { ctx with sm := { ctx.sm with stopReason := some .maxTokens } }
      ctx.create_text_delta_events (strBytes " ")
    else ([], ctx)
  let finalInputTokens := ctx.contextInputTokens.getD ctx.inputTokens
  let (evts3, sm) := ctx.sm.generate_final_events finalInputTokens ctx.outputTokens
  (evts1 ++ evts2 ++ evts3, { ctx with sm := sm })

/-- Process a whole sequence of upstream events, accumulating the
emitted SSE events. -/
def processEvents (ctx : StreamContext) (events : List KEvent) :
    List SseEvt × StreamContext :=
  events.foldl
    (fun (acc : List SseEvt × StreamContext) e =>
      let (evts, ctx) := acc.2.process_kiro_event e
      (acc.1 ++ evts, ctx))
    ([], ctx)

/-- A complete streaming run: initial events, then the upstream event
sequence, then the final events. -/
def fullStreamRun (model : String) (inputTokens : Int)
    (thinkingEnabled : Bool) (events : List KEvent) : List SseEvt :=
  let ctx := StreamContext.new_with_thinking model inputTokens thinkingEnabled
  let (e1, ctx) := ctx.generate_initial_events
  let (e2, ctx) := processEvents ctx events
  let (e3, _) := ctx.generate_final_events
  e1 ++ e2 ++ e3

/-- `BufferedStreamContext` from src/anthropic/stream.rs. -/
structure BufferedStreamContext where
  inner : StreamContext
  eventBuffer : List SseEvt
  estimatedInputTokens : Int
  initialEventsGenerated : Bool

/-- `BufferedStreamContext::new`. -/
def BufferedStreamContext.new (model : String) (estimatedInputTokens : Int)
    (thinkingEnabled : Bool) : BufferedStreamContext :=
  { inner := StreamContext.new_with_thinking model estimatedInputTokens thinkingEnabled
    eventBuffer := [], estimatedInputTokens := estimatedInputTokens
    initialEventsGenerated := false }

/-- `process_and_buffer` from src/anthropic/stream.rs. -/
def BufferedStreamContext.process_and_buffer (b : BufferedStreamContext)
    (e : KEvent) : BufferedStreamContext :=
  let b :=
    if !b.initialEventsGenerated then
      let (initialEvents, inner) := b.inner.generate_initial_events
      { b with inner := inner, eventBuffer := b.eventBuffer ++ initialEvents
               initialEventsGenerated := true }
    else b
  let (events, inner) := b.inner.process_kiro_event e
  { b with inner := inner, eventBuffer := b.eventBuffer ++ events }

/-- The `message_start` usage correction applied by
`finish_and_get_all_events`. -/
def fixMessageStart (tokens : Int) : SseEvt → SseEvt
  | .messageStart _ => .messageStart tokens
  | e => e

/-- `finish_and_get_all_events` from src/anthropic/stream.rs. -/
def BufferedStreamContext.finish_and_get_all_events
    (b : BufferedStreamContext) : List SseEvt × BufferedStreamContext :=
  let b :=
    if !b.initialEventsGenerated then
      let (initialEvents, inner) := b.inner.generate_initial_events
      { b with inner := inner, eventBuffer := b.eventBuffer ++ initialEvents
               initialEventsGenerated := true }
    else b
  let (finalEvents, inner) := b.inner.generate_final_events
  let b := { b with inner := inner, eventBuffer := b.eventBuffer ++ finalEvents }
  let finalInputTokens := b.inner.contextInputTokens.getD b.estimatedInputTokens
  let out := b.eventBuffer.map (fixMessageStart finalInputTokens)
  (out, { b with eventBuffer := [] })

/-- `get_context_window_size` from src/anthropic/types.rs.  (No code in
the repository calls it; in particular the streaming engine does not.) -/
def get_context_window_size (model : String) : Int :=
  let ml := strToLower model
  if strContainsSub ml "opus" && strContainsSub ml "-1m" then 1000000
  else 200000

/-! ### Specification-side observers of an SSE trace -/

/-- Concatenation of every `thinking_delta` payload in a trace. -/
def collectThinkingContent (evs : List SseEvt) : Bytes :=
  evs.foldl
    (fun acc e =>
      match e with
      | .contentBlockDelta _ (.thinkingDelta t) => acc ++ t
      | _ => acc)
    []

/-- Concatenation of every `text_delta` payload in a trace. -/
def collectTextContent (evs : List SseEvt) : Bytes :=
  evs.foldl
    (fun acc e =>
      match e with
      | .contentBlockDelta _ (.textDelta t) => acc ++ t
      | _ => acc)
    []

/-- Number of `content_block_start` events of a given block type. -/
def countBlockStarts (evs : List SseEvt) (bt : BType) : Nat :=
  (evs.filter (fun e =>
    match e with
    | .contentBlockStart _ b => b == bt
    | _ => false)).length

/-- The first `message_delta` of a trace (stop reason and usage). -/
def findMessageDelta (evs : List SseEvt) : Option (StopReason × Int × Int) :=
  match evs with
  | [] => none
  | .messageDelta r i o :: _ => some (r, i, o)
  | _ :: rest => findMessageDelta rest

/-- Whether an event is a `message_delta`. -/
def isMessageDelta : SseEvt → Bool
  | .messageDelta _ _ _ => true
  | _ => false

/-- State of the per-index discipline checker: `phase` is 0 before
`message_start`, 1 among the content blocks, 2 after `message_delta`,
3 after `message_stop`; `openB`/`closedB` are the indices of started
(not yet stopped) and stopped blocks. -/
structure ChkSt where
  phase : Nat
  openB : List Nat
  closedB : List Nat
deriving DecidableEq

/-- Initial checker state. -/
def chkInit : ChkSt := ⟨0, [], []⟩

/-- One checker step: `none` rejects the event.  Accepts exactly the
traces in which `message_start` comes first, every index is started at
most once and stopped exactly once after its start, every delta lands
strictly between its block's start and stop, all blocks are closed
before the single `message_delta`, and `message_stop` ends the trace
phase. -/
def chkStep (st : ChkSt) : SseEvt → Option ChkSt
  | .messageStart _ => if st.phase = 0 then some { st with phase := 1 } else none
  | .contentBlockStart i _ =>
    if st.phase = 1 ∧ i ∉ st.openB ∧ i ∉ st.closedB then
      some { st with openB := i :: st.openB }
    else none
  | .contentBlockDelta i _ =>
    if st.phase = 1 ∧ i ∈ st.openB then some st else none
  | .contentBlockStop i =>
    if st.phase = 1 ∧ i ∈ st.openB then
      some { st with openB := st.openB.erase i, closedB := i :: st.closedB }
    else none
  | .messageDelta _ _ _ =>
    if st.phase = 1 ∧ st.openB = [] then some { st with phase := 2 } else none
  | .messageStop => if st.phase = 2 then some { st with phase := 3 } else none

/-- Run the checker over a trace. -/
def chkRun (st : ChkSt) : List SseEvt → Option ChkSt
  | [] => some st
  | e :: rest =>
    match chkStep st e with
    | some st' => chkRun st' rest
    | none => none

/-- The per-index block discipline: see `chkStep`. -/
def traceOk (evs : List SseEvt) : Bool :=
  match chkRun chkInit evs with
  | some st => st.phase == 3
  | none => false

/-- State of the flat-grammar checker for
`message_start ( content_block_start (content_block_delta)* content_block_stop )* message_delta message_stop`:
`cur` is the block currently open (the grammar allows at most one),
`used` the indices whose start/stop pair is complete. -/
structure GramSt where
  phase : Nat
  cur : Option Nat
  used : List Nat
deriving DecidableEq

/-- One step of the flat-grammar checker. -/
def gramStep (st : GramSt) : SseEvt → Option GramSt
  | .messageStart _ =>
    if st.phase = 0 then some { st with phase := 1 } else none
  | .contentBlockStart i _ =>
    if st.phase = 1 ∧ st.cur = none ∧ i ∉ st.used then
      some { st with cur := some i }
    else none
  | .contentBlockDelta i _ =>
    if st.phase = 1 ∧ st.cur = some i then some st else none
  | .contentBlockStop i =>
    if st.phase = 1 ∧ st.cur = some i then
      some { st with cur := none, used := i :: st.used }
    else none
  | .messageDelta _ _ _ =>
    if st.phase = 1 ∧ st.cur = none then some { st with phase := 2 } else none
  | .messageStop => if st.phase = 2 then some { st with phase := 3 } else none

/-- Run the flat-grammar checker. -/
def gramRun (st : GramSt) : List SseEvt → Option GramSt
  | [] => some st
  | e :: rest =>
    match gramStep st e with
    | some st' => gramRun st' rest
    | none => none

/-- Whether a trace matches the flat grammar
`message_start (start delta* stop)* message_delta message_stop` with
each index used in exactly one start/stop pair. -/
def sseGrammarOk (evs : List SseEvt) : Bool :=
  match gramRun ⟨0, none, []⟩ evs with
  | some st => st.phase == 3
  | none => false

/-- The effect of one `build_history` loop iteration on the
`user_buffer` alone (history output ignored). -/
def userBufStep (buf : List AMessage) (msg : AMessage) : List AMessage :=
  if msg.role = "user" then buf ++ [msg]
  else if msg.role = "assistant" then
    if buf ≠ [] then [] else buf
  else buf

/-- The `user_buffer` accumulated by `build_history`'s loop after a
prefix of the inbound messages. -/
def userBufAt (msgs : List AMessage) : List AMessage :=
  msgs.foldl userBufStep []

/-- The per-block effect of the text-auto-close loop. -/
def closeTextF (b : BlockState) : BlockState :=
  if b.btype == BType.text && b.started && !b.stopped then
    { b with stopped := true }
  else b

/-- The per-block effect of the final close-everything loop. -/
def closeAllF (b : BlockState) : BlockState :=
  if b.started && !b.stopped then { b with stopped := true } else b

/-- Index `i` refers to a started-and-not-yet-stopped block. -/
def blockOpen (bs : List (Nat × BlockState)) (i : Nat) : Prop :=
  ∃ b, blockLookup bs i = some b ∧ b.stopped = false

/-- Index `i` refers to a stopped block. -/
def blockClosed (bs : List (Nat × BlockState)) (i : Nat) : Prop :=
  ∃ b, blockLookup bs i = some b ∧ b.stopped = true

/-- Index `i` refers to an open text block (the blocks the auto-close
loop stops). -/
def blockTextOpen (bs : List (Nat × BlockState)) (i : Nat) : Prop :=
  ∃ b, blockLookup bs i = some b ∧ b.btype = BType.text ∧
    b.started = true ∧ b.stopped = false

/-- The simulation invariant between the discipline checker state and
the SSE state manager, holding from `message_start` until the final
events: the checker is in the content phase, the message tail events
are still pending, the open/closed index sets of the checker coincide
with the open/stopped active blocks, every recorded block has started,
block keys are unique, and every key is below the next fresh index. -/
structure SmInv (st : ChkSt) (sm : SseStateManager) : Prop where
  phase : st.phase = 1
  mds : sm.messageDeltaSent = false
  mend : sm.messageEnded = false
  ndOpen : st.openB.Nodup
  ndKeys : (sm.activeBlocks.map (fun p => p.1)).Nodup
  openIff : ∀ i, i ∈ st.openB ↔ blockOpen sm.activeBlocks i
  closedIff : ∀ i, i ∈ st.closedB ↔ blockClosed sm.activeBlocks i
  started : ∀ i b, blockLookup sm.activeBlocks i = some b → b.started = true
  fresh : ∀ p ∈ sm.activeBlocks, p.1 < sm.nextBlockIndex

/-- The full streaming-context invariant: the manager simulation, an
open thinking block whenever the engine believes it is inside one (the
engine emits unguarded thinking deltas there), and a recorded block for
every cached tool-use index. -/
def CtxInv (st : ChkSt) (ctx : StreamContext) : Prop :=
  SmInv st ctx.sm ∧
  (ctx.inThinkingBlock = true →
    ∃ ti, ctx.thinkingBlockIndex = some ti ∧
      ∃ b, blockLookup ctx.sm.activeBlocks ti = some b ∧
        b.btype = BType.thinking ∧ b.stopped = false) ∧
  ∀ q ∈ ctx.toolBlockIndices, ∃ b,
    blockLookup ctx.sm.activeBlocks q.2 = some b ∧ b.btype = BType.toolUse

/-! ### Concrete inputs used by the claims -/

/-- The chunk sequence of the thinking-tag-across-chunks scenario. -/
def c4Events : List KEvent :=
  [.assistantResponse (strBytes "<thin"),
   .assistantResponse (strBytes "king>"),
   .assistantResponse (strBytes "\n"),
   .assistantResponse (strBytes "abc"),
   .assistantResponse (strBytes "</thi"),
   .assistantResponse (strBytes "nking>\n\n"),
   .assistantResponse (strBytes "hello")]

/-- The emitted trace of the thinking-tag-across-chunks scenario. -/
def c4Trace : List SseEvt :=
  fullStreamRun "test-model" 1 true c4Events

/-- A concrete request exercising the pairing repair: one completed
tool call in history, its result in the current message. -/
def c2Req : MessagesRequest :=
  { model := "claude-sonnet-4"
    messages :=
      [{ role := "user", content := .str "Read the file" },
       { role := "assistant"
         content := .blocks
           [some { blockType := "text", text := some "I will read it." },
            some { blockType := "tool_use", id := some "tool-1"
                   name := some "read" }] },
       { role := "user"
         content := .blocks
           [some { blockType := "tool_result", toolUseId := some "tool-1"
                   content := some (.str "file content") }] }] }

/-- The conversion result of `c2Req`. -/
def c2Res : ConvResult :=
  { modelId := "CLAUDE_SONNET_4_20250514_V1_0"
    history :=
      [.user { content := "Read the file"
               modelId := "CLAUDE_SONNET_4_20250514_V1_0"
               images := [], toolResults := [] },
       .assistant { content := "I will read it."
                    toolUses := some [⟨"tool-1", "read", defaultJsonObj⟩] }]
    currentContent := ""
    currentImages := []
    currentToolResults := [⟨"tool-1", "file content", false⟩] }

/-- An upstream event sequence on which tool_use and text blocks
interleave: a partial tool call (`stop=false`), then assistant text,
then the rest of the same tool call. -/
def c1Events : List KEvent :=
  [.toolUse (strBytes "t") (strBytes "\x7b") false,
   .assistantResponse (strBytes "hi"),
   .toolUse (strBytes "t") (strBytes "\x7d") true]

/-- The emitted trace for `c1Events` (thinking disabled). -/
def c1Trace : List SseEvt :=
  fullStreamRun "m" 1 false c1Events

/-- A request whose only inbound message is an assistant message, so the
assistant message is met with an empty user buffer and is also the last
inbound message. -/
def c10Req : MessagesRequest :=
  { model := "claude-sonnet-4"
    messages := [{ role := "assistant", content := .str "hello" }] }

/-- The conversion result of `c10Req`. -/
def c10Res : ConvResult :=
  { modelId := "CLAUDE_SONNET_4_20250514_V1_0"
    history := []
    currentContent := "hello"
    currentImages := []
    currentToolResults := [] }

/-- The unbuffered assistant message of the C10 witness request. -/
def c10WitMi : AMessage := { role := "assistant", content := .str "x" }

/-- A request whose first inbound message is an assistant message (met
with an empty user buffer) followed by a user message. -/
def c10WitReq : MessagesRequest :=
  { model := "claude-sonnet-4"
    messages := [c10WitMi, { role := "user", content := .str "hi" }] }

/-- A fresh streaming context (thinking disabled, estimated input
tokens 7) used to witness the context-usage accounting. -/
def c7WitCtx : StreamContext :=
  StreamContext.new_with_thinking "m" 7 false

/-- A streaming context that has produced exactly one (closed) thinking
block and nothing else: thinking enabled, empty thinking buffer, block 0
is a stopped thinking block, no text and no tool_use block. -/
def c6WitCtx : StreamContext :=
  { sm := { messageStarted := true, messageDeltaSent := false
            activeBlocks := [(0, ⟨BType.thinking, true, true⟩)]
            messageEnded := false, nextBlockIndex := 1, stopReason := none
            hasToolUse := false }
    model := "m", inputTokens := 5, contextInputTokens := none
    outputTokens := 2, toolBlockIndices := []
    thinkingEnabled := true, thinkingBuffer := []
    inThinkingBlock := false, thinkingExtracted := true
    thinkingBlockIndex := some 0, textBlockIndex := none
    stripThinkingLeadingNewline := false }

/-- Big-endian 32-bit byte encoding (used to build concrete frames). -/
def be32Bytes (n : Nat) : Bytes :=
  [n / 0x1000000 % 256, n / 0x10000 % 256, n / 0x100 % 256, n % 256]

/-- A minimal valid frame: total_length 16, header_length 0, empty
payload, correct prelude and message CRCs. -/
def c5FrameBytes : Bytes :=
  let prelude8 : Bytes := [0, 0, 0, 16, 0, 0, 0, 0]
  let first12 := prelude8 ++ be32Bytes (crc32 prelude8)
  first12 ++ be32Bytes (crc32 first12)

/-- The frame parsed from `c5FrameBytes`. -/
def c5Frame : Frame := ⟨[], []⟩

/-- A decoder holding one valid frame, with three consecutive errors
recorded. -/
def c5GoodDec : EventStreamDecoder :=
  { EventStreamDecoder.new with buffer := c5FrameBytes, errorCount := 3 }

/-- A decoder one error away from stopping, holding a buffer whose
declared total_length 0 is rejected before the CRC check. -/
def c5BadDec : EventStreamDecoder :=
  { EventStreamDecoder.new with
      buffer := [0, 0, 0, 0, 0, 0, 0, 0, 0, 0, 0, 0], errorCount := 4 }

/-- The same malformed buffer with no errors recorded yet. -/
def c5ErrDec : EventStreamDecoder :=
  { EventStreamDecoder.new with
      buffer := [0, 0, 0, 0, 0, 0, 0, 0, 0, 0, 0, 0] }

/-- A stopped decoder. -/
def c5StopDec : EventStreamDecoder :=
  { EventStreamDecoder.new with state := .stopped, errorCount := 5 }

/-- A decoder with a short garbage buffer (prelude-phase recovery). -/
def c5PrelDec : EventStreamDecoder :=
  { EventStreamDecoder.new with buffer := [1, 2, 3] }

/-- A decoder whose buffer declares total_length 16 and is fully
covered, but whose CRCs are wrong (data-phase recovery skips the whole
declared frame). -/
def c5DataDec : EventStreamDecoder :=
  { EventStreamDecoder.new with
      buffer := [0, 0, 0, 16, 0, 0, 0, 0, 9, 9, 9, 9, 7, 7, 7, 7] }

/-!
## Theorems
-/

set_option maxRecDepth 100000 in
/-- The function `crc32c` agrees with the unit tests in src/kiro/parser/crc.rs: the
Castagnoli check value on `"123456789"` is `0xE3069283` — not the
ISO-HDLC value `0xCBF43926` — and `0` on the empty slice. -/
theorem crc32c_matches_crc_rs_tests :
    crc32c (strBytes "123456789") = 0xE3069283 ∧ crc32c [] = 0 := by
  exact ⟨by decide, by decide⟩

set_option maxRecDepth 100000 in
/-- C3: the CRC32 function used by the frame codec for the prelude and
message checksums is CRC-32/ISO-HDLC: on the nine bytes `"123456789"` it
returns `0xCBF43926`, and on the empty slice it returns `0`.
(`crc32` is modelled from the spec because the sources only ship its
caller `parse_frame`; the `crc32c` actually present in crc.rs is dead
code with respect to the frame codec.) -/
theorem c3_crc32_iso_hdlc_check_values :
    crc32 (strBytes "123456789") = 0xCBF43926 ∧ crc32 [] = 0 := by
  exact ⟨by decide, by decide⟩

set_option maxRecDepth 1000000 in
/-- C9 counterexample: `"ab"` and `"cd"` have equal length, yet
`constant_time_eq` returns `false` — refuting "returns true for every
pair of equal-length strings". -/
theorem c9_counterexample :
    (strBytes "ab").length = (strBytes "cd").length ∧
      constant_time_eq (strBytes "ab") (strBytes "cd") = false := by
  exact ⟨by decide, by decide⟩

/-- C9 (amended): the comparator returns true exactly on equal strings;
in particular it returns false for any pair of unequal-length strings
and for any pair of equal-length strings differing in some byte. -/
theorem c9_constant_time_eq_iff_eq (a b : Bytes) :
    constant_time_eq a b = true ↔ a = b := by
  induction a generalizing b with
  | nil => cases b <;> simp [constant_time_eq]
  | cons x xs ih =>
    cases b with
    | nil => simp [constant_time_eq]
    | cons y ys =>
      have h := ih ys
      simp only [constant_time_eq, List.length_cons, List.zip_cons_cons,
        List.all_cons, Bool.and_eq_true, beq_iff_eq, Nat.add_right_cancel_iff,
        List.cons.injEq] at h ⊢
      constructor
      · rintro ⟨hlen, hxy, hall⟩
        exact ⟨hxy, h.mp ⟨by simpa using hlen, hall⟩⟩
      · rintro ⟨hxy, hys⟩
        have := h.mpr hys
        exact ⟨by simpa using this.1, hxy, this.2⟩

/-- C4: with thinking enabled, feeding the chunks `<thin`, `king>`,
`\n`, `abc`, `</thi`, `nking>\n\n`, `hello` and flushing produces
exactly one thinking block whose accumulated content is `"abc"`, then
exactly one text block whose accumulated content is `"hello"` (so no
newline leaks into either block), and the final stop_reason is
`end_turn`. -/
theorem c4_thinking_tag_across_chunks :
    collectThinkingContent c4Trace = strBytes "abc" ∧
    collectTextContent c4Trace = strBytes "hello" ∧
    countBlockStarts c4Trace .thinking = 1 ∧
    countBlockStarts c4Trace .text = 1 ∧
    (findMessageDelta c4Trace).map (fun p => p.1) = some .endTurn := by
  refine ⟨by decide, by decide, by decide, by decide, by decide⟩

set_option maxRecDepth 1000000 in
/-- C1 counterexample: on the upstream sequence `c1Events` (a partial
tool call, assistant text, then the completion of the same tool call)
the emitted trace violates the flat grammar
`message_start (content_block_start content_block_delta* content_block_stop)* message_delta message_stop`:
the tool_use block receives a delta after a later text block has already
started and stopped. -/
theorem c1_counterexample : sseGrammarOk c1Trace = false := by decide

/-! ### C8: quota-exhaustion failover -/

/-- With duplicate-free ids, replacing the first match is a pointwise map. -/
theorem updateFirstById_eq_map (l : List CredentialEntry) (i : Nat)
    (f : CredentialEntry → CredentialEntry)
    (h : (l.map (·.id)).Nodup) :
    updateFirstById l i f = l.map (fun e => if e.id = i then f e else e) := by
  induction l with
  | nil => rfl
  | cons e rest ih =>
    simp only [List.map_cons, List.nodup_cons, List.mem_map] at h
    by_cases he : e.id = i
    · have hrest : ∀ x ∈ rest, (if x.id = i then f x else x) = x := by
        intro x hx
        have hne : x.id ≠ i := fun hxi => h.1 ⟨x, hx, by rw [hxi, he]⟩
        simp [hne]
      simp only [updateFirstById, he, if_pos, List.map_cons]
      rw [List.map_congr_left hrest]
      simp
    · simp only [updateFirstById, he, if_neg, List.map_cons, ite_false]
      rw [ih h.2]

/-- `minByStep` never returns `none`. -/
theorem minByStep_some (acc : Option CredentialEntry) (e : CredentialEntry) :
    ∃ a, minByStep acc e = some a := by
  cases acc with
  | none => exact ⟨e, rfl⟩
  | some b =>
    by_cases hp : e.priority < b.priority
    · exact ⟨e, by simp [minByStep, hp]⟩
    · exact ⟨b, by simp [minByStep, hp]⟩

/-- The accumulator-generalized specification of `minByPriority`'s fold. -/
theorem minByPriorityGo_spec (l : List CredentialEntry) :
    ∀ acc : Option CredentialEntry,
      match l.foldl minByStep acc with
      | none => acc = none ∧ l = []
      | some m =>
        (m ∈ l ∨ acc = some m) ∧ (∀ x ∈ l, m.priority ≤ x.priority) ∧
          (∀ a, acc = some a → m.priority ≤ a.priority) := by
  induction l with
  | nil =>
    intro acc
    cases acc with
    | none => simp
    | some m => simp
  | cons e rest ih =>
    intro acc
    simp only [List.foldl_cons]
    have h := ih (minByStep acc e)
    revert h
    cases hres : rest.foldl minByStep (minByStep acc e) with
    | none =>
      intro h
      exfalso
      rcases h with ⟨h1, _⟩
      cases acc with
      | none => exact Option.noConfusion h1
      | some b =>
        by_cases hp : e.priority < b.priority <;> simp [minByStep, hp] at h1
    | some m =>
      intro h
      obtain ⟨hmem, hle, hacc⟩ := h
      have hstep : ∀ a, minByStep acc e = some a →
          (a = e ∨ acc = some a) ∧ a.priority ≤ e.priority ∧
            (∀ b, acc = some b → a.priority ≤ b.priority) := by
        intro a ha
        cases acc with
        | none =>
          simp only [minByStep] at ha
          obtain rfl := Option.some.injEq _ _ ▸ ha
          exact ⟨Or.inl rfl, le_refl _, fun b hb => Option.noConfusion hb⟩
        | some b =>
          simp only [minByStep] at ha
          by_cases hp : e.priority < b.priority
          · rw [if_pos hp] at ha
            obtain rfl : e = a := Option.some.inj ha
            exact ⟨Or.inl rfl, le_refl _,
              fun c hc => by obtain rfl : b = c := Option.some.inj hc; omega⟩
          · rw [if_neg hp] at ha
            obtain rfl : b = a := Option.some.inj ha
            refine ⟨Or.inr rfl, by omega, ?_⟩
            intro c hc
            obtain rfl : b = c := Option.some.inj hc
            exact le_refl _
      refine ⟨?_, ?_, ?_⟩
      · rcases hmem with hm | hm
        · exact Or.inl (List.mem_cons_of_mem _ hm)
        · rcases (hstep m hm).1 with rfl | hm'
          · exact Or.inl (List.mem_cons_self _ _)
          · exact Or.inr hm'
      · intro x hx
        rcases List.mem_cons.mp hx with rfl | hx
        · obtain ⟨a, hacc'⟩ := minByStep_some acc x
          have h1 := hacc a hacc'
          have h2 := (hstep a hacc').2.1
          omega
        · exact hle x hx
      · intro a ha
        obtain ⟨c, hstep'⟩ := minByStep_some acc e
        have h1 := hacc c hstep'
        have h2 := (hstep c hstep').2.2 a ha
        omega

/-- `minByPriority` returns a member attaining the minimum priority. -/
theorem minByPriority_spec (l : List CredentialEntry) (m : CredentialEntry)
    (h : minByPriority l = some m) :
    m ∈ l ∧ ∀ x ∈ l, m.priority ≤ x.priority := by
  have := minByPriorityGo_spec l none
  rw [minByPriority] at h
  rw [h] at this
  obtain ⟨hmem, hle, _⟩ := this
  refine ⟨?_, hle⟩
  rcases hmem with hm | hm
  · exact hm
  · exact Option.noConfusion hm

/-- `minByPriority` is `none` only on the empty list. -/
theorem minByPriority_none (l : List CredentialEntry)
    (h : minByPriority l = none) : l = [] := by
  have := minByPriorityGo_spec l none
  rw [minByPriority] at h
  rw [h] at this
  exact this.2

/-- A satisfied predicate is found by `find?`. -/
theorem find_some_of_mem {α : Type} {p : α → Bool} {l : List α}
    (h : ∃ e ∈ l, p e) : ∃ e, l.find? p = some e ∧ e ∈ l ∧ p e := by
  induction l with
  | nil => simp at h
  | cons x rest ih =>
    by_cases hx : p x
    · exact ⟨x, by simp [List.find?, hx], List.mem_cons_self x rest, hx⟩
    · obtain ⟨e, he, hpe⟩ := h
      rcases List.mem_cons.mp he with rfl | he
      · exact absurd hpe hx
      · obtain ⟨e', h1, h2, h3⟩ := ih ⟨e, he, hpe⟩
        exact ⟨e', by simp [List.find?, hx, h1], List.mem_cons_of_mem _ h2, h3⟩

/-- C8: for every pool state with duplicate-free ids and every id of an
enabled entry, `report_quota_exhausted` disables that entry with
`QuotaExceeded` and pins its failure count to the threshold 3, leaves
every other entry unchanged, returns true exactly when some other entry
is still enabled, and in that case switches the current credential to a
remaining enabled entry of minimal priority number. -/
theorem c8_report_quota_exhausted (st : TokenManagerState) (i : Nat)
    (huniq : (st.entries.map (·.id)).Nodup)
    (hen : ∃ e ∈ st.entries, e.id = i ∧ e.disabled = false) :
    (∀ e ∈ (report_quota_exhausted st i).2.entries, e.id = i →
        e.disabled = true ∧ e.disabledReason = some .quotaExceeded ∧
          e.failureCount = MAX_FAILURES_PER_CREDENTIAL) ∧
    (∀ e ∈ (report_quota_exhausted st i).2.entries, e.id ≠ i →
        e ∈ st.entries) ∧
    ((report_quota_exhausted st i).1 = true ↔
        ∃ e ∈ st.entries, e.id ≠ i ∧ e.disabled = false) ∧
    ((report_quota_exhausted st i).1 = true →
        ∃ e ∈ (report_quota_exhausted st i).2.entries,
          (report_quota_exhausted st i).2.currentId = e.id ∧
            e.disabled = false ∧
            ∀ f ∈ (report_quota_exhausted st i).2.entries,
              f.disabled = false → e.priority ≤ f.priority) := by
  classical
  obtain ⟨e1, he1mem, he1id, he1dis⟩ := hen
  obtain ⟨e0, hfind, he0mem, he0p⟩ :=
    find_some_of_mem (p := fun e => e.id == i) ⟨e1, he1mem, by simp [he1id]⟩
  have he0id : e0.id = i := by simpa using he0p
  have hinj := List.inj_on_of_nodup_map huniq
  have he01 : e0 = e1 := hinj he0mem he1mem (by rw [he0id, he1id])
  have he0dis : e0.disabled = false := he01 ▸ he1dis
  set upd : CredentialEntry → CredentialEntry := fun e =>
    { e with
      disabled := true
      disabledReason := some .quotaExceeded
      failureCount := MAX_FAILURES_PER_CREDENTIAL } with hupd
  set g : CredentialEntry → CredentialEntry := fun e =>
    if e.id = i then upd e else e with hg
  have hmap : updateFirstById st.entries i upd = st.entries.map g :=
    updateFirstById_eq_map st.entries i upd huniq
  have hrun : report_quota_exhausted st i =
      (match minByPriority ((st.entries.map g).filter (fun e => !e.disabled)) with
       | some next => (true, { entries := st.entries.map g, currentId := next.id })
       | none => (false, { entries := st.entries.map g, currentId := st.currentId })) := by
    rw [report_quota_exhausted, hfind]
    simp only [he0dis, Bool.false_eq_true, if_false, ← hmap]
  have hmemchar : ∀ e ∈ st.entries.map g, (e.id = i → e.disabled = true ∧
      e.disabledReason = some .quotaExceeded ∧
      e.failureCount = MAX_FAILURES_PER_CREDENTIAL) ∧ (e.id ≠ i → e ∈ st.entries) := by
    intro e hmem
    obtain ⟨a, ha, hge⟩ := List.mem_map.mp hmem
    by_cases haid : a.id = i
    · constructor
      · intro _
        rw [← hge]
        simp [hg, haid, hupd]
      · intro hne
        exfalso
        apply hne
        rw [← hge]
        simp [hg, haid, hupd, ← he0id]
    · constructor
      · intro hid
        exfalso
        rw [← hge] at hid
        simp [hg, haid] at hid
      · intro _
        rw [← hge]
        simp [hg, haid]
        exact ha
  cases hmin : minByPriority ((st.entries.map g).filter (fun e => !e.disabled)) with
  | some next =>
    rw [hrun, hmin]
    obtain ⟨hnextmem, hnextmin⟩ := minByPriority_spec _ _ hmin
    have hnf := List.mem_filter.mp hnextmem
    have hnextdis : next.disabled = false := by simpa using hnf.2
    refine ⟨?_, ?_, ?_, ?_⟩
    · intro e hmem hid
      exact (hmemchar e hmem).1 hid
    · intro e hmem hne
      exact (hmemchar e hmem).2 hne
    · constructor
      · intro _
        obtain ⟨a, ha, hge⟩ := List.mem_map.mp hnf.1
        by_cases haid : a.id = i
        · exfalso
          have : next.disabled = true := by
            rw [← hge]; simp [hg, haid, hupd]
          rw [this] at hnextdis
          exact Bool.noConfusion hnextdis
        · refine ⟨a, ha, haid, ?_⟩
          have : next = a := by rw [← hge]; simp [hg, haid]
          rw [← this]
          exact hnextdis
      · intro _
        rfl
    · intro _
      refine ⟨next, hnf.1, rfl, hnextdis, ?_⟩
      intro f hf hfdis
      exact hnextmin f (List.mem_filter.mpr ⟨hf, by simp [hfdis]⟩)
  | none =>
    rw [hrun, hmin]
    have hempty := minByPriority_none _ hmin
    refine ⟨?_, ?_, ?_, ?_⟩
    · intro e hmem hid
      exact (hmemchar e hmem).1 hid
    · intro e hmem hne
      exact (hmemchar e hmem).2 hne
    · constructor
      · intro hfalse
        exact absurd hfalse (by simp)
      · rintro ⟨e, he, heid, hedis⟩
        exfalso
        have hgin : g e ∈ st.entries.map g := List.mem_map_of_mem g he
        have hge : g e = e := by simp [hg, heid]
        have : e ∈ (st.entries.map g).filter (fun e => !e.disabled) :=
          List.mem_filter.mpr ⟨hge ▸ hgin, by simp [hedis]⟩
        rw [hempty] at this
        exact List.not_mem_nil e this
    · intro hfalse
      exact absurd hfalse (by simp)

/-- C8 witness: a concrete two-credential pool; disabling entry 1 leaves
entry 2 enabled, switches to it, and reports availability. -/
theorem c8_witness :
    let st : TokenManagerState :=
      { entries :=
          [{ id := 1, priority := 0, disabled := false, disabledReason := none
             failureCount := 0, successCount := 0 },
           { id := 2, priority := 1, disabled := false, disabledReason := none
             failureCount := 0, successCount := 0 }]
        currentId := 1 }
    (∀ e ∈ (report_quota_exhausted st 1).2.entries, e.id = 1 →
        e.disabled = true ∧ e.disabledReason = some .quotaExceeded ∧
          e.failureCount = MAX_FAILURES_PER_CREDENTIAL) ∧
    ((report_quota_exhausted st 1).1 = true ↔
        ∃ e ∈ st.entries, e.id ≠ 1 ∧ e.disabled = false) := by
  intro st
  have h := c8_report_quota_exhausted st 1 (by decide)
    ⟨{ id := 1, priority := 0, disabled := false, disabledReason := none
       failureCount := 0, successCount := 0 }, by decide, rfl, rfl⟩
  exact ⟨h.1, h.2.2.1⟩

/-! ### C2: tool_use / tool_result pairing repair -/

/-- Membership after a set insert. -/
theorem insertSet_mem (s : List String) (x y : String) :
    y ∈ insertSet s x ↔ y ∈ s ∨ y = x := by
  unfold insertSet
  by_cases h : x ∈ s
  · simp only [h, if_pos]
    constructor
    · exact Or.inl
    · rintro (hy | rfl)
      · exact hy
      · exact h
  · simp [h]

/-- The id-insert fold only grows the accumulator. -/
theorem insertFold_mono (l : List ToolUseEntry) :
    ∀ acc y, y ∈ acc →
      y ∈ l.foldl (fun a tu => insertSet a tu.toolUseId) acc := by
  induction l with
  | nil => intro acc y h; exact h
  | cons t rest ih =>
    intro acc y h
    exact ih _ y ((insertSet_mem acc t.toolUseId y).mpr (Or.inl h))

/-- `collectAllStep` only grows the accumulator. -/
theorem collectAllStep_mono (acc : List String) (msg : KMessage) (y : String)
    (h : y ∈ acc) : y ∈ collectAllStep acc msg := by
  cases msg with
  | user um => exact h
  | assistant am =>
    cases htu : am.toolUses with
    | none => simpa [collectAllStep, htu] using h
    | some tus =>
      simp only [collectAllStep, htu]
      exact insertFold_mono tus acc y h

/-- The `collectAllStep` fold only grows the accumulator. -/
theorem collectAllFold_mono (history : List KMessage) :
    ∀ acc y, y ∈ acc → y ∈ history.foldl collectAllStep acc := by
  induction history with
  | nil => intro acc y h; exact h
  | cons msg rest ih =>
    intro acc y h
    exact ih _ y (collectAllStep_mono acc msg y h)

/-- A tool_use id of an assistant message ends up in `collectAllStep`. -/
theorem collectAllStep_adds (acc : List String) (am : AssistantResponseMessage)
    (tus : List ToolUseEntry) (htu : am.toolUses = some tus)
    (tu : ToolUseEntry) (hmem : tu ∈ tus) :
    tu.toolUseId ∈ collectAllStep acc (.assistant am) := by
  simp only [collectAllStep, htu]
  clear htu
  induction tus generalizing acc with
  | nil => simp at hmem
  | cons t rest ih =>
    simp only [List.foldl_cons]
    rcases List.mem_cons.mp hmem with rfl | hmem
    · exact insertFold_mono rest _ _
        ((insertSet_mem acc tu.toolUseId tu.toolUseId).mpr (Or.inr rfl))
    · exact ih _ hmem

/-- Every tool_use id in history is collected. -/
theorem mem_collectAllToolUseIds (history : List KMessage)
    (am : AssistantResponseMessage) (hmsg : KMessage.assistant am ∈ history)
    (tus : List ToolUseEntry) (htu : am.toolUses = some tus)
    (tu : ToolUseEntry) (hmem : tu ∈ tus) :
    tu.toolUseId ∈ collectAllToolUseIds history := by
  rw [collectAllToolUseIds]
  have main : ∀ (h : List KMessage), KMessage.assistant am ∈ h →
      ∀ acc, tu.toolUseId ∈ h.foldl collectAllStep acc := by
    intro h
    induction h with
    | nil => intro hmsg2; simp at hmsg2
    | cons msg rest ih =>
      intro hmsg2 acc
      rcases List.mem_cons.mp hmsg2 with rfl | hmsg3
      · exact collectAllFold_mono rest _ _
          (collectAllStep_adds acc am tus htu tu hmem)
      · exact ih hmsg3 _
  exact main history hmsg []

/-- The validated prefix of the sweep only grows. -/
theorem sweepFold_mono (trs : List ToolResult) :
    ∀ f0 u0 (r : ToolResult), r ∈ f0 → r ∈ (trs.foldl sweepStep (f0, u0)).1 := by
  induction trs with
  | nil => intro f0 u0 r h; exact h
  | cons t rest ih =>
    intro f0 u0 r h
    simp only [List.foldl_cons]
    by_cases hc : t.toolUseId ∈ u0
    · simpa [sweepStep, hc] using
        ih (f0 ++ [t]) (u0.filter (fun x => x ≠ t.toolUseId)) r
          (List.mem_append.mpr (Or.inl h))
    · simpa [sweepStep, hc] using ih f0 u0 r h

/-- Every initially-unpaired id either stays unpaired after the sweep or
was matched by a kept tool_result. -/
theorem sweepFold_covers (trs : List ToolResult) :
    ∀ f0 u0 (x : String), x ∈ u0 →
      x ∈ (trs.foldl sweepStep (f0, u0)).2 ∨
        x ∈ (trs.foldl sweepStep (f0, u0)).1.map (fun r => r.toolUseId) := by
  induction trs with
  | nil => intro f0 u0 x h; exact Or.inl h
  | cons t rest ih =>
    intro f0 u0 x h
    simp only [List.foldl_cons]
    by_cases hc : t.toolUseId ∈ u0
    · simp only [sweepStep, hc, if_pos]
      by_cases hx : x = t.toolUseId
      · right
        subst hx
        have : t ∈ (rest.foldl sweepStep
            (f0 ++ [t], u0.filter (fun y => y ≠ t.toolUseId))).1 :=
          sweepFold_mono rest _ _ t (List.mem_append.mpr (Or.inr (by simp)))
        exact List.mem_map.mpr ⟨t, this, rfl⟩
      · exact ih _ _ x (List.mem_filter.mpr ⟨h, by simpa using hx⟩)
    · simp only [sweepStep, hc, if_neg, ite_false]
      exact ih f0 u0 x h

/-- Stripping orphans does not change the user messages, hence not the
history tool_result ids. -/
theorem collectHistoryToolResultIds_remove (history : List KMessage)
    (orphanedIds : List String) :
    collectHistoryToolResultIds (remove_orphaned_tool_uses history orphanedIds)
      = collectHistoryToolResultIds history := by
  rw [remove_orphaned_tool_uses]
  by_cases h : orphanedIds.isEmpty
  · simp [h]
  · simp only [h, Bool.false_eq_true, if_false]
    rw [collectHistoryToolResultIds, collectHistoryToolResultIds]
    generalize ([] : List String) = acc
    induction history generalizing acc with
    | nil => rfl
    | cons msg rest ih =>
      simp only [List.map_cons, List.foldl_cons]
      have hstep : collectHistStep acc (removeOrphanStep orphanedIds msg)
          = collectHistStep acc msg := by
        cases msg with
        | user um => rfl
        | assistant am =>
          obtain ⟨c, tuso⟩ := am
          cases tuso <;> rfl
      rw [hstep]
      exact ih _

/-- An `isEmpty`-guarded option is never `some []`. -/
theorem ite_isEmpty_ne_some_nil (l : List ToolUseEntry) :
    (if l.isEmpty then none else some l) ≠ some ([] : List ToolUseEntry) := by
  cases l <;> simp

/-- `convert_assistant_message` never produces an empty tool_uses array. -/
theorem convert_assistant_message_no_empty (msg : AMessage) :
    (convert_assistant_message msg).toolUses ≠ some [] := by
  simp only [convert_assistant_message]
  exact ite_isEmpty_ne_some_nil _

/-- The system part of the history carries no tool_uses at all. -/
theorem buildSystemPart_no_empty (req : MessagesRequest) (modelId : String) :
    ∀ am, KMessage.assistant am ∈ buildSystemPart req modelId →
      am.toolUses ≠ some [] := by
  intro am hmem
  rw [buildSystemPart] at hmem
  cases hs : buildSystemUserContent req with
  | some c =>
    rw [hs] at hmem
    simp only [List.mem_cons, List.not_mem_nil, or_false] at hmem
    rcases hmem with h | h
    · exact KMessage.noConfusion h
    · obtain rfl := KMessage.assistant.inj h
      simp [mkHistAssistant]
  | none =>
    rw [hs] at hmem
    simp at hmem

/-- The history loop preserves the no-empty-tool_uses property. -/
theorem buildHistStep_no_empty (modelId : String)
    (st : List KMessage × List AMessage) (msg : AMessage)
    (h : ∀ am, KMessage.assistant am ∈ st.1 → am.toolUses ≠ some []) :
    ∀ am, KMessage.assistant am ∈ (buildHistStep modelId st msg).1 →
      am.toolUses ≠ some [] := by
  intro am hmem
  rw [buildHistStep] at hmem
  split at hmem
  · exact h am hmem
  · split at hmem
    · split at hmem
      · simp only [List.mem_append, List.mem_cons, List.mem_singleton] at hmem
        rcases hmem with hm | hm | hm | hm
        · exact h am hm
        · exact KMessage.noConfusion hm
        · obtain rfl := KMessage.assistant.inj hm.symm
          exact convert_assistant_message_no_empty msg
        · simp at hm
      · exact h am hmem
    · exact h am hmem

/-- `build_history` never produces an assistant message whose
`tool_uses` is an empty array. -/
theorem build_history_no_empty (req : MessagesRequest) (modelId : String) :
    ∀ am, KMessage.assistant am ∈ build_history req modelId →
      am.toolUses ≠ some [] := by
  intro am hmem
  rw [build_history] at hmem
  have hfold : ∀ (msgs : List AMessage) (st : List KMessage × List AMessage),
      (∀ a, KMessage.assistant a ∈ st.1 → a.toolUses ≠ some []) →
      ∀ a, KMessage.assistant a ∈ (msgs.foldl (buildHistStep modelId) st).1 →
        a.toolUses ≠ some [] := by
    intro msgs
    induction msgs with
    | nil => intro st h a ha; exact h a ha
    | cons m rest ih =>
      intro st h a ha
      exact ih _ (buildHistStep_no_empty modelId st m h) a ha
  have hres := hfold (req.messages.take (historyEndIndex req))
    (buildSystemPart req modelId, [])
    (fun a2 ha2 => buildSystemPart_no_empty req modelId a2 ha2)
  rw [buildHistFinish] at hmem
  split at hmem
  · simp only [List.mem_append, List.mem_cons, List.not_mem_nil, or_false]
      at hmem
    rcases hmem with hm | hm | hm
    · exact hres am hm
    · exact KMessage.noConfusion hm
    · obtain rfl := KMessage.assistant.inj hm
      simp [mkHistAssistant]
  · exact hres am hmem

/-- The pairing repair: in the repaired history, every assistant
tool_uses vector is nonempty and every tool_use id is answered either
inside history or by a validated current tool_result. -/
theorem repair_pairs (history : List KMessage) (toolResults : List ToolResult)
    (hne : ∀ am, KMessage.assistant am ∈ history → am.toolUses ≠ some []) :
    ∀ msg ∈ remove_orphaned_tool_uses history
        (validate_tool_pairing history toolResults).2,
      ∀ am, msg = KMessage.assistant am → ∀ tus, am.toolUses = some tus →
        tus ≠ [] ∧ ∀ tu ∈ tus,
          tu.toolUseId ∈ collectHistoryToolResultIds
            (remove_orphaned_tool_uses history
              (validate_tool_pairing history toolResults).2) ∨
          tu.toolUseId ∈ (validate_tool_pairing history toolResults).1.map
            (fun r => r.toolUseId) := by
  classical
  intro msg hmem am hmsg tus htus
  subst hmsg
  rw [collectHistoryToolResultIds_remove]
  set allIds := collectAllToolUseIds history with hallIds
  set historyIds := collectHistoryToolResultIds history with hhistIds
  set unpaired0 := allIds.filter (fun x => x ∉ historyIds) with hunp
  have hvp : validate_tool_pairing history toolResults
      = sweepToolResults toolResults unpaired0 := rfl
  have hcover := sweepFold_covers toolResults [] unpaired0
  -- main id-level argument, shared by both remove branches
  have main : ∀ (am0 : AssistantResponseMessage) (tus0 : List ToolUseEntry),
      KMessage.assistant am0 ∈ history → am0.toolUses = some tus0 →
      ∀ tu ∈ tus0, tu.toolUseId ∉ (validate_tool_pairing history toolResults).2 →
        tu.toolUseId ∈ historyIds ∨
          tu.toolUseId ∈ (validate_tool_pairing history toolResults).1.map
            (fun r => r.toolUseId) := by
    intro am0 tus0 hmem0 htus0 tu htu hnorph
    by_cases hh : tu.toolUseId ∈ historyIds
    · exact Or.inl hh
    · have hall : tu.toolUseId ∈ allIds :=
        mem_collectAllToolUseIds history am0 hmem0 tus0 htus0 tu htu
      have hunp0 : tu.toolUseId ∈ unpaired0 :=
        List.mem_filter.mpr ⟨hall, by simpa using hh⟩
      rcases hcover tu.toolUseId hunp0 with hc | hc
      · exact absurd hc hnorph
      · exact Or.inr hc
  rw [remove_orphaned_tool_uses] at hmem
  by_cases hemp : (validate_tool_pairing history toolResults).2.isEmpty
  · rw [if_pos hemp] at hmem
    refine ⟨?_, ?_⟩
    · intro hnil
      subst hnil
      exact hne am hmem htus
    · intro tu htu
      refine main am tus hmem htus tu htu ?_
      intro hbad
      rw [List.isEmpty_iff] at hemp
      rw [hemp] at hbad
      exact List.not_mem_nil _ hbad
  · rw [if_neg hemp] at hmem
    obtain ⟨msg0, hmem0, hmap⟩ := List.mem_map.mp hmem
    cases msg0 with
    | user um => exact KMessage.noConfusion hmap
    | assistant am0 =>
      obtain ⟨c0, tuso0⟩ := am0
      cases tuso0 with
      | none =>
        obtain rfl := KMessage.assistant.inj hmap
        exact absurd htus (by simp)
      | some tus0 =>
        obtain rfl := KMessage.assistant.inj hmap
        simp only [removeOrphanStep] at htus
        split at htus
        · exact Option.noConfusion htus
        · rename_i hret
          obtain rfl := Option.some.inj htus
          constructor
          · intro hnil
            exact hret (by rw [hnil]; rfl)
          · intro tu htu
            have hf := List.mem_filter.mp htu
            exact main ⟨c0, some tus0⟩ tus0 hmem0 rfl tu hf.1 (by simpa using hf.2)

/-- C2: for every request accepted by `convert_request`, every
`tool_use_id` kept in a history assistant message is answered either by
a tool_result inside a history user message or by a validated
tool_result forwarded with the current message, and no assistant message
carries an empty `tool_uses` array (orphans having been stripped). -/
theorem c2_tool_pairing (req : MessagesRequest) (res : ConvResult)
    (h : convert_request req = some res) :
    ∀ msg ∈ res.history, ∀ am, msg = KMessage.assistant am →
      ∀ tus, am.toolUses = some tus →
        tus ≠ [] ∧ ∀ tu ∈ tus,
          tu.toolUseId ∈ collectHistoryToolResultIds res.history ∨
          tu.toolUseId ∈ res.currentToolResults.map (fun r => r.toolUseId) := by
  rw [convert_request] at h
  cases hm : map_model req.model with
  | none =>
    rw [hm] at h
    exact Option.noConfusion h
  | some modelId =>
    rw [hm] at h
    cases hl : req.messages.getLast? with
    | none =>
      rw [hl] at h
      exact Option.noConfusion h
    | some lastMessage =>
      rw [hl] at h
      obtain rfl := Option.some.inj h
      intro msg hmem am hmsg tus htus
      have hr := repair_pairs (build_history req modelId)
        (process_message_content lastMessage.content).2.2
        (build_history_no_empty req modelId) msg hmem am hmsg tus htus
      exact ⟨hr.1, fun tu htu => hr.2 tu htu⟩

set_option maxRecDepth 100000 in
/-- C2 witness: on the concrete request `c2Req`, the surviving history
tool_use `tool-1` is answered by the validated current tool_result. -/
theorem c2_witness :
    "tool-1" ∈ collectHistoryToolResultIds c2Res.history ∨
      "tool-1" ∈ c2Res.currentToolResults.map (fun r => r.toolUseId) := by
  have h := c2_tool_pairing c2Req c2Res (by decide)
  have h2 := h (KMessage.assistant
      { content := "I will read it."
        toolUses := some [⟨"tool-1", "read", defaultJsonObj⟩] })
    (by decide) _ rfl _ rfl
  simpa using h2.2 ⟨"tool-1", "read", defaultJsonObj⟩ (by decide)

set_option maxRecDepth 100000 in
/-- C10 counterexample: in `c10Req` the only inbound message is an
assistant message met with an empty user buffer; it is dropped from the
history, but — being the last inbound message — its content `"hello"`
is extracted into the current message, refuting "appears neither in the
forwarded history nor in the current message". -/
theorem c10_counterexample :
    (c10Req.messages.map fun m => m.role) = ["assistant"] ∧
      userBufAt (c10Req.messages.take 0) = [] ∧
      convert_request c10Req = some c10Res ∧
      c10Res.history = [] ∧ c10Res.currentContent = "hello" := by
  exact ⟨by decide, by decide, by decide, by decide, by decide⟩

/-- One `build_history` iteration acts on the user-buffer component as
`userBufStep`. -/
theorem buildHistStep_snd (modelId : String)
    (st : List KMessage × List AMessage) (msg : AMessage) :
    (buildHistStep modelId st msg).2 = userBufStep st.2 msg := by
  obtain ⟨h0, b0⟩ := st
  by_cases h1 : msg.role = "user"
  · simp [buildHistStep, userBufStep, h1]
  · by_cases h2 : msg.role = "assistant"
    · by_cases h3 : b0 = []
      · simp [buildHistStep, userBufStep, h1, h2, h3]
      · simp [buildHistStep, userBufStep, h1, h2, h3]
    · simp [buildHistStep, userBufStep, h1, h2]

/-- The user-buffer component of the history fold is the `userBufStep`
fold of the initial buffer. -/
theorem foldl_buildHistStep_snd (modelId : String) (msgs : List AMessage) :
    ∀ st : List KMessage × List AMessage,
      (msgs.foldl (buildHistStep modelId) st).2 =
        msgs.foldl userBufStep st.2 := by
  induction msgs with
  | nil => intro st; rfl
  | cons m rest ih =>
    intro st
    simp only [List.foldl_cons]
    rw [ih, buildHistStep_snd]

/-- An assistant message arriving while the user buffer is empty leaves
the fold state unchanged. -/
theorem buildHistStep_assistant_nobuf (modelId : String)
    (st : List KMessage × List AMessage) (msg : AMessage)
    (hrole : msg.role = "assistant") (hbuf : st.2 = []) :
    buildHistStep modelId st msg = st := by
  obtain ⟨h0, b0⟩ := st
  have hb : b0 = [] := hbuf
  subst hb
  simp [buildHistStep, hrole]

/-- Deleting an assistant message met with an empty user buffer does not
change the history fold. -/
theorem foldl_buildHistStep_skip (modelId : String)
    (l1 l2 : List AMessage) (mi : AMessage)
    (st : List KMessage × List AMessage)
    (hrole : mi.role = "assistant")
    (hbuf : (l1.foldl (buildHistStep modelId) st).2 = []) :
    (l1 ++ mi :: l2).foldl (buildHistStep modelId) st =
      (l1 ++ l2).foldl (buildHistStep modelId) st := by
  rw [List.foldl_append, List.foldl_append, List.foldl_cons,
    buildHistStep_assistant_nobuf modelId _ mi hrole hbuf]

/-- Deleting a non-final element of a list does not change the last
element. -/
theorem getLast?_eraseIdx_of_lt {α : Type _} (l : List α) (i : Nat)
    (h : i + 1 < l.length) : (l.eraseIdx i).getLast? = l.getLast? := by
  have hdropne : l.drop (i + 1) ≠ [] := by
    intro hnil
    have hlen := congrArg List.length hnil
    simp only [List.length_drop, List.length_nil] at hlen
    omega
  rw [List.eraseIdx_eq_take_drop_succ]
  conv_rhs => rw [← List.take_append_drop (i + 1) l]
  rw [List.getLast?_append, List.getLast?_append]
  cases hD : (l.drop (i + 1)).getLast? with
  | none => exact absurd (List.getLast?_eq_none_iff.mp hD) hdropne
  | some x => rfl

/-- Deleting from a request an assistant message that the history loop
meets with an empty user buffer — provided it is not the last inbound
message — does not change `build_history`. -/
theorem build_history_eraseIdx (req : MessagesRequest) (i : Nat)
    (mi : AMessage)
    (hlt : i + 1 < req.messages.length)
    (hget : req.messages[i]? = some mi)
    (hrole : mi.role = "assistant")
    (hbuf : userBufAt (req.messages.take i) = [])
    (modelId : String) :
    build_history { req with messages := req.messages.eraseIdx i } modelId =
      build_history req modelId := by
  have hi : i < req.messages.length := by omega
  have hmi : req.messages[i] = mi := by
    rw [List.getElem?_eq_getElem hi] at hget
    exact Option.some.inj hget
  have hsplit : req.messages =
      req.messages.take i ++ mi :: req.messages.drop (i + 1) := by
    conv_lhs => rw [← List.take_append_drop i req.messages]
    rw [List.drop_eq_getElem_cons hi, hmi]
  have hlast : (req.messages.eraseIdx i).getLast? = req.messages.getLast? :=
    getLast?_eraseIdx_of_lt req.messages i hlt
  have hlen2 : (req.messages.eraseIdx i).length = req.messages.length - 1 :=
    List.length_eraseIdx_of_lt hi
  have hAlen : (req.messages.take i).length = i := by
    rw [List.length_take]
    omega
  have hendux : historyEndIndex { req with messages := req.messages.eraseIdx i } =
      historyEndIndex req - 1 := by
    simp only [historyEndIndex]
    rw [hlast, hlen2]
    cases hb : (req.messages.getLast?.map fun m => m.role == "assistant").getD false
    · simp
    · simp
  have hiE : i + 1 ≤ historyEndIndex req := by
    rw [historyEndIndex]
    split
    · omega
    · omega
  have htake1 : List.take (historyEndIndex req) (req.messages.take i) =
      req.messages.take i :=
    List.take_of_length_le (by rw [hAlen]; omega)
  have htake2 : List.take (historyEndIndex req - 1) (req.messages.take i) =
      req.messages.take i :=
    List.take_of_length_le (by rw [hAlen]; omega)
  have hT1 : req.messages.take (historyEndIndex req) =
      req.messages.take i ++
        mi :: (req.messages.drop (i + 1)).take (historyEndIndex req - i - 1) := by
    conv_lhs => rw [hsplit]
    rw [List.take_append_eq_append_take, hAlen, htake1]
    obtain ⟨k, hk⟩ : ∃ k, historyEndIndex req - i = k + 1 :=
      ⟨historyEndIndex req - i - 1, by omega⟩
    rw [hk]
    simp
  have hT2 : (req.messages.eraseIdx i).take (historyEndIndex req - 1) =
      req.messages.take i ++
        (req.messages.drop (i + 1)).take (historyEndIndex req - i - 1) := by
    rw [List.eraseIdx_eq_take_drop_succ, List.take_append_eq_append_take,
      hAlen, htake2]
    have harith : historyEndIndex req - 1 - i = historyEndIndex req - i - 1 := by
      omega
    rw [harith]
  have hbufA : ((req.messages.take i).foldl (buildHistStep modelId)
      (buildSystemPart req modelId, [])).2 = [] := by
    rw [foldl_buildHistStep_snd]
    exact hbuf
  rw [build_history, build_history]
  have hsys : buildSystemPart { req with messages := req.messages.eraseIdx i }
      modelId = buildSystemPart req modelId := rfl
  rw [hendux, hsys]
  dsimp only
  rw [hT1, hT2, foldl_buildHistStep_skip modelId _ _ mi _ hrole hbufA]

/-- C10 (amended): an inbound assistant message met with an empty user
buffer is dropped from the forwarded history, and — provided it is not
the last inbound message — the entire conversion result is unchanged by
deleting it from the request; when it is the last inbound message it is
still dropped from the history, but its content is extracted into the
current message (see the counterexample). -/
theorem c10_assistant_dropped (req : MessagesRequest) (i : Nat)
    (mi : AMessage)
    (hlt : i + 1 < req.messages.length)
    (hget : req.messages[i]? = some mi)
    (hrole : mi.role = "assistant")
    (hbuf : userBufAt (req.messages.take i) = []) :
    convert_request req =
      convert_request { req with messages := req.messages.eraseIdx i } := by
  have hlast : (req.messages.eraseIdx i).getLast? = req.messages.getLast? :=
    getLast?_eraseIdx_of_lt req.messages i hlt
  rw [convert_request, convert_request]
  dsimp only
  cases hm : map_model req.model with
  | none => rfl
  | some modelId =>
    dsimp only
    rw [hlast]
    cases hl : req.messages.getLast? with
    | none => rfl
    | some lastMessage =>
      dsimp only
      rw [build_history_eraseIdx req i mi hlt hget hrole hbuf modelId]

set_option maxRecDepth 1000000 in
/-- C7 counterexample: the model `claude-opus-4-6-1m` is flagged
1M-context by `get_context_window_size`, yet after a `contextUsageEvent`
of 50 percent the `message_delta` reports
`floor(50 x 200000 / 100) = 100000` input tokens, not the
`floor(50 x 1000000 / 100) = 500000` a 1,000,000-token window would
give — refuting the 1M-window part of the claim (no code calls
`get_context_window_size`). -/
theorem c7_counterexample :
    get_context_window_size "claude-opus-4-6-1m" = 1000000 ∧
      ((StreamContext.new_with_thinking "claude-opus-4-6-1m" 7
          false).process_kiro_event
            (.contextUsage 50)).2.contextInputTokens = some 100000 ∧
      castF64ToI32 ((50 : ℚ) * 1000000 / 100) = 500000 ∧
      (100000 : Int) ≠ 500000 := by
  refine ⟨by decide, ?_, ?_, by decide⟩
  · have hle : ¬ (100 : ℚ) ≤ 50 := by norm_num
    rw [StreamContext.process_kiro_event]
    dsimp only
    rw [if_neg hle]
    norm_num [castF64ToI32, CONTEXT_WINDOW_SIZE, Int.floor_ofNat]
  · norm_num [castF64ToI32, Int.floor_ofNat]

/-- A prefix free of `message_delta` events does not affect the first
`message_delta` found in a trace. -/
theorem findMessageDelta_append (l r : List SseEvt)
    (h : ∀ e ∈ l, isMessageDelta e = false) :
    findMessageDelta (l ++ r) = findMessageDelta r := by
  induction l with
  | nil => rfl
  | cons e rest ih =>
    have he := h e (List.mem_cons_self e rest)
    have hr : ∀ x ∈ rest, isMessageDelta x = false := fun x hx =>
      h x (List.mem_cons_of_mem e hx)
    cases e <;> simp_all [findMessageDelta, isMessageDelta]

/-- The text-block auto-close loop emits only `content_block_stop`
events. -/
theorem closeOpenTextBlocks_noMsgDelta (bs : List (Nat × BlockState)) :
    ∀ e ∈ (closeOpenTextBlocks bs).1, isMessageDelta e = false := by
  induction bs with
  | nil => simp [closeOpenTextBlocks]
  | cons p rest ih =>
    obtain ⟨i, b⟩ := p
    rcases hr : closeOpenTextBlocks rest with ⟨evts, rest2⟩
    rw [hr] at ih
    simp only [closeOpenTextBlocks, hr]
    split
    · intro e he
      rcases List.mem_cons.mp (by simpa using he) with h1 | h1
      · subst h1; rfl
      · exact ih e h1
    · intro e he
      exact ih e (by simpa using he)

/-- The final close-everything loop emits only `content_block_stop`
events. -/
theorem closeAllOpenBlocks_noMsgDelta (bs : List (Nat × BlockState)) :
    ∀ e ∈ (closeAllOpenBlocks bs).1, isMessageDelta e = false := by
  induction bs with
  | nil => simp [closeAllOpenBlocks]
  | cons p rest ih =>
    obtain ⟨i, b⟩ := p
    rcases hr : closeAllOpenBlocks rest with ⟨evts, rest2⟩
    rw [hr] at ih
    simp only [closeAllOpenBlocks, hr]
    split
    · intro e he
      rcases List.mem_cons.mp (by simpa using he) with h1 | h1
      · subst h1; rfl
      · exact ih e h1
    · intro e he
      exact ih e (by simpa using he)

/-- `handle_content_block_start` emits no `message_delta` and leaves the
`message_delta_sent` flag untouched. -/
theorem handle_content_block_start_c7 (sm : SseStateManager) (i : Nat)
    (bt : BType) :
    (∀ e ∈ (sm.handle_content_block_start i bt).1, isMessageDelta e = false) ∧
      (sm.handle_content_block_start i bt).2.messageDeltaSent =
        sm.messageDeltaSent := by
  rw [SseStateManager.handle_content_block_start]
  rcases hc : closeOpenTextBlocks sm.activeBlocks with ⟨stops, blocks⟩
  have hstops : ∀ e ∈ stops, isMessageDelta e = false := by
    have h := closeOpenTextBlocks_noMsgDelta sm.activeBlocks
    rw [hc] at h
    exact h
  by_cases hbt : (bt == BType.toolUse) = true
  · rw [if_pos hbt]
    simp only [hc]
    split
    · split
      · exact ⟨hstops, rfl⟩
      · refine ⟨?_, rfl⟩
        intro e he
        rcases List.mem_append.mp he with h1 | h1
        · exact hstops e h1
        · obtain rfl := List.mem_singleton.mp h1
          rfl
    · refine ⟨?_, rfl⟩
      intro e he
      rcases List.mem_append.mp he with h1 | h1
      · exact hstops e h1
      · obtain rfl := List.mem_singleton.mp h1
        rfl
  · rw [if_neg hbt]
    dsimp only
    split
    · split
      · exact ⟨by simp, rfl⟩
      · refine ⟨?_, rfl⟩
        intro e he
        have h1 : e = SseEvt.contentBlockStart i bt := by simpa using he
        subst h1
        rfl
    · refine ⟨?_, rfl⟩
      intro e he
      have h1 : e = SseEvt.contentBlockStart i bt := by simpa using he
      subst h1
      rfl

/-- Equation form of `handle_content_block_start_c7`. -/
theorem handle_content_block_start_eq (sm : SseStateManager) (i : Nat)
    (bt : BType) (evts : List SseEvt) (sm2 : SseStateManager)
    (h : sm.handle_content_block_start i bt = (evts, sm2)) :
    (∀ e ∈ evts, isMessageDelta e = false) ∧
      sm2.messageDeltaSent = sm.messageDeltaSent := by
  have H := handle_content_block_start_c7 sm i bt
  rw [h] at H
  exact H

/-- `handle_content_block_delta` only ever emits a
`content_block_delta`. -/
theorem handle_content_block_delta_noMD (sm : SseStateManager) (i : Nat)
    (d : SseDelta) (e : SseEvt)
    (h : sm.handle_content_block_delta i d = some e) :
    isMessageDelta e = false := by
  rw [SseStateManager.handle_content_block_delta] at h
  split at h
  · split at h
    · exact Option.noConfusion h
    · obtain rfl := Option.some.inj h
      rfl
  · exact Option.noConfusion h

/-- `handle_content_block_stop` only ever emits a `content_block_stop`
and leaves the `message_delta_sent` flag untouched. -/
theorem handle_content_block_stop_c7 (sm : SseStateManager) (i : Nat) :
    (∀ e ∈ (sm.handle_content_block_stop i).1.toList,
        isMessageDelta e = false) ∧
      (sm.handle_content_block_stop i).2.messageDeltaSent =
        sm.messageDeltaSent := by
  rw [SseStateManager.handle_content_block_stop]
  split
  · split
    · exact ⟨by simp, rfl⟩
    · refine ⟨?_, rfl⟩
      intro e he
      have h1 : e = SseEvt.contentBlockStop i := by simpa using he
      subst h1
      rfl
  · exact ⟨by simp, rfl⟩

/-- The thinking-content delta helper emits no `message_delta`. -/
theorem thinkingContentDelta_noMD (ctx : StreamContext) (content : Bytes) :
    ∀ e ∈ ctx.thinkingContentDelta content, isMessageDelta e = false := by
  intro e he
  rw [StreamContext.thinkingContentDelta] at he
  split at he
  · cases hti : ctx.thinkingBlockIndex with
    | none =>
      rw [hti] at he
      cases he
    | some ti =>
      rw [hti] at he
      obtain rfl := List.mem_singleton.mp he
      rfl
  · cases he

/-- `emitThinkingClose` emits no `message_delta` and preserves the
token accounting and the `message_delta_sent` flag. -/
theorem emitThinkingClose_c7 (ctx : StreamContext) :
    (∀ e ∈ ctx.emitThinkingClose.1, isMessageDelta e = false) ∧
      ctx.emitThinkingClose.2.contextInputTokens = ctx.contextInputTokens ∧
      ctx.emitThinkingClose.2.inputTokens = ctx.inputTokens ∧
      ctx.emitThinkingClose.2.sm.messageDeltaSent =
        ctx.sm.messageDeltaSent := by
  rw [StreamContext.emitThinkingClose]
  split
  · rename_i ti hti
    have h5 := handle_content_block_stop_c7 ctx.sm ti
    refine ⟨?_, rfl, rfl, h5.2⟩
    intro e he
    rcases List.mem_append.mp he with h1 | h1
    · have h2 : e = createThinkingDeltaEvent ti [] := by simpa using h1
      subst h2
      rfl
    · exact h5.1 e h1
  · exact ⟨by simp, rfl, rfl, rfl⟩

/-- Equation form of `emitThinkingClose_c7`. -/
theorem emitThinkingClose_eq (ctx : StreamContext) (evts : List SseEvt)
    (ctx2 : StreamContext) (h : ctx.emitThinkingClose = (evts, ctx2)) :
    (∀ e ∈ evts, isMessageDelta e = false) ∧
      ctx2.contextInputTokens = ctx.contextInputTokens ∧
      ctx2.inputTokens = ctx.inputTokens ∧
      ctx2.sm.messageDeltaSent = ctx.sm.messageDeltaSent := by
  have H := emitThinkingClose_c7 ctx
  rw [h] at H
  exact H

/-- `create_text_delta_events` emits no `message_delta` and preserves
the token accounting and the `message_delta_sent` flag. -/
theorem create_text_delta_events_c7 (ctx : StreamContext) (text : Bytes) :
    (∀ e ∈ (ctx.create_text_delta_events text).1, isMessageDelta e = false) ∧
      (ctx.create_text_delta_events text).2.contextInputTokens =
        ctx.contextInputTokens ∧
      (ctx.create_text_delta_events text).2.inputTokens = ctx.inputTokens ∧
      (ctx.create_text_delta_events text).2.sm.messageDeltaSent =
        ctx.sm.messageDeltaSent := by
  rw [StreamContext.create_text_delta_events]
  cases htb : ctx.textBlockIndex with
  | some idx =>
    dsimp only
    by_cases hopen : (!ctx.sm.is_block_open_of_type idx BType.text) = true
    · rw [if_pos hopen]
      simp only [SseStateManager.nextIndex]
      have h3 := handle_content_block_start_c7
        { ctx.sm with nextBlockIndex := ctx.sm.nextBlockIndex + 1 }
        ctx.sm.nextBlockIndex BType.text
      split
      · rename_i e2 hd
        refine ⟨?_, rfl, rfl, h3.2⟩
        intro e he
        rcases List.mem_append.mp he with h1 | h1
        · exact h3.1 e h1
        · have h2 : e = e2 := by simpa using h1
          subst h2
          exact handle_content_block_delta_noMD _ _ _ _ hd
      · exact ⟨fun e he => h3.1 e he, rfl, rfl, h3.2⟩
    · rw [if_neg hopen]
      rw [htb]
      split
      · rename_i e2 hd
        refine ⟨?_, rfl, rfl, rfl⟩
        intro e he
        have h2 : e = e2 := by simpa using he
        subst h2
        exact handle_content_block_delta_noMD _ _ _ _ hd
      · exact ⟨by simp, rfl, rfl, rfl⟩
  | none =>
    dsimp only
    rw [htb]
    simp only [SseStateManager.nextIndex]
    have h3 := handle_content_block_start_c7
      { ctx.sm with nextBlockIndex := ctx.sm.nextBlockIndex + 1 }
      ctx.sm.nextBlockIndex BType.text
    split
    · rename_i e2 hd
      refine ⟨?_, rfl, rfl, h3.2⟩
      intro e he
      rcases List.mem_append.mp he with h1 | h1
      · exact h3.1 e h1
      · have h2 : e = e2 := by simpa using h1
        subst h2
        exact handle_content_block_delta_noMD _ _ _ _ hd
    · exact ⟨fun e he => h3.1 e he, rfl, rfl, h3.2⟩

/-- Equation form of `create_text_delta_events_c7`. -/
theorem create_text_delta_events_eq (ctx : StreamContext) (text : Bytes)
    (evts : List SseEvt) (ctx2 : StreamContext)
    (h : ctx.create_text_delta_events text = (evts, ctx2)) :
    (∀ e ∈ evts, isMessageDelta e = false) ∧
      ctx2.contextInputTokens = ctx.contextInputTokens ∧
      ctx2.inputTokens = ctx.inputTokens ∧
      ctx2.sm.messageDeltaSent = ctx.sm.messageDeltaSent := by
  have H := create_text_delta_events_c7 ctx text
  rw [h] at H
  exact H

/-- The thinking-buffer flush emits no `message_delta` and preserves
the token accounting and the `message_delta_sent` flag. -/
theorem flushThinkingBuffer_c7 (ctx : StreamContext) :
    (∀ e ∈ ctx.flushThinkingBuffer.1, isMessageDelta e = false) ∧
      ctx.flushThinkingBuffer.2.contextInputTokens = ctx.contextInputTokens ∧
      ctx.flushThinkingBuffer.2.inputTokens = ctx.inputTokens ∧
      ctx.flushThinkingBuffer.2.sm.messageDeltaSent =
        ctx.sm.messageDeltaSent := by
  rw [StreamContext.flushThinkingBuffer]
  split
  · split
    rename_i evts ctxE hE
    split at hE
    · split at hE
      · rename_i endPos hf
        split at hE
        rename_i evB ctxB hB
        have hEB := emitThinkingClose_eq _ _ _ hB
        dsimp only at hE
        split at hE
        · injection hE with hEv hCtx
          subst hEv
          subst hCtx
          refine ⟨?_, ?_, ?_, ?_⟩
          · intro e he
            rcases List.mem_append.mp he with h1 | h1
            · rcases List.mem_append.mp h1 with h2 | h2
              · exact thinkingContentDelta_noMD ctx _ e h2
              · exact hEB.1 e h2
            · exact (create_text_delta_events_c7 _ _).1 e h1
          · exact (create_text_delta_events_c7 _ _).2.1.trans hEB.2.1
          · exact (create_text_delta_events_c7 _ _).2.2.1.trans hEB.2.2.1
          · exact (create_text_delta_events_c7 _ _).2.2.2.trans hEB.2.2.2
        · injection hE with hEv hCtx
          subst hEv
          subst hCtx
          refine ⟨?_, hEB.2.1, hEB.2.2.1, hEB.2.2.2⟩
          intro e he
          rcases List.mem_append.mp he with h1 | h1
          · rcases List.mem_append.mp h1 with h2 | h2
            · exact thinkingContentDelta_noMD ctx _ e h2
            · exact hEB.1 e h2
          · exact absurd h1 (by simp)
      · rename_i hf
        split at hE
        rename_i evB ctxB hB
        have hEB := emitThinkingClose_eq _ _ _ hB
        dsimp only at hE
        injection hE with hEv hCtx
        subst hEv
        subst hCtx
        refine ⟨?_, hEB.2.1, hEB.2.2.1, hEB.2.2.2⟩
        intro e he
        rcases List.mem_append.mp he with h1 | h1
        · exact thinkingContentDelta_noMD ctx _ e h1
        · exact hEB.1 e h1
    · have hTC := create_text_delta_events_eq _ _ _ _ hE
      exact ⟨hTC.1, hTC.2.1, hTC.2.2.1, hTC.2.2.2⟩
  · exact ⟨by simp, rfl, rfl, rfl⟩

/-- Equation form of `flushThinkingBuffer_c7`. -/
theorem flushThinkingBuffer_eq (ctx : StreamContext) (evts : List SseEvt)
    (ctx2 : StreamContext) (h : ctx.flushThinkingBuffer = (evts, ctx2)) :
    (∀ e ∈ evts, isMessageDelta e = false) ∧
      ctx2.contextInputTokens = ctx.contextInputTokens ∧
      ctx2.inputTokens = ctx.inputTokens ∧
      ctx2.sm.messageDeltaSent = ctx.sm.messageDeltaSent := by
  have H := flushThinkingBuffer_c7 ctx
  rw [h] at H
  exact H

/-- With `message_delta` not yet sent, the final events report exactly
`context_input_tokens` (falling back to the estimated input tokens) in
the `message_delta`. -/
theorem generate_final_events_inputTokens (ctx : StreamContext)
    (hnd : ctx.sm.messageDeltaSent = false) :
    (findMessageDelta (ctx.generate_final_events).1).map (fun p => p.2.1) =
      some (ctx.contextInputTokens.getD ctx.inputTokens) := by
  rw [StreamContext.generate_final_events]
  split
  rename_i evts1 ctx1 h1
  have hF := flushThinkingBuffer_eq _ _ _ h1
  split
  rename_i evts2 ctx2 h2
  have hT : (∀ e ∈ evts2, isMessageDelta e = false) ∧
      ctx2.contextInputTokens = ctx1.contextInputTokens ∧
      ctx2.inputTokens = ctx1.inputTokens ∧
      ctx2.sm.messageDeltaSent = ctx1.sm.messageDeltaSent := by
    split at h2
    · dsimp only at h2
      have hx := create_text_delta_events_eq _ _ _ _ h2
      exact ⟨hx.1, hx.2.1, hx.2.2.1, hx.2.2.2⟩
    · injection h2 with ha hb
      subst ha
      subst hb
      exact ⟨by simp, rfl, rfl, rfl⟩
  have hmds2 : ctx2.sm.messageDeltaSent = false :=
    hT.2.2.2.trans (hF.2.2.2.trans hnd)
  have hclose := closeAllOpenBlocks_noMsgDelta ctx2.sm.activeBlocks
  dsimp only
  rw [SseStateManager.generate_final_events]
  dsimp only
  have hcond : (!ctx2.sm.messageDeltaSent) = true := by
    rw [hmds2]
    rfl
  rw [if_pos hcond]
  dsimp only
  split
  · rw [List.append_assoc, findMessageDelta_append evts1 _ hF.1,
      findMessageDelta_append evts2 _ hT.1, List.append_assoc,
      findMessageDelta_append _ _ hclose]
    simp only [List.cons_append, List.nil_append, findMessageDelta,
      Option.map_some']
    rw [hT.2.1, hT.2.2.1, hF.2.1, hF.2.2.1]
  · rw [List.append_assoc, findMessageDelta_append evts1 _ hF.1,
      findMessageDelta_append evts2 _ hT.1,
      findMessageDelta_append _ _ hclose]
    simp only [List.cons_append, List.nil_append, findMessageDelta,
      Option.map_some']
    rw [hT.2.1, hT.2.2.1, hF.2.1, hF.2.2.1]

/-- C7 (amended): a `contextUsageEvent` always sets
`context_input_tokens` from the fixed 200,000-token
`CONTEXT_WINDOW_SIZE` — whatever the model — and the `message_delta`
reports `context_input_tokens` when one arrived, falling back to the
estimated input tokens otherwise; the buffered variant rewrites
`message_start` to carry the same final value. -/
theorem c7_context_usage_input_tokens (ctx : StreamContext) (pct : ℚ)
    (hnd : ctx.sm.messageDeltaSent = false) :
    CONTEXT_WINDOW_SIZE = 200000 ∧
      (ctx.process_kiro_event (.contextUsage pct)).2.contextInputTokens =
        some (castF64ToI32 (pct * (CONTEXT_WINDOW_SIZE : ℚ) / 100)) ∧
      (findMessageDelta (ctx.generate_final_events).1).map (fun p => p.2.1) =
        some (ctx.contextInputTokens.getD ctx.inputTokens) ∧
      ∀ t x, fixMessageStart t (.messageStart x) = .messageStart t := by
  refine ⟨rfl, ?_, generate_final_events_inputTokens ctx hnd,
    fun t x => rfl⟩
  rw [StreamContext.process_kiro_event]
  dsimp only
  split
  · rfl
  · rfl

set_option maxRecDepth 100000 in
/-- C7 witness: on a fresh context, a 50 percent `contextUsageEvent`
yields `context_input_tokens = 100000`, and with no such event the
`message_delta` falls back to the estimated 7 input tokens. -/
theorem c7_witness :
    CONTEXT_WINDOW_SIZE = 200000 ∧
      (c7WitCtx.process_kiro_event (.contextUsage 50)).2.contextInputTokens =
        some (castF64ToI32 ((50 : ℚ) * (CONTEXT_WINDOW_SIZE : ℚ) / 100)) ∧
      (findMessageDelta (c7WitCtx.generate_final_events).1).map
          (fun p => p.2.1) =
        some (c7WitCtx.contextInputTokens.getD c7WitCtx.inputTokens) ∧
      ∀ t x, fixMessageStart t (.messageStart x) = .messageStart t :=
  c7_context_usage_input_tokens c7WitCtx 50 (by decide)

/-- The final close-everything loop emits nothing but
`content_block_stop` events. -/
theorem closeAllOpenBlocks_stops (bs : List (Nat × BlockState)) :
    ∀ e ∈ (closeAllOpenBlocks bs).1, ∃ i, e = SseEvt.contentBlockStop i := by
  induction bs with
  | nil => simp [closeAllOpenBlocks]
  | cons p rest ih =>
    obtain ⟨i, b⟩ := p
    rcases hr : closeAllOpenBlocks rest with ⟨evts, rest2⟩
    rw [hr] at ih
    simp only [closeAllOpenBlocks, hr]
    split
    · intro e he
      rcases List.mem_cons.mp (by simpa using he) with h1 | h1
      · exact ⟨i, h1⟩
      · exact ih e h1
    · intro e he
      exact ih e (by simpa using he)

/-- When every active block is a thinking block, no text block is open
at any index. -/
theorem no_text_open (sm : SseStateManager)
    (h : sm.has_non_thinking_blocks = false) (i : Nat) :
    sm.is_block_open_of_type i BType.text = false := by
  rw [SseStateManager.is_block_open_of_type]
  cases hl : blockLookup sm.activeBlocks i with
  | none => rfl
  | some b =>
    rw [SseStateManager.has_non_thinking_blocks, List.any_eq_false] at h
    rw [blockLookup] at hl
    obtain ⟨p, hp, hpb⟩ := Option.map_eq_some'.mp hl
    have hmem := List.mem_of_find?_eq_some hp
    have hth := h p hmem
    have hbt : p.2.btype = BType.thinking := by
      cases hbb : p.2.btype == BType.thinking
      · rw [hbb] at hth
        simp at hth
      · exact beq_iff_eq.mp hbb
    simp [← hpb, hbt]

/-- With no open text block and a fresh next index,
`create_text_delta_events` opens a new text block and emits exactly its
start event and one text delta, leaving the stop reason and the
message-delta/message-stop flags untouched. -/
theorem create_text_fresh (ctx : StreamContext) (text : Bytes)
    (hnt : ctx.sm.has_non_thinking_blocks = false)
    (hfresh : blockLookup ctx.sm.activeBlocks ctx.sm.nextBlockIndex = none) :
    (ctx.create_text_delta_events text).1 =
      [SseEvt.contentBlockStart ctx.sm.nextBlockIndex BType.text,
       SseEvt.contentBlockDelta ctx.sm.nextBlockIndex (.textDelta text)] ∧
      (ctx.create_text_delta_events text).2.sm.stopReason =
        ctx.sm.stopReason ∧
      (ctx.create_text_delta_events text).2.sm.messageDeltaSent =
        ctx.sm.messageDeltaSent ∧
      (ctx.create_text_delta_events text).2.sm.messageEnded =
        ctx.sm.messageEnded := by
  have hopen := no_text_open ctx.sm hnt
  have hfind : ctx.sm.activeBlocks.find?
      (fun p => p.1 == ctx.sm.nextBlockIndex) = none := by
    rw [blockLookup] at hfresh
    exact Option.map_eq_none'.mp hfresh
  rw [StreamContext.create_text_delta_events]
  cases htb : ctx.textBlockIndex with
  | some idx =>
    dsimp only
    have hcnd : (!ctx.sm.is_block_open_of_type idx BType.text) = true := by
      rw [hopen idx]
      rfl
    rw [if_pos hcnd]
    dsimp only
    simp only [SseStateManager.nextIndex]
    rw [SseStateManager.handle_content_block_start]
    dsimp only
    have hbt : ¬ ((BType.text == BType.toolUse) = true) := by decide
    rw [if_neg hbt]
    rw [hfresh]
    dsimp only
    rw [SseStateManager.handle_content_block_delta]
    dsimp only
    rw [blockLookup, List.find?_append, hfind]
    simp only [Option.none_or, List.find?, beq_self_eq_true]
    exact ⟨by simp, rfl, rfl, rfl⟩
  | none =>
    dsimp only
    rw [htb]
    simp only [SseStateManager.nextIndex]
    rw [SseStateManager.handle_content_block_start]
    dsimp only
    have hbt : ¬ ((BType.text == BType.toolUse) = true) := by decide
    rw [if_neg hbt]
    rw [hfresh]
    dsimp only
    rw [SseStateManager.handle_content_block_delta]
    dsimp only
    rw [blockLookup, List.find?_append, hfind]
    simp only [Option.none_or, List.find?, beq_self_eq_true]
    exact ⟨by simp, rfl, rfl, rfl⟩

/-- C6: if thinking was enabled and the whole stream produced only a
thinking block (no text and no tool_use block, i.e. a thinking block
index exists and no non-thinking block is active), `generate_final_events`
forces stop_reason `max_tokens` and emits one text block containing a
single space (so the content array is non-empty); in every other case
the reported stop_reason is `get_stop_reason`: sticky if set, else
`tool_use` when a tool_use was emitted, else `end_turn`. -/
theorem c6_thinking_only_max_tokens (ctx : StreamContext)
    (hbuf : ctx.thinkingBuffer = [])
    (hmds : ctx.sm.messageDeltaSent = false)
    (hfresh : blockLookup ctx.sm.activeBlocks ctx.sm.nextBlockIndex = none) :
    ((ctx.thinkingEnabled && ctx.thinkingBlockIndex.isSome
        && !ctx.sm.has_non_thinking_blocks) = true →
      (findMessageDelta (ctx.generate_final_events).1).map (fun p => p.1) =
          some StopReason.maxTokens ∧
        SseEvt.contentBlockStart ctx.sm.nextBlockIndex BType.text ∈
          (ctx.generate_final_events).1 ∧
        SseEvt.contentBlockDelta ctx.sm.nextBlockIndex
            (.textDelta (strBytes " ")) ∈ (ctx.generate_final_events).1 ∧
        countBlockStarts (ctx.generate_final_events).1 BType.text = 1) ∧
    ((ctx.thinkingEnabled && ctx.thinkingBlockIndex.isSome
        && !ctx.sm.has_non_thinking_blocks) = false →
      (findMessageDelta (ctx.generate_final_events).1).map (fun p => p.1) =
        some ctx.sm.get_stop_reason) ∧
    (∀ sm : SseStateManager, sm.stopReason = none →
      sm.get_stop_reason = if sm.hasToolUse then .toolUse else .endTurn) ∧
    ∀ sm : SseStateManager, ∀ r, sm.stopReason = some r →
      sm.get_stop_reason = r := by
  have hL1 : ctx.flushThinkingBuffer = ([], ctx) := by
    rw [StreamContext.flushThinkingBuffer]
    simp [hbuf]
  refine ⟨?_, ?_, ?_, ?_⟩
  · intro hA
    have hnb : ctx.sm.has_non_thinking_blocks = false := by
      cases h : ctx.sm.has_non_thinking_blocks
      · rfl
      · rw [h] at hA
        simp at hA
    rcases hg : ({ ctx with sm := { ctx.sm with
        stopReason := some StopReason.maxTokens } } :
          StreamContext).create_text_delta_events (strBytes " ")
      with ⟨evts2, ctx2⟩
    have hfr := create_text_fresh
      { ctx with sm := { ctx.sm with stopReason := some StopReason.maxTokens } }
      (strBytes " ") (by exact hnb) (by exact hfresh)
    rw [hg] at hfr
    dsimp only at hfr
    rw [StreamContext.generate_final_events, hL1]
    dsimp only
    rw [if_pos hA]
    rw [hg]
    dsimp only
    rw [hfr.1]
    rw [SseStateManager.generate_final_events]
    dsimp only
    have hcond : (!ctx2.sm.messageDeltaSent) = true := by
      rw [hfr.2.2.1]
      show (!ctx.sm.messageDeltaSent) = true
      rw [hmds]
      rfl
    rw [if_pos hcond]
    dsimp only
    have hsr : ctx2.sm.stopReason = some StopReason.maxTokens := by
      rw [hfr.2.1]
    rw [SseStateManager.get_stop_reason]
    dsimp only
    rw [hsr]
    dsimp only
    have hstops := closeAllOpenBlocks_stops ctx2.sm.activeBlocks
    have hnomd : ∀ e ∈ (closeAllOpenBlocks ctx2.sm.activeBlocks).1,
        isMessageDelta e = false := by
      intro e he
      obtain ⟨i, rfl⟩ := hstops e he
      rfl
    have hfil : (closeAllOpenBlocks ctx2.sm.activeBlocks).1.filter
        (fun e => match e with
          | SseEvt.contentBlockStart _ b => b == BType.text
          | _ => false) = [] := by
      rw [List.filter_eq_nil_iff]
      intro a ha
      obtain ⟨i, rfl⟩ := hstops a ha
      simp
    split
    · refine ⟨?_, by simp, by simp, ?_⟩
      · simp only [List.append_eq, List.nil_append, List.cons_append,
          List.append_assoc, findMessageDelta]
        rw [findMessageDelta_append _ _ hnomd]
        simp only [List.cons_append, List.nil_append, findMessageDelta,
          Option.map_some']
      · simp only [countBlockStarts, List.append_eq, List.nil_append,
          List.cons_append, List.filter_append, List.filter_cons,
          List.filter_nil, hfil]
        simp
    · refine ⟨?_, by simp, by simp, ?_⟩
      · simp only [List.append_eq, List.nil_append, List.cons_append,
          List.append_assoc, findMessageDelta]
        rw [findMessageDelta_append _ _ hnomd]
        simp only [List.cons_append, List.nil_append, findMessageDelta,
          Option.map_some']
      · simp only [countBlockStarts, List.append_eq, List.nil_append,
          List.cons_append, List.filter_append, List.filter_cons,
          List.filter_nil, hfil]
        simp
  · intro hB
    have hB2 : ¬ ((ctx.thinkingEnabled && ctx.thinkingBlockIndex.isSome
        && !ctx.sm.has_non_thinking_blocks) = true) := by
      simp [hB]
    rw [StreamContext.generate_final_events, hL1]
    dsimp only
    rw [if_neg hB2]
    dsimp only
    rw [SseStateManager.generate_final_events]
    dsimp only
    have hcond : (!ctx.sm.messageDeltaSent) = true := by
      rw [hmds]
      rfl
    rw [if_pos hcond]
    dsimp only
    have hstops := closeAllOpenBlocks_stops ctx.sm.activeBlocks
    have hnomd : ∀ e ∈ (closeAllOpenBlocks ctx.sm.activeBlocks).1,
        isMessageDelta e = false := by
      intro e he
      obtain ⟨i, rfl⟩ := hstops e he
      rfl
    split
    · simp only [List.append_eq, List.nil_append, List.append_assoc]
      rw [findMessageDelta_append _ _ hnomd]
      simp only [List.cons_append, List.nil_append, findMessageDelta,
        Option.map_some']
      rfl
    · simp only [List.append_eq, List.nil_append]
      rw [findMessageDelta_append _ _ hnomd]
      simp only [findMessageDelta, Option.map_some']
      rfl
  · intro sm h
    simp [SseStateManager.get_stop_reason, h]
  · intro sm r h
    simp [SseStateManager.get_stop_reason, h]

set_option maxRecDepth 100000 in
/-- C6 witness: on the concrete thinking-only context `c6WitCtx` the
final events carry stop_reason `max_tokens` and a single-space text
block; the `get_stop_reason` fallbacks hold. -/
theorem c6_witness :
    ((c6WitCtx.thinkingEnabled && c6WitCtx.thinkingBlockIndex.isSome
        && !c6WitCtx.sm.has_non_thinking_blocks) = true →
      (findMessageDelta (c6WitCtx.generate_final_events).1).map
          (fun p => p.1) = some StopReason.maxTokens ∧
        SseEvt.contentBlockStart c6WitCtx.sm.nextBlockIndex BType.text ∈
          (c6WitCtx.generate_final_events).1 ∧
        SseEvt.contentBlockDelta c6WitCtx.sm.nextBlockIndex
            (.textDelta (strBytes " ")) ∈ (c6WitCtx.generate_final_events).1 ∧
        countBlockStarts (c6WitCtx.generate_final_events).1 BType.text = 1) ∧
    ((c6WitCtx.thinkingEnabled && c6WitCtx.thinkingBlockIndex.isSome
        && !c6WitCtx.sm.has_non_thinking_blocks) = false →
      (findMessageDelta (c6WitCtx.generate_final_events).1).map
          (fun p => p.1) = some c6WitCtx.sm.get_stop_reason) ∧
    (∀ sm : SseStateManager, sm.stopReason = none →
      sm.get_stop_reason = if sm.hasToolUse then .toolUse else .endTurn) ∧
    ∀ sm : SseStateManager, ∀ r, sm.stopReason = some r →
      sm.get_stop_reason = r :=
  c6_thinking_only_max_tokens c6WitCtx (by decide) (by decide) (by decide)

/-- C5: decoder error recovery.  Prelude-phase errors (prelude CRC
mismatch, total_length outside bounds) skip exactly one byte; data-phase
errors (message CRC mismatch, malformed headers) skip the whole declared
frame when `total_length` is in `[16, buffer.len]` and one byte
otherwise; when the incremented error count reaches `max_errors` (5 by
default) the decoder stops and every further `decode` fails with
`TooManyErrors` until `try_resume` resets it; below the threshold the
erroring `decode` applies `try_recover` and enters the recovering state;
a successful decode resets the consecutive-error count to zero. -/
theorem c5_decoder_recovery :
    (∀ (d : EventStreamDecoder) (e : ParseError), d.buffer ≠ [] →
      isPreludeError e = true →
      (try_recover d e).buffer = d.buffer.drop 1 ∧
        (try_recover d e).bytesSkipped = d.bytesSkipped + 1) ∧
    (∀ (d : EventStreamDecoder) (e : ParseError), d.buffer ≠ [] →
      isDataError e = true → PRELUDE_SIZE ≤ d.buffer.length →
      (16 ≤ be32 d.buffer 0 ∧ be32 d.buffer 0 ≤ d.buffer.length →
        (try_recover d e).buffer = d.buffer.drop (be32 d.buffer 0) ∧
          (try_recover d e).bytesSkipped = d.bytesSkipped + be32 d.buffer 0) ∧
      (¬ (16 ≤ be32 d.buffer 0 ∧ be32 d.buffer 0 ≤ d.buffer.length) →
        (try_recover d e).buffer = d.buffer.drop 1 ∧
          (try_recover d e).bytesSkipped = d.bytesSkipped + 1)) ∧
    (∀ (d : EventStreamDecoder) (e : ParseError), d.state ≠ .stopped →
      d.buffer ≠ [] → parse_frame d.buffer = .error e →
      (d.maxErrors ≤ d.errorCount + 1 →
        (decode d).1 = .error (.tooManyErrors (d.errorCount + 1)) ∧
          (decode d).2.state = .stopped) ∧
      (d.errorCount + 1 < d.maxErrors →
        (decode d).1 = .error e ∧
          (decode d).2 =
            { try_recover
                { d with state := DecoderState.parsing
                         errorCount := d.errorCount + 1 } e
              with state := DecoderState.recovering })) ∧
    (∀ d : EventStreamDecoder, d.state = .stopped →
      decode d = (.error (.tooManyErrors d.errorCount), d) ∧
        (try_resume d).state = .ready ∧ (try_resume d).errorCount = 0) ∧
    ∀ (d : EventStreamDecoder) (frame : Frame) (consumed : Nat),
      d.state ≠ .stopped → d.buffer ≠ [] →
      parse_frame d.buffer = .ok (some (frame, consumed)) →
      (decode d).1 = .ok (some frame) ∧ (decode d).2.errorCount = 0 := by
  refine ⟨?_, ?_, ?_, ?_, ?_⟩
  · intro d e hne he
    have hie : ¬ (d.buffer.isEmpty = true) := by
      simp [List.isEmpty_iff, hne]
    cases e <;> simp_all [try_recover, isPreludeError]
  · intro d e hne hde hlen
    have hie : ¬ (d.buffer.isEmpty = true) := by
      simp [List.isEmpty_iff, hne]
    constructor
    · intro hcond
      cases e <;> first
        | (rw [try_recover, if_neg hie]
           dsimp only
           rw [if_pos hlen, if_pos hcond]
           exact ⟨rfl, rfl⟩)
        | simp [isDataError] at hde
    · intro hcond
      cases e <;> first
        | (rw [try_recover, if_neg hie]
           dsimp only
           rw [if_pos hlen, if_neg hcond]
           exact ⟨rfl, rfl⟩)
        | simp [isDataError] at hde
  · intro d e hst hne hpf
    have hie : ¬ (d.buffer.isEmpty = true) := by
      simp [List.isEmpty_iff, hne]
    constructor
    · intro hmax
      rw [decode, if_neg hst, if_neg hie]
      dsimp only
      rw [hpf]
      dsimp only
      rw [if_pos hmax]
      exact ⟨rfl, rfl⟩
    · intro hlt
      rw [decode, if_neg hst, if_neg hie]
      dsimp only
      rw [hpf]
      dsimp only
      rw [if_neg (by omega : ¬ (d.maxErrors ≤ d.errorCount + 1))]
      exact ⟨rfl, rfl⟩
  · intro d hst
    refine ⟨?_, ?_, ?_⟩
    · rw [decode, if_pos hst]
    · rw [try_resume, if_pos hst]
    · rw [try_resume, if_pos hst]
  · intro d frame consumed hst hne hpf
    have hie : ¬ (d.buffer.isEmpty = true) := by
      simp [List.isEmpty_iff, hne]
    rw [decode, if_neg hst, if_neg hie]
    dsimp only
    rw [hpf]
    exact ⟨rfl, rfl⟩

set_option maxRecDepth 1000000 in
/-- C5 witness: concrete recoveries — a 1-byte skip on a prelude CRC
error, a whole-frame (16-byte) skip on a message CRC error, the
transition to Stopped on the fifth error, the refusal and reset of a
stopped decoder, the recovering transition below the threshold, and an
error-count reset on a successful decode. -/
theorem c5_witness :
    ((try_recover c5PrelDec (.preludeCrcMismatch 0 1)).buffer =
        c5PrelDec.buffer.drop 1 ∧
      (try_recover c5PrelDec (.preludeCrcMismatch 0 1)).bytesSkipped =
        c5PrelDec.bytesSkipped + 1) ∧
    ((try_recover c5DataDec (.messageCrcMismatch 0 1)).buffer =
        c5DataDec.buffer.drop (be32 c5DataDec.buffer 0) ∧
      (try_recover c5DataDec (.messageCrcMismatch 0 1)).bytesSkipped =
        c5DataDec.bytesSkipped + be32 c5DataDec.buffer 0) ∧
    ((decode c5BadDec).1 = .error (.tooManyErrors (c5BadDec.errorCount + 1)) ∧
      (decode c5BadDec).2.state = .stopped) ∧
    ((decode c5ErrDec).1 = .error (.messageTooSmall 0 16) ∧
      (decode c5ErrDec).2 =
        { try_recover
            { c5ErrDec with state := DecoderState.parsing
                            errorCount := c5ErrDec.errorCount + 1 }
            (.messageTooSmall 0 16)
          with state := DecoderState.recovering }) ∧
    (decode c5StopDec = (.error (.tooManyErrors c5StopDec.errorCount),
        c5StopDec) ∧
      (try_resume c5StopDec).state = .ready ∧
      (try_resume c5StopDec).errorCount = 0) ∧
    ((decode c5GoodDec).1 = .ok (some c5Frame) ∧
      (decode c5GoodDec).2.errorCount = 0) :=
  ⟨c5_decoder_recovery.1 c5PrelDec (.preludeCrcMismatch 0 1) (by decide)
      (by decide),
   (c5_decoder_recovery.2.1 c5DataDec (.messageCrcMismatch 0 1) (by decide)
      (by decide) (by decide)).1 (by decide),
   (c5_decoder_recovery.2.2.1 c5BadDec (.messageTooSmall 0 16) (by decide)
      (by decide) (by rfl)).1 (by decide),
   (c5_decoder_recovery.2.2.1 c5ErrDec (.messageTooSmall 0 16) (by decide)
      (by decide) (by rfl)).2 (by decide),
   c5_decoder_recovery.2.2.2.1 c5StopDec (by decide),
   c5_decoder_recovery.2.2.2.2 c5GoodDec c5Frame 16 (by decide) (by decide)
      (by rfl)⟩

/-- C10 witness: deleting the leading unbuffered assistant message from
the concrete two-message request `c10WitReq` leaves the conversion
result unchanged. -/
theorem c10_witness :
    convert_request c10WitReq =
      convert_request
        { c10WitReq with messages := c10WitReq.messages.eraseIdx 0 } :=
  c10_assistant_dropped c10WitReq 0 c10WitMi (by decide) (by decide)
    (by decide) (by decide)

/-- Checker runs compose over concatenation. -/
theorem chkRun_append (st : ChkSt) (l1 l2 : List SseEvt) :
    chkRun st (l1 ++ l2) =
      match chkRun st l1 with
      | some st2 => chkRun st2 l2
      | none => none := by
  induction l1 generalizing st with
  | nil => rfl
  | cons e rest ih =>
    simp only [List.cons_append, chkRun]
    cases chkStep st e with
    | none => rfl
    | some st2 => exact ih st2

/-- `blockLookup` on a cons cell. -/
theorem blockLookup_cons (k : Nat) (b : BlockState)
    (bs : List (Nat × BlockState)) (i : Nat) :
    blockLookup ((k, b) :: bs) i =
      if k == i then some b else blockLookup bs i := by
  by_cases h : (k == i) = true
  · simp [blockLookup, List.find?, h]
  · simp only [Bool.not_eq_true] at h
    simp [blockLookup, List.find?, h]

/-- `blockLookup` past an appended single entry. -/
theorem blockLookup_append_single (bs : List (Nat × BlockState))
    (k : Nat) (b : BlockState) (i : Nat) :
    blockLookup (bs ++ [(k, b)]) i =
      (blockLookup bs i).or (if k == i then some b else none) := by
  rw [blockLookup, blockLookup, List.find?_append]
  cases hf : bs.find? (fun p => p.1 == i) with
  | none =>
    by_cases h : (k == i) = true
    · simp [List.find?, h]
    · simp only [Bool.not_eq_true] at h
      simp [List.find?, h]
  | some q => simp

/-- Lookup absence is absence from the keys. -/
theorem blockLookup_none_iff (bs : List (Nat × BlockState)) (i : Nat) :
    blockLookup bs i = none ↔ ∀ p ∈ bs, p.1 ≠ i := by
  rw [blockLookup, Option.map_eq_none', List.find?_eq_none]
  constructor
  · intro h p hp
    simpa using h p hp
  · intro h p hp
    simpa using h p hp

/-- A fresh index is absent from the block table. -/
theorem fresh_lookup_none (bs : List (Nat × BlockState)) (n : Nat)
    (h : ∀ p ∈ bs, p.1 < n) : blockLookup bs n = none := by
  rw [blockLookup_none_iff]
  intro p hp
  have := h p hp
  omega

/-- Existentials over a cons-cell lookup. -/
theorem lookup_cons_prop (P : BlockState → Prop) (k : Nat) (b : BlockState)
    (rest : List (Nat × BlockState)) (j : Nat) :
    (∃ b0, blockLookup ((k, b) :: rest) j = some b0 ∧ P b0) ↔
      if k = j then P b
      else ∃ b0, blockLookup rest j = some b0 ∧ P b0 := by
  rw [blockLookup_cons]
  by_cases h : k = j
  · simp [h]
  · simp [beq_iff_eq, h]

/-- Lookup after the pointwise block update at a key. -/
theorem blockLookup_map_set (bs : List (Nat × BlockState)) (k : Nat)
    (f : BlockState → BlockState) (i : Nat) :
    blockLookup
        (bs.map (fun p => if p.1 == k then (p.1, f p.2) else p)) i =
      if k == i then (blockLookup bs i).map f else blockLookup bs i := by
  induction bs with
  | nil => by_cases h : (k == i) = true <;> simp [blockLookup, h]
  | cons p rest ih =>
    obtain ⟨k0, b0⟩ := p
    simp only [beq_iff_eq] at ih
    by_cases h0 : k0 = k
    · subst h0
      by_cases h1 : k0 = i
      · subst h1
        simp [blockLookup_cons, ih]
      · simp [blockLookup_cons, beq_iff_eq, h1, ih]
    · by_cases h1 : k0 = i
      · subst h1
        have hk : ¬ k = k0 := fun h => h0 h.symm
        simp [blockLookup_cons, beq_iff_eq, h0, hk, ih]
      · simp [blockLookup_cons, beq_iff_eq, h0, h1, ih]

/-- Keys survive the pointwise block update. -/
theorem keys_map_set (bs : List (Nat × BlockState)) (k : Nat)
    (f : BlockState → BlockState) :
    (bs.map (fun p => if p.1 == k then (p.1, f p.2) else p)).map
        (fun p => p.1) = bs.map (fun p => p.1) := by
  rw [List.map_map]
  apply List.map_congr_left
  intro p hp
  by_cases h : p.1 = k <;> simp [h]

/-- Lookup after the text auto-close loop. -/
theorem closeOpenTextBlocks_lookup (bs : List (Nat × BlockState)) (i : Nat) :
    blockLookup (closeOpenTextBlocks bs).2 i =
      (blockLookup bs i).map closeTextF := by
  induction bs with
  | nil => simp [closeOpenTextBlocks, blockLookup]
  | cons p rest ih =>
    obtain ⟨k, b⟩ := p
    rcases hr : closeOpenTextBlocks rest with ⟨evts, rest2⟩
    rw [hr] at ih
    simp only [closeOpenTextBlocks, hr]
    by_cases hc : (b.btype == BType.text && b.started && !b.stopped) = true
    · rw [if_pos hc]
      dsimp only
      rw [blockLookup_cons, blockLookup_cons]
      by_cases hk : (k == i) = true
      · rw [if_pos hk, if_pos hk]
        simp [closeTextF, hc]
      · rw [if_neg hk, if_neg hk]
        exact ih
    · rw [if_neg hc]
      dsimp only
      rw [blockLookup_cons, blockLookup_cons]
      by_cases hk : (k == i) = true
      · rw [if_pos hk, if_pos hk]
        simp [closeTextF, hc]
      · rw [if_neg hk, if_neg hk]
        exact ih

/-- Keys survive the text auto-close loop. -/
theorem closeOpenTextBlocks_keys (bs : List (Nat × BlockState)) :
    (closeOpenTextBlocks bs).2.map (fun p => p.1) =
      bs.map (fun p => p.1) := by
  induction bs with
  | nil => rfl
  | cons p rest ih =>
    obtain ⟨k, b⟩ := p
    rcases hr : closeOpenTextBlocks rest with ⟨evts, rest2⟩
    rw [hr] at ih
    simp only [closeOpenTextBlocks, hr]
    by_cases hc : (b.btype == BType.text && b.started && !b.stopped) = true
    · rw [if_pos hc]
      simpa using ih
    · rw [if_neg hc]
      simpa using ih

/-- Lookup after the final close-everything loop. -/
theorem closeAllOpenBlocks_lookup (bs : List (Nat × BlockState)) (i : Nat) :
    blockLookup (closeAllOpenBlocks bs).2 i =
      (blockLookup bs i).map closeAllF := by
  induction bs with
  | nil => simp [closeAllOpenBlocks, blockLookup]
  | cons p rest ih =>
    obtain ⟨k, b⟩ := p
    rcases hr : closeAllOpenBlocks rest with ⟨evts, rest2⟩
    rw [hr] at ih
    simp only [closeAllOpenBlocks, hr]
    by_cases hc : (b.started && !b.stopped) = true
    · rw [if_pos hc]
      dsimp only
      rw [blockLookup_cons, blockLookup_cons]
      by_cases hk : (k == i) = true
      · rw [if_pos hk, if_pos hk]
        simp [closeAllF, hc]
      · rw [if_neg hk, if_neg hk]
        exact ih
    · rw [if_neg hc]
      dsimp only
      rw [blockLookup_cons, blockLookup_cons]
      by_cases hk : (k == i) = true
      · rw [if_pos hk, if_pos hk]
        simp [closeAllF, hc]
      · rw [if_neg hk, if_neg hk]
        exact ih

/-- The checker accepts a `content_block_start` at a fresh index. -/
theorem chkStep_start (st : ChkSt) (sm : SseStateManager) (idx : Nat)
    (bt : BType) (inv : SmInv st sm)
    (hl : blockLookup sm.activeBlocks idx = none) :
    chkStep st (.contentBlockStart idx bt) =
      some { st with openB := idx :: st.openB } := by
  have hno : idx ∉ st.openB := by
    intro h
    obtain ⟨b, hb, _⟩ := (inv.openIff idx).mp h
    rw [hl] at hb
    exact Option.noConfusion hb
  have hnc : idx ∉ st.closedB := by
    intro h
    obtain ⟨b, hb, _⟩ := (inv.closedIff idx).mp h
    rw [hl] at hb
    exact Option.noConfusion hb
  rw [chkStep, if_pos ⟨inv.phase, hno, hnc⟩]

/-- The checker accepts a delta on an open block. -/
theorem chkStep_delta (st : ChkSt) (sm : SseStateManager) (i : Nat)
    (d : SseDelta) (inv : SmInv st sm) (ho : blockOpen sm.activeBlocks i) :
    chkStep st (.contentBlockDelta i d) = some st := by
  rw [chkStep, if_pos ⟨inv.phase, (inv.openIff i).mpr ho⟩]

/-- The checker accepts a stop on an open block. -/
theorem chkStep_stop (st : ChkSt) (sm : SseStateManager) (i : Nat)
    (inv : SmInv st sm) (ho : blockOpen sm.activeBlocks i) :
    chkStep st (.contentBlockStop i) =
      some { st with openB := st.openB.erase i
                     closedB := i :: st.closedB } := by
  rw [chkStep, if_pos ⟨inv.phase, (inv.openIff i).mpr ho⟩]

/-- Raising the fresh-index bound preserves the manager invariant. -/
theorem smInv_bump (st : ChkSt) (sm : SseStateManager) (n : Nat)
    (inv : SmInv st sm) (h : sm.nextBlockIndex ≤ n) :
    SmInv st { sm with nextBlockIndex := n } := by
  refine ⟨inv.phase, inv.mds, inv.mend, inv.ndOpen, inv.ndKeys,
    inv.openIff, inv.closedIff, inv.started, ?_⟩
  intro p hp
  have := inv.fresh p hp
  dsimp only
  omega

/-- Appending a fresh started block preserves the manager invariant,
with the new index recorded as open. -/
theorem smInv_append_fresh (st : ChkSt) (sm : SseStateManager) (idx : Nat)
    (bt : BType) (inv : SmInv st sm)
    (hl : blockLookup sm.activeBlocks idx = none)
    (hlt : idx < sm.nextBlockIndex) :
    SmInv { st with openB := idx :: st.openB }
      { sm with activeBlocks :=
          sm.activeBlocks ++ [(idx, ⟨bt, true, false⟩)] } := by
  have hkeys : ∀ p ∈ sm.activeBlocks, p.1 ≠ idx :=
    (blockLookup_none_iff _ _).mp hl
  have hnotopen : idx ∉ st.openB := by
    intro h
    obtain ⟨b, hb, _⟩ := (inv.openIff idx).mp h
    rw [hl] at hb
    exact Option.noConfusion hb
  refine ⟨inv.phase, inv.mds, inv.mend,
    List.nodup_cons.mpr ⟨hnotopen, inv.ndOpen⟩, ?_, ?_, ?_, ?_, ?_⟩
  · rw [List.map_append, List.nodup_append]
    refine ⟨inv.ndKeys, List.nodup_singleton _, ?_⟩
    intro a ha hmem
    simp only [List.map_cons, List.map_nil, List.mem_singleton] at hmem
    obtain ⟨p, hp, hpa⟩ := List.mem_map.mp ha
    exact hkeys p hp (by rw [hpa]; exact hmem)
  · intro j
    constructor
    · intro h
      rcases List.mem_cons.mp h with rfl | h2
      · refine ⟨⟨bt, true, false⟩, ?_, rfl⟩
        rw [blockLookup_append_single, hl]
        simp
      · obtain ⟨b, hb, hs⟩ := (inv.openIff j).mp h2
        refine ⟨b, ?_, hs⟩
        rw [blockLookup_append_single, hb]
        simp
    · rintro ⟨b, hb, hs⟩
      rw [blockLookup_append_single] at hb
      cases hbs : blockLookup sm.activeBlocks j with
      | some b0 =>
        rw [hbs] at hb
        simp only [Option.or_some, Option.some.injEq] at hb
        subst hb
        exact List.mem_cons_of_mem _ ((inv.openIff j).mpr ⟨b0, hbs, hs⟩)
      | none =>
        rw [hbs] at hb
        simp only [Option.none_or] at hb
        by_cases hij : (idx == j) = true
        · rw [beq_iff_eq] at hij
          exact List.mem_cons.mpr (Or.inl hij.symm)
        · rw [if_neg hij] at hb
          exact Option.noConfusion hb
  · intro j
    constructor
    · intro h
      obtain ⟨b, hb, hs⟩ := (inv.closedIff j).mp h
      refine ⟨b, ?_, hs⟩
      rw [blockLookup_append_single, hb]
      simp
    · rintro ⟨b, hb, hs⟩
      rw [blockLookup_append_single] at hb
      cases hbs : blockLookup sm.activeBlocks j with
      | some b0 =>
        rw [hbs] at hb
        simp only [Option.or_some, Option.some.injEq] at hb
        subst hb
        exact (inv.closedIff j).mpr ⟨b0, hbs, hs⟩
      | none =>
        rw [hbs] at hb
        simp only [Option.none_or] at hb
        by_cases hij : (idx == j) = true
        · rw [if_pos hij] at hb
          obtain rfl := Option.some.inj hb
          exact absurd hs (by simp)
        · rw [if_neg hij] at hb
          exact Option.noConfusion hb
  · intro j b hb
    rw [blockLookup_append_single] at hb
    cases hbs : blockLookup sm.activeBlocks j with
    | some b0 =>
      rw [hbs] at hb
      simp only [Option.or_some, Option.some.injEq] at hb
      subst hb
      exact inv.started j b0 hbs
    | none =>
      rw [hbs] at hb
      simp only [Option.none_or] at hb
      by_cases hij : (idx == j) = true
      · rw [if_pos hij] at hb
        obtain rfl := Option.some.inj hb
        rfl
      · rw [if_neg hij] at hb
        exact Option.noConfusion hb
  · intro p hp
    rcases List.mem_append.mp hp with h2 | h2
    · exact inv.fresh p h2
    · have hpe : p = (idx, ⟨bt, true, false⟩) := by simpa using h2
      subst hpe
      exact hlt

/-- The stopped-update specialization of `blockLookup_map_set`. -/
theorem blockLookup_map_stop (bs : List (Nat × BlockState)) (i j : Nat) :
    blockLookup (bs.map (fun p =>
        if p.1 == i then (p.1, { p.2 with stopped := true }) else p)) j =
      if i == j then
        (blockLookup bs j).map (fun b => { b with stopped := true })
      else blockLookup bs j :=
  blockLookup_map_set bs i (fun b => { b with stopped := true }) j

/-- The stopped-update specialization of `keys_map_set`. -/
theorem keys_map_stop (bs : List (Nat × BlockState)) (i : Nat) :
    (bs.map (fun p =>
        if p.1 == i then (p.1, { p.2 with stopped := true }) else p)).map
      (fun p => p.1) = bs.map (fun p => p.1) :=
  keys_map_set bs i (fun b => { b with stopped := true })

/-- Stopping an open block preserves the manager invariant, moving the
index from the open to the closed set. -/
theorem smInv_stop (st : ChkSt) (sm : SseStateManager) (i : Nat)
    (b : BlockState) (inv : SmInv st sm)
    (hb : blockLookup sm.activeBlocks i = some b) :
    SmInv { st with openB := st.openB.erase i, closedB := i :: st.closedB }
      { sm with activeBlocks := sm.activeBlocks.map (fun p =>
          if p.1 == i then (p.1, { p.2 with stopped := true }) else p) } := by
  refine ⟨inv.phase, inv.mds, inv.mend, inv.ndOpen.erase i, ?_, ?_, ?_, ?_, ?_⟩
  · dsimp only
    rw [keys_map_stop]
    exact inv.ndKeys
  · intro j
    dsimp only
    constructor
    · intro h
      have hmem := (inv.ndOpen.mem_erase_iff).mp h
      obtain ⟨b0, hb0, hs0⟩ := (inv.openIff j).mp hmem.2
      have hne : ¬ ((i == j) = true) := by
        rw [beq_iff_eq]
        intro he
        exact hmem.1 he.symm
      refine ⟨b0, ?_, hs0⟩
      rw [blockLookup_map_stop, if_neg hne]
      exact hb0
    · rintro ⟨b0, hb0, hs0⟩
      rw [blockLookup_map_stop] at hb0
      by_cases hij : (i == j) = true
      · rw [if_pos hij] at hb0
        obtain ⟨b1, _, hb1e⟩ := Option.map_eq_some'.mp hb0
        rw [← hb1e] at hs0
        exact absurd hs0 (by simp)
      · rw [if_neg hij] at hb0
        have hji : j ≠ i := fun he => hij (by rw [he]; exact beq_self_eq_true i)
        exact (inv.ndOpen.mem_erase_iff).mpr
          ⟨hji, (inv.openIff j).mpr ⟨b0, hb0, hs0⟩⟩
  · intro j
    dsimp only
    constructor
    · intro h
      rcases List.mem_cons.mp h with rfl | h2
      · refine ⟨{ b with stopped := true }, ?_, rfl⟩
        rw [blockLookup_map_stop, if_pos (beq_self_eq_true j), hb]
        rfl
      · obtain ⟨b0, hb0, hs0⟩ := (inv.closedIff j).mp h2
        by_cases hij : (i == j) = true
        · rw [beq_iff_eq] at hij
          subst hij
          refine ⟨{ b0 with stopped := true }, ?_, rfl⟩
          rw [blockLookup_map_stop, if_pos (beq_self_eq_true i), hb0]
          rfl
        · refine ⟨b0, ?_, hs0⟩
          rw [blockLookup_map_stop, if_neg hij]
          exact hb0
    · rintro ⟨b0, hb0, hs0⟩
      rw [blockLookup_map_stop] at hb0
      by_cases hij : (i == j) = true
      · rw [beq_iff_eq] at hij
        subst hij
        exact List.mem_cons_self _ _
      · rw [if_neg hij] at hb0
        exact List.mem_cons_of_mem _
          ((inv.closedIff j).mpr ⟨b0, hb0, hs0⟩)
  · intro j b0 hb0
    dsimp only at hb0
    rw [blockLookup_map_stop] at hb0
    by_cases hij : (i == j) = true
    · rw [if_pos hij] at hb0
      obtain ⟨b1, hb1, hb1e⟩ := Option.map_eq_some'.mp hb0
      rw [← hb1e]
      exact inv.started j b1 hb1
    · rw [if_neg hij] at hb0
      exact inv.started j b0 hb0
  · intro p hp
    dsimp only at hp ⊢
    obtain ⟨q, hq, hqe⟩ := List.mem_map.mp hp
    have := inv.fresh q hq
    subst hqe
    by_cases hqi : (q.1 == i) = true <;> simp [hqi] <;> omega

/-- Keys survive the final close-everything loop. -/
theorem closeAllOpenBlocks_keys (bs : List (Nat × BlockState)) :
    (closeAllOpenBlocks bs).2.map (fun p => p.1) =
      bs.map (fun p => p.1) := by
  induction bs with
  | nil => rfl
  | cons p rest ih =>
    obtain ⟨k, b⟩ := p
    rcases hr : closeAllOpenBlocks rest with ⟨evts, rest2⟩
    rw [hr] at ih
    simp only [closeAllOpenBlocks, hr]
    by_cases hc : (b.started && !b.stopped) = true
    · rw [if_pos hc]
      simpa using ih
    · rw [if_neg hc]
      simpa using ih

/-- The text auto-close loop is accepted by the checker: it stops
exactly the open text blocks. -/
theorem closeOpenTextBlocks_chk (bs : List (Nat × BlockState)) :
    ∀ st : ChkSt, st.phase = 1 → st.openB.Nodup →
      (bs.map (fun p => p.1)).Nodup →
      (∀ i, blockTextOpen bs i → i ∈ st.openB) →
      ∃ st2, chkRun st (closeOpenTextBlocks bs).1 = some st2 ∧
        st2.phase = 1 ∧ st2.openB.Nodup ∧
        (∀ j, j ∈ st2.openB ↔ j ∈ st.openB ∧ ¬ blockTextOpen bs j) ∧
        (∀ j, j ∈ st2.closedB ↔ j ∈ st.closedB ∨ blockTextOpen bs j) := by
  induction bs with
  | nil =>
    intro st h1 h2 h3 h4
    refine ⟨st, rfl, h1, h2, ?_, ?_⟩
    · intro j
      simp [blockTextOpen, blockLookup]
    · intro j
      simp [blockTextOpen, blockLookup]
  | cons p rest ih =>
    obtain ⟨k, b⟩ := p
    intro st h1 h2 h3 h4
    rcases hr : closeOpenTextBlocks rest with ⟨evts, rest2⟩
    rw [hr] at ih
    rw [List.map_cons] at h3
    have h3c := List.nodup_cons.mp h3
    have hkrest : blockLookup rest k = none := by
      rw [blockLookup_none_iff]
      intro p hp he
      apply h3c.1
      rw [← he]
      exact List.mem_map_of_mem (fun p => p.1) hp
    have hTOcons : ∀ j, blockTextOpen ((k, b) :: rest) j ↔
        (if k = j then
          b.btype = BType.text ∧ b.started = true ∧ b.stopped = false
         else blockTextOpen rest j) := by
      intro j
      exact lookup_cons_prop
        (fun b0 => b0.btype = BType.text ∧ b0.started = true ∧
          b0.stopped = false) k b rest j
    have hTOrest : ∀ i, blockTextOpen rest i → i ≠ k := by
      rintro i ⟨b0, hb0, _⟩ he
      rw [he, hkrest] at hb0
      exact Option.noConfusion hb0
    simp only [closeOpenTextBlocks, hr]
    by_cases hc : (b.btype == BType.text && b.started && !b.stopped) = true
    · rw [if_pos hc]
      dsimp only
      have hc3 : b.btype = BType.text ∧ b.started = true ∧
          b.stopped = false := by
        simp only [Bool.and_eq_true, beq_iff_eq, Bool.not_eq_true'] at hc
        exact ⟨hc.1.1, hc.1.2, hc.2⟩
      have hkmem : k ∈ st.openB := by
        apply h4
        rw [hTOcons k, if_pos rfl]
        exact hc3
      have hstep : chkStep st (.contentBlockStop k) =
          some { st with openB := st.openB.erase k
                         closedB := k :: st.closedB } := by
        rw [chkStep, if_pos ⟨h1, hkmem⟩]
      have h4r : ∀ i, blockTextOpen rest i → i ∈ st.openB.erase k := by
        intro i hto
        refine (h2.mem_erase_iff).mpr ⟨hTOrest i hto, ?_⟩
        apply h4
        rw [hTOcons i, if_neg (fun he => hTOrest i hto he.symm)]
        exact hto
      obtain ⟨st2, hrun, hp2, hnd2, ho2, hc2⟩ :=
        ih { st with openB := st.openB.erase k, closedB := k :: st.closedB }
          h1 (h2.erase k) h3c.2 h4r
      refine ⟨st2, ?_, hp2, hnd2, ?_, ?_⟩
      · simp only [chkRun, hstep]
        exact hrun
      · intro j
        rw [ho2 j, hTOcons j]
        constructor
        · rintro ⟨hj1, hj2⟩
          obtain ⟨hjk, hjmem⟩ := (h2.mem_erase_iff).mp hj1
          refine ⟨hjmem, ?_⟩
          intro hTO
          by_cases hkj : k = j
          · exact hjk hkj.symm
          · rw [if_neg hkj] at hTO
            exact hj2 hTO
        · rintro ⟨hjmem, hj2⟩
          have hjk : j ≠ k := by
            intro he
            apply hj2
            rw [if_pos he.symm]
            exact hc3
          refine ⟨(h2.mem_erase_iff).mpr ⟨hjk, hjmem⟩, ?_⟩
          intro hTO
          apply hj2
          rw [if_neg (fun he => hjk he.symm)]
          exact hTO
      · intro j
        rw [hc2 j, hTOcons j]
        constructor
        · rintro (hj | hj)
          · rcases List.mem_cons.mp hj with rfl | hj2
            · right
              rw [if_pos rfl]
              exact hc3
            · left
              exact hj2
          · right
            rw [if_neg (fun he => hTOrest j hj he.symm)]
            exact hj
        · rintro (hj | hj)
          · left
            exact List.mem_cons_of_mem _ hj
          · by_cases hkj : k = j
            · left
              exact List.mem_cons.mpr (Or.inl hkj.symm)
            · rw [if_neg hkj] at hj
              right
              exact hj
    · rw [if_neg hc]
      dsimp only
      have hnotTOk : ¬ (b.btype = BType.text ∧ b.started = true ∧
          b.stopped = false) := by
        rintro ⟨ha, hbb, hcc⟩
        exact hc (by simp [ha, hbb, hcc])
      have h4r : ∀ i, blockTextOpen rest i → i ∈ st.openB := by
        intro i hto
        apply h4
        rw [hTOcons i, if_neg (fun he => hTOrest i hto he.symm)]
        exact hto
      obtain ⟨st2, hrun, hp2, hnd2, ho2, hc2⟩ := ih st h1 h2 h3c.2 h4r
      refine ⟨st2, hrun, hp2, hnd2, ?_, ?_⟩
      · intro j
        rw [ho2 j, hTOcons j]
        constructor
        · rintro ⟨hj1, hj2⟩
          refine ⟨hj1, ?_⟩
          intro hTO
          by_cases hkj : k = j
          · rw [if_pos hkj] at hTO
            exact hnotTOk hTO
          · rw [if_neg hkj] at hTO
            exact hj2 hTO
        · rintro ⟨hj1, hj2⟩
          refine ⟨hj1, ?_⟩
          intro hTO
          apply hj2
          rw [if_neg (fun he => hTOrest j hTO he.symm)]
          exact hTO
      · intro j
        rw [hc2 j, hTOcons j]
        constructor
        · rintro (hj | hj)
          · left
            exact hj
          · right
            rw [if_neg (fun he => hTOrest j hj he.symm)]
            exact hj
        · rintro (hj | hj)
          · left
            exact hj
          · by_cases hkj : k = j
            · rw [if_pos hkj] at hj
              exact absurd hj hnotTOk
            · rw [if_neg hkj] at hj
              right
              exact hj

/-- The final close-everything loop is accepted by the checker and
stops every open block. -/
theorem closeAllOpenBlocks_chk (bs : List (Nat × BlockState)) :
    ∀ st : ChkSt, st.phase = 1 → st.openB.Nodup →
      (bs.map (fun p => p.1)).Nodup →
      (∀ i, (∃ b0, blockLookup bs i = some b0 ∧ b0.started = true ∧
        b0.stopped = false) → i ∈ st.openB) →
      ∃ st2, chkRun st (closeAllOpenBlocks bs).1 = some st2 ∧
        st2.phase = 1 ∧ st2.openB.Nodup ∧
        (∀ j, j ∈ st2.openB ↔ j ∈ st.openB ∧
          ¬ ∃ b0, blockLookup bs j = some b0 ∧ b0.started = true ∧
            b0.stopped = false) := by
  induction bs with
  | nil =>
    intro st h1 h2 h3 h4
    refine ⟨st, rfl, h1, h2, ?_⟩
    intro j
    simp [blockLookup]
  | cons p rest ih =>
    obtain ⟨k, b⟩ := p
    intro st h1 h2 h3 h4
    rcases hr : closeAllOpenBlocks rest with ⟨evts, rest2⟩
    rw [hr] at ih
    rw [List.map_cons] at h3
    have h3c := List.nodup_cons.mp h3
    have hkrest : blockLookup rest k = none := by
      rw [blockLookup_none_iff]
      intro p hp he
      apply h3c.1
      rw [← he]
      exact List.mem_map_of_mem (fun p => p.1) hp
    have hTOcons : ∀ j,
        (∃ b0, blockLookup ((k, b) :: rest) j = some b0 ∧
          b0.started = true ∧ b0.stopped = false) ↔
        (if k = j then b.started = true ∧ b.stopped = false
         else ∃ b0, blockLookup rest j = some b0 ∧ b0.started = true ∧
           b0.stopped = false) := by
      intro j
      exact lookup_cons_prop
        (fun b0 => b0.started = true ∧ b0.stopped = false) k b rest j
    have hTOrest : ∀ i, (∃ b0, blockLookup rest i = some b0 ∧
        b0.started = true ∧ b0.stopped = false) → i ≠ k := by
      rintro i ⟨b0, hb0, _⟩ he
      rw [he, hkrest] at hb0
      exact Option.noConfusion hb0
    simp only [closeAllOpenBlocks, hr]
    by_cases hc : (b.started && !b.stopped) = true
    · rw [if_pos hc]
      dsimp only
      have hc3 : b.started = true ∧ b.stopped = false := by
        simp only [Bool.and_eq_true, Bool.not_eq_true'] at hc
        exact hc
      have hkmem : k ∈ st.openB := by
        apply h4
        rw [hTOcons k, if_pos rfl]
        exact hc3
      have hstep : chkStep st (.contentBlockStop k) =
          some { st with openB := st.openB.erase k
                         closedB := k :: st.closedB } := by
        rw [chkStep, if_pos ⟨h1, hkmem⟩]
      have h4r : ∀ i, (∃ b0, blockLookup rest i = some b0 ∧
          b0.started = true ∧ b0.stopped = false) →
          i ∈ st.openB.erase k := by
        intro i hto
        refine (h2.mem_erase_iff).mpr ⟨hTOrest i hto, ?_⟩
        apply h4
        rw [hTOcons i, if_neg (fun he => hTOrest i hto he.symm)]
        exact hto
      obtain ⟨st2, hrun, hp2, hnd2, ho2⟩ :=
        ih { st with openB := st.openB.erase k, closedB := k :: st.closedB }
          h1 (h2.erase k) h3c.2 h4r
      refine ⟨st2, ?_, hp2, hnd2, ?_⟩
      · simp only [chkRun, hstep]
        exact hrun
      · intro j
        rw [ho2 j, hTOcons j]
        constructor
        · rintro ⟨hj1, hj2⟩
          obtain ⟨hjk, hjmem⟩ := (h2.mem_erase_iff).mp hj1
          refine ⟨hjmem, ?_⟩
          intro hTO
          by_cases hkj : k = j
          · exact hjk hkj.symm
          · rw [if_neg hkj] at hTO
            exact hj2 hTO
        · rintro ⟨hjmem, hj2⟩
          have hjk : j ≠ k := by
            intro he
            apply hj2
            rw [if_pos he.symm]
            exact hc3
          refine ⟨(h2.mem_erase_iff).mpr ⟨hjk, hjmem⟩, ?_⟩
          intro hTO
          apply hj2
          rw [if_neg (fun he => hjk he.symm)]
          exact hTO
    · rw [if_neg hc]
      dsimp only
      have hnotTOk : ¬ (b.started = true ∧ b.stopped = false) := by
        rintro ⟨hbb, hcc⟩
        exact hc (by simp [hbb, hcc])
      have h4r : ∀ i, (∃ b0, blockLookup rest i = some b0 ∧
          b0.started = true ∧ b0.stopped = false) → i ∈ st.openB := by
        intro i hto
        apply h4
        rw [hTOcons i, if_neg (fun he => hTOrest i hto he.symm)]
        exact hto
      obtain ⟨st2, hrun, hp2, hnd2, ho2⟩ := ih st h1 h2 h3c.2 h4r
      refine ⟨st2, hrun, hp2, hnd2, ?_⟩
      intro j
      rw [ho2 j, hTOcons j]
      constructor
      · rintro ⟨hj1, hj2⟩
        refine ⟨hj1, ?_⟩
        intro hTO
        by_cases hkj : k = j
        · rw [if_pos hkj] at hTO
          exact hnotTOk hTO
        · rw [if_neg hkj] at hTO
          exact hj2 hTO
      · rintro ⟨hj1, hj2⟩
        refine ⟨hj1, ?_⟩
        intro hTO
        apply hj2
        rw [if_neg (fun he => hTOrest j hTO he.symm)]
        exact hTO

/-- After auto-closing the text blocks (on entering a tool_use), the
manager invariant is restored with `has_tool_use` set. -/
theorem smInv_closeText (st : ChkSt) (sm : SseStateManager)
    (inv : SmInv st sm) :
    ∃ st2, chkRun st (closeOpenTextBlocks sm.activeBlocks).1 = some st2 ∧
      SmInv st2 { sm with hasToolUse := true
                          activeBlocks :=
                            (closeOpenTextBlocks sm.activeBlocks).2 } := by
  have h4 : ∀ i, blockTextOpen sm.activeBlocks i → i ∈ st.openB := by
    rintro i ⟨b, hb, _, _, hs⟩
    exact (inv.openIff i).mpr ⟨b, hb, hs⟩
  obtain ⟨st2, hrun, hp2, hnd2, ho2, hc2⟩ :=
    closeOpenTextBlocks_chk sm.activeBlocks st inv.phase inv.ndOpen
      inv.ndKeys h4
  refine ⟨st2, hrun, hp2, inv.mds, inv.mend, hnd2, ?_, ?_, ?_, ?_, ?_⟩
  · dsimp only
    rw [closeOpenTextBlocks_keys]
    exact inv.ndKeys
  · intro j
    dsimp only
    rw [ho2 j]
    constructor
    · rintro ⟨hj1, hj2⟩
      obtain ⟨b, hb, hs⟩ := (inv.openIff j).mp hj1
      have hbt : ¬ b.btype = BType.text := by
        intro he
        exact hj2 ⟨b, hb, he, inv.started j b hb, hs⟩
      have hg : ¬ ((b.btype == BType.text && b.started && !b.stopped) =
          true) := by
        simp only [Bool.and_eq_true, beq_iff_eq]
        rintro ⟨⟨he, _⟩, _⟩
        exact hbt he
      refine ⟨closeTextF b, ?_, ?_⟩
      · rw [closeOpenTextBlocks_lookup, hb]
        rfl
      · rw [closeTextF, if_neg hg]
        exact hs
    · rintro ⟨b2, hb2, hs2⟩
      rw [closeOpenTextBlocks_lookup] at hb2
      obtain ⟨b, hb, hbe⟩ := Option.map_eq_some'.mp hb2
      rw [← hbe] at hs2
      by_cases hg : (b.btype == BType.text && b.started && !b.stopped) = true
      · rw [closeTextF, if_pos hg] at hs2
        exact absurd hs2 (by simp)
      · rw [closeTextF, if_neg hg] at hs2
        refine ⟨(inv.openIff j).mpr ⟨b, hb, hs2⟩, ?_⟩
        rintro ⟨b3, hb3, hbt3, hst3, hsp3⟩
        rw [hb] at hb3
        obtain rfl := Option.some.inj hb3
        exact hg (by simp [hbt3, hst3, hsp3])
  · intro j
    dsimp only
    rw [hc2 j]
    constructor
    · rintro (hj | hj)
      · obtain ⟨b, hb, hs⟩ := (inv.closedIff j).mp hj
        refine ⟨closeTextF b, ?_, ?_⟩
        · rw [closeOpenTextBlocks_lookup, hb]
          rfl
        · rw [closeTextF]
          split
          · rfl
          · exact hs
      · obtain ⟨b, hb, hbt, hst, hsp⟩ := hj
        refine ⟨closeTextF b, ?_, ?_⟩
        · rw [closeOpenTextBlocks_lookup, hb]
          rfl
        · rw [closeTextF, if_pos (by simp [hbt, hst, hsp])]
    · rintro ⟨b2, hb2, hs2⟩
      rw [closeOpenTextBlocks_lookup] at hb2
      obtain ⟨b, hb, hbe⟩ := Option.map_eq_some'.mp hb2
      rw [← hbe] at hs2
      by_cases hg : (b.btype == BType.text && b.started && !b.stopped) = true
      · right
        simp only [Bool.and_eq_true, beq_iff_eq, Bool.not_eq_true'] at hg
        exact ⟨b, hb, hg.1.1, hg.1.2, hg.2⟩
      · rw [closeTextF, if_neg hg] at hs2
        left
        exact (inv.closedIff j).mpr ⟨b, hb, hs2⟩
  · intro j b2 hb2
    dsimp only at hb2
    rw [closeOpenTextBlocks_lookup] at hb2
    obtain ⟨b, hb, hbe⟩ := Option.map_eq_some'.mp hb2
    rw [← hbe]
    have hst := inv.started j b hb
    rw [closeTextF]
    split
    · exact hst
    · exact hst
  · intro p hp
    dsimp only at hp ⊢
    have hmem : p.1 ∈
        (closeOpenTextBlocks sm.activeBlocks).2.map (fun p => p.1) :=
      List.mem_map_of_mem (fun p => p.1) hp
    rw [closeOpenTextBlocks_keys] at hmem
    obtain ⟨q, hq, he⟩ := List.mem_map.mp hmem
    have := inv.fresh q hq
    omega

/-- The manager invariant only inspects the delta/end flags, the block
table and the fresh-index counter. -/
theorem smInv_congr (st : ChkSt) (sm sm' : SseStateManager)
    (h1 : sm'.messageDeltaSent = sm.messageDeltaSent)
    (h2 : sm'.messageEnded = sm.messageEnded)
    (h3 : sm'.activeBlocks = sm.activeBlocks)
    (h4 : sm'.nextBlockIndex = sm.nextBlockIndex)
    (inv : SmInv st sm) : SmInv st sm' := by
  refine ⟨inv.phase, ?_, ?_, inv.ndOpen, ?_, ?_, ?_, ?_, ?_⟩
  · rw [h1]; exact inv.mds
  · rw [h2]; exact inv.mend
  · rw [h3]; exact inv.ndKeys
  · intro i; rw [h3]; exact inv.openIff i
  · intro i; rw [h3]; exact inv.closedIff i
  · intro i b hb; rw [h3] at hb; exact inv.started i b hb
  · intro p hp; rw [h3] at hp; rw [h4]; exact inv.fresh p hp

/-- Appending an entry does not disturb existing lookups. -/
theorem blockLookup_append_pres (bs : List (Nat × BlockState)) (k : Nat)
    (c : BlockState) (i : Nat) (b : BlockState)
    (hb : blockLookup bs i = some b) :
    blockLookup (bs ++ [(k, c)]) i = some b := by
  rw [blockLookup_append_single, hb]
  rfl

/-- `handle_content_block_start` on a fresh index with a non-tool block
type: one start event, block appended. -/
theorem hcbs_fresh_eq (sm : SseStateManager) (idx : Nat) (bt : BType)
    (hbt : (bt == BType.toolUse) = false)
    (hl : blockLookup sm.activeBlocks idx = none) :
    sm.handle_content_block_start idx bt =
      ([.contentBlockStart idx bt],
       { sm with activeBlocks :=
           sm.activeBlocks ++ [(idx, ⟨bt, true, false⟩)] }) := by
  rw [SseStateManager.handle_content_block_start]
  simp only [hbt, Bool.false_eq_true, if_false, hl, List.nil_append]

/-- `handle_content_block_start` for a tool block whose index is already
recorded (after the text auto-close): only the auto-close stops are
emitted. -/
theorem hcbs_tool_cached_eq (sm : SseStateManager) (idx : Nat)
    (b : BlockState)
    (hb : blockLookup (closeOpenTextBlocks sm.activeBlocks).2 idx = some b)
    (hs : b.started = true) :
    sm.handle_content_block_start idx .toolUse =
      ((closeOpenTextBlocks sm.activeBlocks).1,
       { sm with hasToolUse := true
                 activeBlocks := (closeOpenTextBlocks sm.activeBlocks).2 }) := by
  rw [SseStateManager.handle_content_block_start]
  simp only [beq_self_eq_true, eq_self_iff_true, if_true, hb, hs]

/-- `handle_content_block_start` for a tool block at a fresh index:
auto-close stops, then the start event, block appended. -/
theorem hcbs_tool_fresh_eq (sm : SseStateManager) (idx : Nat)
    (hl : blockLookup (closeOpenTextBlocks sm.activeBlocks).2 idx = none) :
    sm.handle_content_block_start idx .toolUse =
      ((closeOpenTextBlocks sm.activeBlocks).1 ++
         [.contentBlockStart idx .toolUse],
       { sm with hasToolUse := true
                 activeBlocks := (closeOpenTextBlocks sm.activeBlocks).2 ++
                   [(idx, ⟨.toolUse, true, false⟩)] }) := by
  rw [SseStateManager.handle_content_block_start]
  simp only [beq_self_eq_true, eq_self_iff_true, if_true, hl]

/-- Whenever `handle_content_block_delta` emits, it emits the delta for
that index and the block is recorded there, started and unstopped. -/
theorem hcbd_sound (sm : SseStateManager) (idx : Nat) (d : SseDelta)
    (e : SseEvt) (h : sm.handle_content_block_delta idx d = some e) :
    e = .contentBlockDelta idx d ∧ blockOpen sm.activeBlocks idx := by
  rw [SseStateManager.handle_content_block_delta] at h
  cases hb : blockLookup sm.activeBlocks idx with
  | none =>
    rw [hb] at h
    exact Option.noConfusion h
  | some b =>
    rw [hb] at h
    dsimp only at h
    by_cases hc : (!b.started || b.stopped) = true
    · rw [if_pos hc] at h
      exact Option.noConfusion h
    · rw [if_neg hc] at h
      simp only [Bool.or_eq_true, Bool.not_eq_true', not_or,
        Bool.not_eq_false, Bool.not_eq_true] at hc
      exact ⟨(Option.some.inj h).symm, b, hb, hc.2⟩

/-- `handle_content_block_stop` on a recorded, unstopped block: the stop
event is emitted and the block marked stopped. -/
theorem hcbstop_open_eq (sm : SseStateManager) (idx : Nat) (b : BlockState)
    (hb : blockLookup sm.activeBlocks idx = some b)
    (hs : b.stopped = false) :
    sm.handle_content_block_stop idx =
      (some (.contentBlockStop idx),
       { sm with activeBlocks := sm.activeBlocks.map (fun p =>
           if p.1 == idx then (p.1, { p.2 with stopped := true }) else p) }) := by
  rw [SseStateManager.handle_content_block_stop, hb]
  simp only [hs, Bool.false_eq_true, if_false]

/-- `handle_content_block_stop` on an already-stopped block is a no-op. -/
theorem hcbstop_stopped_eq (sm : SseStateManager) (idx : Nat)
    (b : BlockState) (hb : blockLookup sm.activeBlocks idx = some b)
    (hs : b.stopped = true) :
    sm.handle_content_block_stop idx = (none, sm) := by
  rw [SseStateManager.handle_content_block_stop, hb]
  simp only [hs, if_true]

/-- `handle_content_block_stop` on an unrecorded index is a no-op. -/
theorem hcbstop_none_eq (sm : SseStateManager) (idx : Nat)
    (hl : blockLookup sm.activeBlocks idx = none) :
    sm.handle_content_block_stop idx = (none, sm) := by
  rw [SseStateManager.handle_content_block_stop, hl]

/-- Closing the thinking block (empty delta then stop) is accepted when
the recorded thinking block is still unstopped, and the result is
exactly the stop-update of the block table. -/
theorem emitThinkingClose_chk (st : ChkSt) (ctx : StreamContext)
    (ti : Nat) (b : BlockState) (inv : SmInv st ctx.sm)
    (hti : ctx.thinkingBlockIndex = some ti)
    (hb : blockLookup ctx.sm.activeBlocks ti = some b)
    (hs : b.stopped = false) :
    ∃ st2, chkRun st (ctx.emitThinkingClose).1 = some st2 ∧
      SmInv st2 (ctx.emitThinkingClose).2.sm ∧
      (ctx.emitThinkingClose).2 = { ctx with sm := { ctx.sm with
         activeBlocks := ctx.sm.activeBlocks.map (fun p =>
           if p.1 == ti then (p.1, { p.2 with stopped := true }) else p) } } := by
  have ho : blockOpen ctx.sm.activeBlocks ti := ⟨b, hb, hs⟩
  rw [StreamContext.emitThinkingClose, hti]
  dsimp only
  rw [hcbstop_open_eq ctx.sm ti b hb hs]
  dsimp only
  refine ⟨{ st with openB := st.openB.erase ti, closedB := ti :: st.closedB },
    ?_, ?_, rfl⟩
  · rw [createThinkingDeltaEvent]
    simp only [Option.toList_some, List.singleton_append, chkRun,
      chkStep_delta st ctx.sm ti _ inv ho,
      chkStep_stop st ctx.sm ti inv ho]
  · exact smInv_stop st ctx.sm ti b inv hb

/-- Unpacking `is_block_open_of_type`. -/
theorem is_block_open_elim (sm : SseStateManager) (idx : Nat) (bt : BType)
    (h : sm.is_block_open_of_type idx bt = true) :
    ∃ b, blockLookup sm.activeBlocks idx = some b ∧ b.started = true ∧
      b.stopped = false ∧ b.btype = bt := by
  rw [SseStateManager.is_block_open_of_type] at h
  cases hb : blockLookup sm.activeBlocks idx with
  | none =>
    rw [hb] at h
    exact Bool.noConfusion h
  | some b =>
    rw [hb] at h
    dsimp only at h
    simp only [Bool.and_eq_true, Bool.not_eq_true', beq_iff_eq] at h
    exact ⟨b, rfl, h.1.1, h.1.2, h.2⟩

/-- A delta lands on a block that is open for its type. -/
theorem hcbd_of_open_type (sm : SseStateManager) (idx : Nat) (bt : BType)
    (d : SseDelta) (h : sm.is_block_open_of_type idx bt = true) :
    sm.handle_content_block_delta idx d =
      some (.contentBlockDelta idx d) := by
  obtain ⟨b, hb, hst, hsp, _⟩ := is_block_open_elim sm idx bt h
  rw [SseStateManager.handle_content_block_delta, hb]
  dsimp only
  rw [if_neg]
  simp [hst, hsp]

/-- `create_text_delta_events` reusing an open text block: one delta. -/
theorem create_text_open_eq (ctx : StreamContext) (idx : Nat) (text : Bytes)
    (hti : ctx.textBlockIndex = some idx)
    (hopen : ctx.sm.is_block_open_of_type idx BType.text = true) :
    ctx.create_text_delta_events text =
      ([.contentBlockDelta idx (.textDelta text)], ctx) := by
  rw [StreamContext.create_text_delta_events]
  simp only [hti, hopen, Bool.not_true, Bool.false_eq_true, if_false,
    hcbd_of_open_type ctx.sm idx BType.text (.textDelta text) hopen,
    List.nil_append]

/-- A stale text block index (not open for text any more) is first
reset to `none`. -/
theorem create_text_stale_eq (ctx : StreamContext) (idx : Nat) (text : Bytes)
    (hti : ctx.textBlockIndex = some idx)
    (hopen : ctx.sm.is_block_open_of_type idx BType.text = false) :
    ctx.create_text_delta_events text =
      StreamContext.create_text_delta_events
        { ctx with textBlockIndex := none } text := by
  conv_lhs => rw [StreamContext.create_text_delta_events]
  conv_rhs => rw [StreamContext.create_text_delta_events]
  simp only [hti, hopen, Bool.not_false, if_true]

/-- `create_text_delta_events` with no current text block: open a fresh
block and emit its start and one delta. -/
theorem create_text_none_eq (ctx : StreamContext) (text : Bytes)
    (hti : ctx.textBlockIndex = none)
    (hfresh : blockLookup ctx.sm.activeBlocks ctx.sm.nextBlockIndex = none) :
    ctx.create_text_delta_events text =
      ([.contentBlockStart ctx.sm.nextBlockIndex .text,
        .contentBlockDelta ctx.sm.nextBlockIndex (.textDelta text)],
       { ctx with
           sm := { ctx.sm with
             nextBlockIndex := ctx.sm.nextBlockIndex + 1
             activeBlocks := ctx.sm.activeBlocks ++
               [(ctx.sm.nextBlockIndex, ⟨.text, true, false⟩)] }
           textBlockIndex := some ctx.sm.nextBlockIndex }) := by
  have hlook : blockLookup
      (ctx.sm.activeBlocks ++
        [(ctx.sm.nextBlockIndex, (⟨BType.text, true, false⟩ : BlockState))])
      ctx.sm.nextBlockIndex = some ⟨BType.text, true, false⟩ := by
    rw [blockLookup_append_single, hfresh]
    simp
  rw [StreamContext.create_text_delta_events]
  simp only [hti, SseStateManager.nextIndex]
  rw [hcbs_fresh_eq { ctx.sm with nextBlockIndex := ctx.sm.nextBlockIndex + 1 }
    ctx.sm.nextBlockIndex BType.text (by decide) hfresh]
  dsimp only
  rw [SseStateManager.handle_content_block_delta]
  dsimp only
  rw [hlook]
  dsimp only
  rw [if_neg (by simp)]
  rfl

/-- `create_text_delta_events` is accepted by the checker, preserves
the manager invariant and every existing block entry, and changes
nothing in the context except the manager and the text block index. -/
theorem create_text_chk (st : ChkSt) (ctx : StreamContext) (text : Bytes)
    (inv : SmInv st ctx.sm) :
    ∃ st2, chkRun st (ctx.create_text_delta_events text).1 = some st2 ∧
      SmInv st2 (ctx.create_text_delta_events text).2.sm ∧
      (∀ i b, blockLookup ctx.sm.activeBlocks i = some b →
        blockLookup (ctx.create_text_delta_events text).2.sm.activeBlocks i =
          some b) ∧
      ∃ tb, (ctx.create_text_delta_events text).2 =
        { ctx with sm := (ctx.create_text_delta_events text).2.sm
                   textBlockIndex := tb } := by
  by_cases hcase : ∃ idx, ctx.textBlockIndex = some idx ∧
      ctx.sm.is_block_open_of_type idx BType.text = true
  · obtain ⟨idx, hti, hopen⟩ := hcase
    rw [create_text_open_eq ctx idx text hti hopen]
    obtain ⟨b, hb, hst, hsp, hbt⟩ := is_block_open_elim ctx.sm idx BType.text hopen
    refine ⟨st, ?_, inv, fun i b hb => hb, ctx.textBlockIndex, rfl⟩
    simp only [chkRun, chkStep_delta st ctx.sm idx _ inv ⟨b, hb, hsp⟩]
  · have hred : ctx.create_text_delta_events text =
        StreamContext.create_text_delta_events
          { ctx with textBlockIndex := none } text := by
      cases hti : ctx.textBlockIndex with
      | none =>
        have he : ({ ctx with textBlockIndex := none } : StreamContext) =
            ctx := by
          rw [← hti]
        rw [he]
      | some idx =>
        have hopen : ctx.sm.is_block_open_of_type idx BType.text = false := by
          cases hop : ctx.sm.is_block_open_of_type idx BType.text
          · rfl
          · exact absurd ⟨idx, hti, hop⟩ hcase
        exact create_text_stale_eq ctx idx text hti hopen
    have hfresh : blockLookup ctx.sm.activeBlocks ctx.sm.nextBlockIndex =
        none := fresh_lookup_none _ _ inv.fresh
    rw [hred, create_text_none_eq { ctx with textBlockIndex := none } text
      rfl hfresh]
    dsimp only
    refine ⟨{ st with openB := ctx.sm.nextBlockIndex :: st.openB },
      ?_, ?_, ?_, some ctx.sm.nextBlockIndex, rfl⟩
    · have hd : chkStep { st with openB := ctx.sm.nextBlockIndex :: st.openB }
          (.contentBlockDelta ctx.sm.nextBlockIndex (.textDelta text)) =
          some { st with openB := ctx.sm.nextBlockIndex :: st.openB } := by
        rw [chkStep]
        exact if_pos ⟨inv.phase, List.mem_cons_self _ _⟩
      simp only [chkRun,
        chkStep_start st ctx.sm ctx.sm.nextBlockIndex BType.text inv hfresh, hd]
    · have inv1 := smInv_bump st ctx.sm (ctx.sm.nextBlockIndex + 1) inv
        (Nat.le_succ _)
      exact smInv_append_fresh _ _ ctx.sm.nextBlockIndex BType.text inv1
        hfresh (Nat.lt_succ_self _)
    · intro i b hb
      exact blockLookup_append_pres _ _ _ _ _ hb

/-- The context invariant only inspects the manager, the thinking flag
and index, and the tool index cache. -/
theorem ctxInv_congr (st : ChkSt) (ctx ctx' : StreamContext)
    (h1 : ctx'.sm = ctx.sm)
    (h2 : ctx'.inThinkingBlock = ctx.inThinkingBlock)
    (h3 : ctx'.thinkingBlockIndex = ctx.thinkingBlockIndex)
    (h4 : ctx'.toolBlockIndices = ctx.toolBlockIndices)
    (inv : CtxInv st ctx) : CtxInv st ctx' := by
  obtain ⟨hsm, hth, htool⟩ := inv
  refine ⟨by rw [h1]; exact hsm, ?_, ?_⟩
  · intro hin
    rw [h2] at hin
    obtain ⟨ti, hti, b, hb, hbt, hsp⟩ := hth hin
    exact ⟨ti, by rw [h3]; exact hti, b, by rw [h1]; exact hb, hbt, hsp⟩
  · intro q hq
    rw [h4] at hq
    obtain ⟨b, hb, hbt⟩ := htool q hq
    exact ⟨b, by rw [h1]; exact hb, hbt⟩

/-- `create_text_delta_events` preserves the full context invariant. -/
theorem create_text_ctx_chk (st : ChkSt) (ctx : StreamContext) (text : Bytes)
    (inv : CtxInv st ctx) :
    ∃ st2, chkRun st (ctx.create_text_delta_events text).1 = some st2 ∧
      CtxInv st2 (ctx.create_text_delta_events text).2 := by
  obtain ⟨hsm, hth, htool⟩ := inv
  obtain ⟨st2, hrun, hsm2, hpres, tb, heq⟩ := create_text_chk st ctx text hsm
  refine ⟨st2, hrun, hsm2, ?_, ?_⟩
  · intro hin
    have hin' : ctx.inThinkingBlock = true := by
      rw [heq] at hin
      exact hin
    obtain ⟨ti, hti, b, hb, hbt, hsp⟩ := hth hin'
    refine ⟨ti, ?_, b, hpres ti b hb, hbt, hsp⟩
    rw [heq]
    exact hti
  · intro q hq
    have hq' : q ∈ ctx.toolBlockIndices := by
      rw [heq] at hq
      exact hq
    obtain ⟨b, hb, hbt⟩ := htool q hq'
    exact ⟨b, hpres q.2 b hb, hbt⟩

/-- The thinking-content delta is accepted while the thinking block is
open. -/
theorem thinkingContentDelta_chk (st : ChkSt) (ctx : StreamContext)
    (content : Bytes) (ti : Nat) (inv : SmInv st ctx.sm)
    (hti : ctx.thinkingBlockIndex = some ti)
    (ho : blockOpen ctx.sm.activeBlocks ti) :
    chkRun st (ctx.thinkingContentDelta content) = some st := by
  rw [StreamContext.thinkingContentDelta]
  by_cases hc : content ≠ []
  · rw [if_pos hc, hti]
    simp only [chkRun, createThinkingDeltaEvent,
      chkStep_delta st ctx.sm ti _ inv ho]
  · rw [if_neg hc]
    rfl

/-- Stopping one block keeps every other entry, and never changes a
block's type. -/
theorem toolPart_map_stop (bs : List (Nat × BlockState)) (ti q : Nat)
    (b : BlockState) (hb : blockLookup bs q = some b) :
    ∃ b2, blockLookup (bs.map (fun p =>
        if p.1 == ti then (p.1, { p.2 with stopped := true }) else p)) q =
      some b2 ∧ b2.btype = b.btype := by
  rw [blockLookup_map_stop]
  by_cases h : (ti == q) = true
  · rw [if_pos h, hb]
    exact ⟨_, rfl, rfl⟩
  · rw [if_neg h]
    exact ⟨b, hb, rfl⟩

/-- The completed-thinking flush phase preserves the context invariant
and is accepted by the checker. -/
theorem pcwtPhase3_chk (st : ChkSt) (ctx : StreamContext)
    (inv : CtxInv st ctx) :
    ∃ st2, chkRun st (ctx.pcwtPhase3).1 = some st2 ∧
      CtxInv st2 (ctx.pcwtPhase3).2 := by
  rw [StreamContext.pcwtPhase3]
  by_cases hc : ctx.thinkingBuffer ≠ []
  · rw [if_pos hc]
    dsimp only
    exact create_text_ctx_chk st { ctx with thinkingBuffer := [] }
      ctx.thinkingBuffer (ctxInv_congr st ctx _ rfl rfl rfl rfl inv)
  · rw [if_neg hc]
    exact ⟨st, rfl, inv⟩

/-- `pcwtPhase2` on an empty buffer does nothing. -/
theorem pcwt2_empty (ctx : StreamContext) (hbuf : ctx.thinkingBuffer = []) :
    ctx.pcwtPhase2 = ([], ctx) := by
  rw [StreamContext.pcwtPhase2]
  cases hf : ctx.stripThinkingLeadingNewline with
  | false =>
    simp only [hf, Bool.false_eq_true, if_false]
    rw [hbuf]
    rfl
  | true =>
    simp only [hf, if_true]
    have hx : ((none : Option Nat) == some 0x0A) = false := rfl
    have hend : find_real_thinking_end_tag ([] : Bytes) = none := rfl
    have hfcb : find_char_boundary ([] : Bytes) 0 = 0 := rfl
    simp [hbuf, hx, hend, hfcb]

/-- The leading-newline strip, newline present: drop it and clear the
flag. -/
theorem pcwt2_strip_eq1 (ctx : StreamContext)
    (hf : ctx.stripThinkingLeadingNewline = true)
    (hh : ctx.thinkingBuffer.head? = some 0x0A) :
    ctx.pcwtPhase2 = StreamContext.pcwtPhase2
      { ctx with thinkingBuffer := ctx.thinkingBuffer.tail
                 stripThinkingLeadingNewline := false } := by
  conv_lhs => rw [StreamContext.pcwtPhase2]
  conv_rhs => rw [StreamContext.pcwtPhase2]
  simp only [hf, hh, beq_self_eq_true, if_true, Bool.false_eq_true, if_false]

/-- The leading-newline strip, no newline but content: just clear the
flag. -/
theorem pcwt2_strip_eq2 (ctx : StreamContext)
    (hf : ctx.stripThinkingLeadingNewline = true)
    (hh : (ctx.thinkingBuffer.head? == some 0x0A) = false)
    (hbuf : ctx.thinkingBuffer ≠ []) :
    ctx.pcwtPhase2 = StreamContext.pcwtPhase2
      { ctx with stripThinkingLeadingNewline := false } := by
  conv_lhs => rw [StreamContext.pcwtPhase2]
  conv_rhs => rw [StreamContext.pcwtPhase2]
  simp only [hf, hh, if_true, Bool.false_eq_true, if_false, hbuf,
    ne_eq, not_false_eq_true]

/-- The in-thinking phase (strip already done) is accepted by the
checker and preserves the context invariant. -/
theorem pcwtPhase2_noStrip_chk (st : ChkSt) (ctx : StreamContext)
    (inv : CtxInv st ctx) (hin : ctx.inThinkingBlock = true)
    (hf : ctx.stripThinkingLeadingNewline = false) :
    ∃ st2, chkRun st (ctx.pcwtPhase2).1 = some st2 ∧
      CtxInv st2 (ctx.pcwtPhase2).2 := by
  obtain ⟨hsm, hth, htool⟩ := inv
  obtain ⟨ti, hti, b, hb, hbt, hsp⟩ := hth hin
  rw [StreamContext.pcwtPhase2]
  simp only [hf, Bool.false_eq_true, if_false]
  cases hend : find_real_thinking_end_tag ctx.thinkingBuffer with
  | none =>
    dsimp only
    by_cases hsl : 0 < find_char_boundary ctx.thinkingBuffer
        (ctx.thinkingBuffer.length - closeTagNl2.length)
    · rw [if_pos hsl]
      exact ⟨st, thinkingContentDelta_chk st ctx _ ti hsm hti ⟨b, hb, hsp⟩,
        ctxInv_congr st ctx _ rfl rfl rfl rfl ⟨hsm, hth, htool⟩⟩
    · rw [if_neg hsl]
      exact ⟨st, rfl, ⟨hsm, hth, htool⟩⟩
  | some endPos =>
    dsimp only
    have hA : chkRun st (ctx.thinkingContentDelta
        (ctx.thinkingBuffer.take endPos)) = some st :=
      thinkingContentDelta_chk st ctx _ ti hsm hti ⟨b, hb, hsp⟩
    obtain ⟨stB, hrunB, hsmB, heqB⟩ := emitThinkingClose_chk st
      { ctx with inThinkingBlock := false, thinkingExtracted := true
                 stripThinkingLeadingNewline := false }
      ti b hsm hti hb hsp
    have hinv3 : CtxInv stB
        { (StreamContext.emitThinkingClose
            { ctx with inThinkingBlock := false
                       thinkingExtracted := true
                       stripThinkingLeadingNewline := false }).2 with
          thinkingBuffer :=
            (StreamContext.emitThinkingClose
              { ctx with inThinkingBlock := false
                         thinkingExtracted := true
                         stripThinkingLeadingNewline := false
                         }).2.thinkingBuffer.drop
              (endPos + closeTagNl2.length) } := by
      refine ⟨hsmB, ?_, ?_⟩
      · intro h
        rw [heqB] at h
        exact Bool.noConfusion h
      · intro q hq
        rw [heqB] at hq ⊢
        obtain ⟨b1, hb1, hbt1⟩ := htool q hq
        obtain ⟨b2, hb2, hbt2⟩ :=
          toolPart_map_stop ctx.sm.activeBlocks ti q.2 b1 hb1
        exact ⟨b2, hb2, by rw [hbt2]; exact hbt1⟩
    obtain ⟨st2, hrun3, hinv4⟩ := pcwtPhase3_chk stB _ hinv3
    refine ⟨st2, ?_, hinv4⟩
    simp only [chkRun_append, hA, hrunB, hrun3]

/-- `pcwtPhase2` is accepted by the checker and preserves the context
invariant whenever the engine is inside a thinking block. -/
theorem pcwtPhase2_chk (st : ChkSt) (ctx : StreamContext)
    (inv : CtxInv st ctx) (hin : ctx.inThinkingBlock = true) :
    ∃ st2, chkRun st (ctx.pcwtPhase2).1 = some st2 ∧
      CtxInv st2 (ctx.pcwtPhase2).2 := by
  cases hf : ctx.stripThinkingLeadingNewline with
  | false => exact pcwtPhase2_noStrip_chk st ctx inv hin hf
  | true =>
    by_cases hh : ctx.thinkingBuffer.head? = some 0x0A
    · rw [pcwt2_strip_eq1 ctx hf hh]
      exact pcwtPhase2_noStrip_chk st _
        (ctxInv_congr st ctx _ rfl rfl rfl rfl inv) hin rfl
    · by_cases hbuf : ctx.thinkingBuffer = []
      · rw [pcwt2_empty ctx hbuf]
        exact ⟨st, rfl, inv⟩
      · have hh' : (ctx.thinkingBuffer.head? == some 0x0A) = false := by
          cases hx : (ctx.thinkingBuffer.head? == some 0x0A)
          · rfl
          · exact absurd (beq_iff_eq.mp hx) hh
        rw [pcwt2_strip_eq2 ctx hf hh' hbuf]
        exact pcwtPhase2_noStrip_chk st _
          (ctxInv_congr st ctx _ rfl rfl rfl rfl inv) hin rfl

/-- Lookup of a freshly appended entry. -/
theorem blockLookup_append_fresh (bs : List (Nat × BlockState)) (k : Nat)
    (c : BlockState) (hl : blockLookup bs k = none) :
    blockLookup (bs ++ [(k, c)]) k = some c := by
  rw [blockLookup_append_single, hl]
  simp

/-- The enter-thinking phase is accepted by the checker and preserves
the context invariant. -/
theorem pcwtPhase1_chk (st : ChkSt) (ctx : StreamContext)
    (inv : CtxInv st ctx) (hin : ctx.inThinkingBlock = false) :
    ∃ st2, chkRun st (ctx.pcwtPhase1).1 = some st2 ∧
      CtxInv st2 (ctx.pcwtPhase1).2 := by
  rw [StreamContext.pcwtPhase1]
  cases hstart : find_real_thinking_start_tag ctx.thinkingBuffer with
  | none =>
    by_cases hsl : 0 < find_char_boundary ctx.thinkingBuffer
        (ctx.thinkingBuffer.length - thinkingOpenTag.length)
    · rw [if_pos hsl]
      dsimp only
      split
      · obtain ⟨st2, hrun, hinv2⟩ := create_text_ctx_chk st ctx
          (ctx.thinkingBuffer.take (find_char_boundary ctx.thinkingBuffer
            (ctx.thinkingBuffer.length - thinkingOpenTag.length))) inv
        exact ⟨st2, hrun, ctxInv_congr st2 _ _ rfl rfl rfl rfl hinv2⟩
      · exact ⟨st, rfl, inv⟩
    · rw [if_neg hsl]
      exact ⟨st, rfl, inv⟩
  | some startPos =>
    dsimp only [SseStateManager.nextIndex]
    split
    · obtain ⟨stA, hrunA, hinvA⟩ := create_text_ctx_chk st ctx
        (ctx.thinkingBuffer.take startPos) inv
      obtain ⟨hsmA, hthA, htoolA⟩ := hinvA
      have hfreshA : blockLookup
          (ctx.create_text_delta_events
            (ctx.thinkingBuffer.take startPos)).2.sm.activeBlocks
          (ctx.create_text_delta_events
            (ctx.thinkingBuffer.take startPos)).2.sm.nextBlockIndex =
          none := fresh_lookup_none _ _ hsmA.fresh
      rw [hcbs_fresh_eq
        { (ctx.create_text_delta_events
            (ctx.thinkingBuffer.take startPos)).2.sm with
          nextBlockIndex := (ctx.create_text_delta_events
            (ctx.thinkingBuffer.take startPos)).2.sm.nextBlockIndex + 1 }
        (ctx.create_text_delta_events
          (ctx.thinkingBuffer.take startPos)).2.sm.nextBlockIndex
        BType.thinking (by decide) hfreshA]
      have hinv4 : CtxInv
          { stA with openB :=
              (ctx.create_text_delta_events
                (ctx.thinkingBuffer.take startPos)).2.sm.nextBlockIndex ::
                stA.openB }
          { (ctx.create_text_delta_events
              (ctx.thinkingBuffer.take startPos)).2 with
            sm := { (ctx.create_text_delta_events
                (ctx.thinkingBuffer.take startPos)).2.sm with
              nextBlockIndex := (ctx.create_text_delta_events
                (ctx.thinkingBuffer.take startPos)).2.sm.nextBlockIndex + 1
              activeBlocks := (ctx.create_text_delta_events
                (ctx.thinkingBuffer.take startPos)).2.sm.activeBlocks ++
                [((ctx.create_text_delta_events
                    (ctx.thinkingBuffer.take startPos)).2.sm.nextBlockIndex,
                  ⟨BType.thinking, true, false⟩)] }
            thinkingBuffer := (ctx.create_text_delta_events
              (ctx.thinkingBuffer.take startPos)).2.thinkingBuffer.drop
              (startPos + thinkingOpenTag.length)
            inThinkingBlock := true
            thinkingBlockIndex := some (ctx.create_text_delta_events
              (ctx.thinkingBuffer.take startPos)).2.sm.nextBlockIndex
            stripThinkingLeadingNewline := true } := by
        refine ⟨?_, ?_, ?_⟩
        · have inv1 := smInv_bump stA _
            ((ctx.create_text_delta_events
              (ctx.thinkingBuffer.take startPos)).2.sm.nextBlockIndex + 1)
            hsmA (Nat.le_succ _)
          exact smInv_append_fresh _ _ _ BType.thinking inv1 hfreshA
            (Nat.lt_succ_self _)
        · intro _
          exact ⟨(ctx.create_text_delta_events
              (ctx.thinkingBuffer.take startPos)).2.sm.nextBlockIndex, rfl,
            ⟨BType.thinking, true, false⟩,
            blockLookup_append_fresh _ _ _ hfreshA, rfl, rfl⟩
        · intro q hq
          obtain ⟨b, hb, hbt⟩ := htoolA q hq
          exact ⟨b, blockLookup_append_pres _ _ _ _ _ hb, hbt⟩
      obtain ⟨st2, hrunP, hinvP⟩ := pcwtPhase2_chk _ _ hinv4 rfl
      refine ⟨st2, ?_, hinvP⟩
      simp only [chkRun_append, hrunA, List.singleton_append, chkRun,
        chkStep_start stA _ _ BType.thinking hsmA hfreshA]
      exact hrunP
    · obtain ⟨hsm, hth, htool⟩ := inv
      dsimp only
      have hfresh : blockLookup ctx.sm.activeBlocks ctx.sm.nextBlockIndex =
          none := fresh_lookup_none _ _ hsm.fresh
      rw [hcbs_fresh_eq
        { ctx.sm with nextBlockIndex := ctx.sm.nextBlockIndex + 1 }
        ctx.sm.nextBlockIndex BType.thinking (by decide) hfresh]
      have hinv4 : CtxInv
          { st with openB := ctx.sm.nextBlockIndex :: st.openB }
          { ctx with
            sm := { ctx.sm with
              nextBlockIndex := ctx.sm.nextBlockIndex + 1
              activeBlocks := ctx.sm.activeBlocks ++
                [(ctx.sm.nextBlockIndex, ⟨BType.thinking, true, false⟩)] }
            thinkingBuffer := ctx.thinkingBuffer.drop
              (startPos + thinkingOpenTag.length)
            inThinkingBlock := true
            thinkingBlockIndex := some ctx.sm.nextBlockIndex
            stripThinkingLeadingNewline := true } := by
        refine ⟨?_, ?_, ?_⟩
        · have inv1 := smInv_bump st _ (ctx.sm.nextBlockIndex + 1) hsm
            (Nat.le_succ _)
          exact smInv_append_fresh _ _ _ BType.thinking inv1 hfresh
            (Nat.lt_succ_self _)
        · intro _
          exact ⟨ctx.sm.nextBlockIndex, rfl,
            ⟨BType.thinking, true, false⟩,
            blockLookup_append_fresh _ _ _ hfresh, rfl, rfl⟩
        · intro q hq
          obtain ⟨b, hb, hbt⟩ := htool q hq
          exact ⟨b, blockLookup_append_pres _ _ _ _ _ hb, hbt⟩
      obtain ⟨st2, hrunP, hinvP⟩ := pcwtPhase2_chk _ _ hinv4 rfl
      refine ⟨st2, ?_, hinvP⟩
      simp only [chkRun_append, List.nil_append, List.singleton_append, chkRun,
        chkStep_start st _ _ BType.thinking hsm hfresh]
      exact hrunP

/-- `process_content_with_thinking` is accepted by the checker and
preserves the context invariant. -/
theorem pcwt_chk (st : ChkSt) (ctx : StreamContext) (content : Bytes)
    (inv : CtxInv st ctx) :
    ∃ st2, chkRun st (ctx.process_content_with_thinking content).1 =
        some st2 ∧
      CtxInv st2 (ctx.process_content_with_thinking content).2 := by
  rw [StreamContext.process_content_with_thinking]
  dsimp only
  cases hin : ctx.inThinkingBlock with
  | true =>
    simp only [hin, Bool.not_true, Bool.false_and, Bool.false_eq_true,
      if_false, if_true]
    exact pcwtPhase2_chk st _
      (ctxInv_congr st ctx _ rfl hin.symm rfl rfl inv) rfl
  | false =>
    cases hext : ctx.thinkingExtracted with
    | false =>
      simp only [hin, hext, Bool.not_false, Bool.and_self, if_true]
      exact pcwtPhase1_chk st _
        (ctxInv_congr st ctx _ rfl hin.symm rfl rfl inv) rfl
    | true =>
      simp only [hin, hext, Bool.not_false, Bool.not_true, Bool.and_false,
        Bool.false_eq_true, if_false]
      exact pcwtPhase3_chk st _
        (ctxInv_congr st ctx _ rfl hin.symm rfl rfl inv)

/-- `process_assistant_response` is accepted by the checker and
preserves the context invariant. -/
theorem par_chk (st : ChkSt) (ctx : StreamContext) (content : Bytes)
    (inv : CtxInv st ctx) :
    ∃ st2, chkRun st (ctx.process_assistant_response content).1 =
        some st2 ∧
      CtxInv st2 (ctx.process_assistant_response content).2 := by
  rw [StreamContext.process_assistant_response]
  by_cases hc : content = []
  · rw [if_pos hc]
    exact ⟨st, rfl, inv⟩
  · rw [if_neg hc]
    dsimp only
    cases hte : ctx.thinkingEnabled with
    | false =>
      simp only [hte, Bool.false_eq_true, if_false]
      exact create_text_ctx_chk st _ content
        (ctxInv_congr st ctx _ rfl rfl rfl rfl inv)
    | true =>
      simp only [hte, if_true]
      exact pcwt_chk st _ content
        (ctxInv_congr st ctx _ rfl rfl rfl rfl inv)

/-- `process_tool_use` is exactly the composition of its stages. -/
theorem process_tool_use_decomp (ctx : StreamContext) (t i : Bytes)
    (s : Bool) :
    ctx.process_tool_use t i s =
      ((StreamContext.ptuThinkFlush
          { ctx with sm := { ctx.sm with hasToolUse := true } }).1 ++
        (StreamContext.ptuBufFlush
          (StreamContext.ptuThinkFlush
            { ctx with sm := { ctx.sm with hasToolUse := true } }).2).1 ++
        (StreamContext.ptuEmit
          (StreamContext.ptuBufFlush
            (StreamContext.ptuThinkFlush
              { ctx with sm := { ctx.sm with hasToolUse := true } }).2).2
          t i s).1,
       (StreamContext.ptuEmit
         (StreamContext.ptuBufFlush
           (StreamContext.ptuThinkFlush
             { ctx with sm := { ctx.sm with hasToolUse := true } }).2).2
         t i s).2) := by
  simp only [StreamContext.process_tool_use, StreamContext.ptuThinkFlush,
    StreamContext.ptuBufFlush, StreamContext.ptuEmit, StreamContext.ptuDelta,
    StreamContext.ptuStop, List.append_assoc]

/-- The tool-stop stage is accepted and preserves the invariant: the
stop lands only on the tool block, which is never the open thinking
block. -/
theorem ptuStop_chk (st : ChkSt) (ctx : StreamContext) (bi : Nat)
    (stop : Bool) (inv : CtxInv st ctx)
    (hbt : ∀ b, blockLookup ctx.sm.activeBlocks bi = some b →
      b.btype = BType.toolUse) :
    ∃ st2, chkRun st (ctx.ptuStop bi stop).1 = some st2 ∧
      CtxInv st2 (ctx.ptuStop bi stop).2 := by
  obtain ⟨hsm, hth, htool⟩ := inv
  rw [StreamContext.ptuStop]
  cases stop with
  | false => exact ⟨st, rfl, ⟨hsm, hth, htool⟩⟩
  | true =>
    rw [if_pos rfl]
    dsimp only
    cases hb : blockLookup ctx.sm.activeBlocks bi with
    | none =>
      rw [hcbstop_none_eq ctx.sm bi hb]
      exact ⟨st, rfl, ⟨hsm, hth, htool⟩⟩
    | some b =>
      cases hsp : b.stopped with
      | true =>
        rw [hcbstop_stopped_eq ctx.sm bi b hb hsp]
        exact ⟨st, rfl, ⟨hsm, hth, htool⟩⟩
      | false =>
        rw [hcbstop_open_eq ctx.sm bi b hb hsp]
        refine ⟨{ st with openB := st.openB.erase bi
                          closedB := bi :: st.closedB }, ?_, ?_, ?_, ?_⟩
        · simp only [Option.toList_some, chkRun,
            chkStep_stop st ctx.sm bi hsm ⟨b, hb, hsp⟩]
        · exact smInv_stop st ctx.sm bi b hsm hb
        · intro hin
          obtain ⟨ti, hti, bt, hbt2, hbtt, hbts⟩ := hth hin
          have hne : (bi == ti) = false := by
            by_cases h : bi = ti
            · exfalso
              subst h
              rw [hb] at hbt2
              obtain rfl := Option.some.inj hbt2
              rw [hbt b hb] at hbtt
              exact BType.noConfusion hbtt
            · simp [h]
          refine ⟨ti, hti, bt, ?_, hbtt, hbts⟩
          rw [blockLookup_map_stop, hne]
          simp only [Bool.false_eq_true, if_false]
          exact hbt2
        · intro q hq
          obtain ⟨b1, hb1, hbt1⟩ := htool q hq
          obtain ⟨b2, hb2, hbteq⟩ :=
            toolPart_map_stop ctx.sm.activeBlocks bi q.2 b1 hb1
          exact ⟨b2, hb2, by rw [hbteq]; exact hbt1⟩

/-- The input-json delta stage is accepted, preserves the invariant, and
touches neither the manager state beyond token counts nor the tool
cache. -/
theorem ptuDelta_chk (st : ChkSt) (ctx : StreamContext) (bi : Nat)
    (input : Bytes) (inv : CtxInv st ctx) :
    ∃ st2, chkRun st (ctx.ptuDelta bi input).1 = some st2 ∧
      CtxInv st2 (ctx.ptuDelta bi input).2 ∧
      (ctx.ptuDelta bi input).2.sm = ctx.sm ∧
      (ctx.ptuDelta bi input).2.toolBlockIndices = ctx.toolBlockIndices := by
  obtain ⟨hsm, hth, htool⟩ := inv
  rw [StreamContext.ptuDelta]
  by_cases hc : input ≠ []
  · rw [if_pos hc]
    dsimp only
    cases hd : SseStateManager.handle_content_block_delta ctx.sm bi
        (.inputJsonDelta input) with
    | none =>
      exact ⟨st, rfl,
        ctxInv_congr st ctx _ rfl rfl rfl rfl ⟨hsm, hth, htool⟩, rfl, rfl⟩
    | some e =>
      obtain ⟨he, ho⟩ := hcbd_sound ctx.sm bi _ e hd
      subst he
      refine ⟨st, ?_,
        ctxInv_congr st ctx _ rfl rfl rfl rfl ⟨hsm, hth, htool⟩, rfl, rfl⟩
      simp only [chkRun, chkStep_delta st ctx.sm bi _ hsm ho]
  · rw [if_neg hc]
    exact ⟨st, rfl, ⟨hsm, hth, htool⟩, rfl, rfl⟩

/-- The emit stage of `process_tool_use` (index resolution, tool block
start, delta, stop) is accepted by the checker and preserves the
context invariant. -/
theorem ptuEmit_chk (st : ChkSt) (ctx : StreamContext) (t i : Bytes)
    (s : Bool) (inv : CtxInv st ctx) :
    ∃ st2, chkRun st (ctx.ptuEmit t i s).1 = some st2 ∧
      CtxInv st2 (ctx.ptuEmit t i s).2 := by
  obtain ⟨hsm, hth, htool⟩ := inv
  rw [StreamContext.ptuEmit]
  dsimp only [SseStateManager.nextIndex]
  cases hfind : (ctx.toolBlockIndices.find? (fun p => p.1 == t)).map
      (fun p => p.2) with
  | some idx =>
    obtain ⟨q, hq, hg⟩ := Option.map_eq_some'.mp hfind
    have hqmem := List.mem_of_find?_eq_some hq
    obtain ⟨b0, hb0, hbt0⟩ := htool q hqmem
    rw [hg] at hb0
    have hclook : blockLookup (closeOpenTextBlocks ctx.sm.activeBlocks).2
        idx = some (closeTextF b0) := by
      rw [closeOpenTextBlocks_lookup, hb0]
      rfl
    have hstarted : (closeTextF b0).started = true := by
      rw [closeTextF]
      split
      · exact hsm.started idx b0 hb0
      · exact hsm.started idx b0 hb0
    rw [hcbs_tool_cached_eq ctx.sm idx (closeTextF b0) hclook hstarted]
    dsimp only
    obtain ⟨stC, hrunC, hsmC⟩ := smInv_closeText st ctx.sm hsm
    have hinvC : CtxInv stC { ctx with sm := { ctx.sm with
        hasToolUse := true
        activeBlocks := (closeOpenTextBlocks ctx.sm.activeBlocks).2 } } := by
      refine ⟨hsmC, ?_, ?_⟩
      · intro hin
        obtain ⟨ti, hti, bt, hbt2, hbtt, hbts⟩ := hth hin
        refine ⟨ti, hti, bt, ?_, hbtt, hbts⟩
        rw [closeOpenTextBlocks_lookup, hbt2]
        simp only [Option.map_some']
        rw [closeTextF, if_neg (by simp [hbtt])]
      · intro qq hqq
        obtain ⟨b1, hb1, hbt1⟩ := htool qq hqq
        refine ⟨closeTextF b1, ?_, ?_⟩
        · rw [closeOpenTextBlocks_lookup, hb1]
          rfl
        · rw [closeTextF]
          split
          · exact hbt1
          · exact hbt1
    obtain ⟨stD, hrunD, hinvD, hsmD, htoolD⟩ := ptuDelta_chk stC _ idx i hinvC
    have hbtD : ∀ b, blockLookup
        (StreamContext.ptuDelta { ctx with sm := { ctx.sm with
            hasToolUse := true
            activeBlocks := (closeOpenTextBlocks ctx.sm.activeBlocks).2 } }
          idx i).2.sm.activeBlocks idx = some b →
        b.btype = BType.toolUse := by
      intro b hbq
      rw [hsmD] at hbq
      have hbq2 : blockLookup (closeOpenTextBlocks ctx.sm.activeBlocks).2
          idx = some b := hbq
      rw [hclook] at hbq2
      obtain rfl := Option.some.inj hbq2
      rw [closeTextF]
      split
      · exact hbt0
      · exact hbt0
    obtain ⟨stE, hrunE, hinvE⟩ := ptuStop_chk stD _ idx s hinvD hbtD
    refine ⟨stE, ?_, hinvE⟩
    simp only [chkRun_append, hrunC, hrunD, hrunE]
  | none =>
    have hfresh : blockLookup ctx.sm.activeBlocks ctx.sm.nextBlockIndex =
        none := fresh_lookup_none _ _ hsm.fresh
    have hfreshC : blockLookup (closeOpenTextBlocks ctx.sm.activeBlocks).2
        ctx.sm.nextBlockIndex = none := by
      rw [closeOpenTextBlocks_lookup, hfresh]
      rfl
    rw [hcbs_tool_fresh_eq
      { ctx.sm with nextBlockIndex := ctx.sm.nextBlockIndex + 1 }
      ctx.sm.nextBlockIndex hfreshC]
    dsimp only
    have hsmBump := smInv_bump st ctx.sm (ctx.sm.nextBlockIndex + 1) hsm
      (Nat.le_succ _)
    obtain ⟨stC, hrunC, hsmC⟩ := smInv_closeText st
      { ctx.sm with nextBlockIndex := ctx.sm.nextBlockIndex + 1 } hsmBump
    have hinvE4 : CtxInv { stC with
        openB := ctx.sm.nextBlockIndex :: stC.openB }
        { ctx with
          sm := { ctx.sm with
            nextBlockIndex := ctx.sm.nextBlockIndex + 1
            hasToolUse := true
            activeBlocks := (closeOpenTextBlocks
              { ctx.sm with
                nextBlockIndex := ctx.sm.nextBlockIndex + 1 }.activeBlocks).2 ++
              [(ctx.sm.nextBlockIndex, ⟨BType.toolUse, true, false⟩)] }
          toolBlockIndices := ctx.toolBlockIndices ++
            [(t, ctx.sm.nextBlockIndex)] } := by
      refine ⟨?_, ?_, ?_⟩
      · exact smInv_append_fresh stC _ ctx.sm.nextBlockIndex BType.toolUse
          hsmC hfreshC (Nat.lt_succ_self _)
      · intro hin
        obtain ⟨ti, hti, bt, hbt2, hbtt, hbts⟩ := hth hin
        refine ⟨ti, hti, bt, ?_, hbtt, hbts⟩
        refine blockLookup_append_pres _ _ _ _ _ ?_
        have : blockLookup (closeOpenTextBlocks ctx.sm.activeBlocks).2 ti =
            some bt := by
          rw [closeOpenTextBlocks_lookup, hbt2]
          simp only [Option.map_some']
          rw [closeTextF, if_neg (by simp [hbtt])]
        exact this
      · intro qq hqq
        have hqq2 : qq ∈ ctx.toolBlockIndices ++
            [(t, ctx.sm.nextBlockIndex)] := hqq
        rcases List.mem_append.mp hqq2 with hold | hnew
        · obtain ⟨b1, hb1, hbt1⟩ := htool qq hold
          refine ⟨closeTextF b1, ?_, ?_⟩
          · refine blockLookup_append_pres _ _ _ _ _ ?_
            have : blockLookup (closeOpenTextBlocks ctx.sm.activeBlocks).2
                qq.2 = some (closeTextF b1) := by
              rw [closeOpenTextBlocks_lookup, hb1]
              rfl
            exact this
          · rw [closeTextF]
            split
            · exact hbt1
            · exact hbt1
        · have hq2 : qq = (t, ctx.sm.nextBlockIndex) := by
            simpa using hnew
          subst hq2
          refine ⟨⟨BType.toolUse, true, false⟩, ?_, rfl⟩
          exact blockLookup_append_fresh _ _ _ hfreshC
    obtain ⟨stD, hrunD, hinvD, hsmD, htoolD⟩ := ptuDelta_chk
      { stC with openB := ctx.sm.nextBlockIndex :: stC.openB } _
      ctx.sm.nextBlockIndex i hinvE4
    have hbtD : ∀ b, blockLookup
        (StreamContext.ptuDelta
          { ctx with
            sm := { ctx.sm with
              nextBlockIndex := ctx.sm.nextBlockIndex + 1
              hasToolUse := true
              activeBlocks := (closeOpenTextBlocks
                { ctx.sm with
                  nextBlockIndex :=
                    ctx.sm.nextBlockIndex + 1 }.activeBlocks).2 ++
                [(ctx.sm.nextBlockIndex, ⟨BType.toolUse, true, false⟩)] }
            toolBlockIndices := ctx.toolBlockIndices ++
              [(t, ctx.sm.nextBlockIndex)] }
          ctx.sm.nextBlockIndex i).2.sm.activeBlocks ctx.sm.nextBlockIndex =
          some b → b.btype = BType.toolUse := by
      intro b hbq
      rw [hsmD] at hbq
      have hbq2 : blockLookup ((closeOpenTextBlocks
          ctx.sm.activeBlocks).2 ++
          [(ctx.sm.nextBlockIndex, ⟨BType.toolUse, true, false⟩)])
          ctx.sm.nextBlockIndex = some b := hbq
      rw [blockLookup_append_fresh _ _ _ hfreshC] at hbq2
      obtain rfl := Option.some.inj hbq2
      rfl
    obtain ⟨stE, hrunE, hinvE⟩ := ptuStop_chk stD _ ctx.sm.nextBlockIndex s
      hinvD hbtD
    refine ⟨stE, ?_, hinvE⟩
    simp only [chkRun_append, List.singleton_append, hrunC, chkRun,
      chkStep_start stC _ ctx.sm.nextBlockIndex BType.toolUse hsmC hfreshC,
      hrunD, hrunE]

/-- The thinking-close flush stage of `process_tool_use` is accepted by
the checker and preserves the context invariant. -/
theorem ptuThinkFlush_chk (st : ChkSt) (ctx : StreamContext)
    (inv : CtxInv st ctx) :
    ∃ st2, chkRun st (ctx.ptuThinkFlush).1 = some st2 ∧
      CtxInv st2 (ctx.ptuThinkFlush).2 := by
  obtain ⟨hsm, hth, htool⟩ := inv
  rw [StreamContext.ptuThinkFlush]
  by_cases hg : (ctx.thinkingEnabled && ctx.inThinkingBlock) = true
  · rw [if_pos hg]
    have hin : ctx.inThinkingBlock = true := by
      have hg2 := hg
      simp only [Bool.and_eq_true] at hg2
      exact hg2.2
    obtain ⟨ti, hti, b, hb, hbt, hsp⟩ := hth hin
    cases hend : find_real_thinking_end_tag_at_buffer_end
        ctx.thinkingBuffer with
    | none => exact ⟨st, rfl, ⟨hsm, hth, htool⟩⟩
    | some endPos =>
      dsimp only
      have hA : chkRun st (ctx.thinkingContentDelta
          (ctx.thinkingBuffer.take endPos)) = some st :=
        thinkingContentDelta_chk st ctx _ ti hsm hti ⟨b, hb, hsp⟩
      obtain ⟨stB, hrunB, hsmB, heqB⟩ := emitThinkingClose_chk st
        { ctx with inThinkingBlock := false, thinkingExtracted := true }
        ti b hsm hti hb hsp
      have hinv4 : CtxInv stB
          { (StreamContext.emitThinkingClose
              { ctx with inThinkingBlock := false
                         thinkingExtracted := true }).2 with
            thinkingBuffer := [] } := by
        refine ⟨hsmB, ?_, ?_⟩
        · intro h
          rw [heqB] at h
          exact Bool.noConfusion h
        · intro q hq
          rw [heqB] at hq ⊢
          obtain ⟨b1, hb1, hbt1⟩ := htool q hq
          obtain ⟨b2, hb2, hbt2⟩ :=
            toolPart_map_stop ctx.sm.activeBlocks ti q.2 b1 hb1
          exact ⟨b2, hb2, by rw [hbt2]; exact hbt1⟩
      by_cases hr : trimStartBytes ((StreamContext.emitThinkingClose
          { ctx with inThinkingBlock := false
                     thinkingExtracted := true }).2.thinkingBuffer.drop
          (endPos + thinkingCloseTag.length)) ≠ []
      · rw [if_pos hr]
        obtain ⟨st2, hrun3, hinv5⟩ := create_text_ctx_chk stB _
          (trimStartBytes ((StreamContext.emitThinkingClose
            { ctx with inThinkingBlock := false
                       thinkingExtracted := true }).2.thinkingBuffer.drop
            (endPos + thinkingCloseTag.length))) hinv4
        refine ⟨st2, ?_, hinv5⟩
        simp only [chkRun_append, hA, hrunB, hrun3]
      · rw [if_neg hr]
        refine ⟨stB, ?_, hinv4⟩
        simp only [chkRun_append, hA, hrunB, chkRun]
  · rw [if_neg hg]
    exact ⟨st, rfl, ⟨hsm, hth, htool⟩⟩

/-- The buffered-thinking flush stage of `process_tool_use` is accepted
by the checker and preserves the context invariant. -/
theorem ptuBufFlush_chk (st : ChkSt) (ctx : StreamContext)
    (inv : CtxInv st ctx) :
    ∃ st2, chkRun st (ctx.ptuBufFlush).1 = some st2 ∧
      CtxInv st2 (ctx.ptuBufFlush).2 := by
  rw [StreamContext.ptuBufFlush]
  split
  · exact create_text_ctx_chk st { ctx with thinkingBuffer := [] }
      ctx.thinkingBuffer (ctxInv_congr st ctx _ rfl rfl rfl rfl inv)
  · exact ⟨st, rfl, inv⟩

/-- `process_tool_use` is accepted by the checker and preserves the
context invariant. -/
theorem ptu_chk (st : ChkSt) (ctx : StreamContext) (t i : Bytes) (s : Bool)
    (inv : CtxInv st ctx) :
    ∃ st2, chkRun st (ctx.process_tool_use t i s).1 = some st2 ∧
      CtxInv st2 (ctx.process_tool_use t i s).2 := by
  rw [process_tool_use_decomp]
  have invA : CtxInv st
      { ctx with sm := { ctx.sm with hasToolUse := true } } := by
    obtain ⟨hsm, hth, htool⟩ := inv
    exact ⟨smInv_congr st ctx.sm { ctx.sm with hasToolUse := true }
      rfl rfl rfl rfl hsm, hth, htool⟩
  obtain ⟨st1, h1, i1⟩ := ptuThinkFlush_chk st _ invA
  obtain ⟨st2x, h2, i2⟩ := ptuBufFlush_chk st1 _ i1
  obtain ⟨st3, h3, i3⟩ := ptuEmit_chk st2x _ t i s i2
  refine ⟨st3, ?_, i3⟩
  simp only [chkRun_append, h1, h2, h3]

/-- `process_kiro_event` is accepted by the checker and preserves the
context invariant. -/
theorem pke_chk (st : ChkSt) (ctx : StreamContext) (e : KEvent)
    (inv : CtxInv st ctx) :
    ∃ st2, chkRun st (ctx.process_kiro_event e).1 = some st2 ∧
      CtxInv st2 (ctx.process_kiro_event e).2 := by
  obtain ⟨hsm, hth, htool⟩ := inv
  cases e with
  | assistantResponse content =>
    exact par_chk st ctx content ⟨hsm, hth, htool⟩
  | toolUse t i s => exact ptu_chk st ctx t i s ⟨hsm, hth, htool⟩
  | contextUsage pct =>
    rw [StreamContext.process_kiro_event]
    dsimp only
    refine ⟨st, rfl, ?_⟩
    by_cases hp : (100 : ℚ) ≤ pct
    · rw [if_pos hp]
      exact ⟨smInv_congr st ctx.sm _ rfl rfl rfl rfl hsm, hth, htool⟩
    · rw [if_neg hp]
      exact ⟨hsm, hth, htool⟩
  | errorEvt c m => exact ⟨st, rfl, ⟨hsm, hth, htool⟩⟩
  | exception et m =>
    rw [StreamContext.process_kiro_event]
    by_cases he : et = "ContentLengthExceededException"
    · rw [if_pos he]
      exact ⟨st, rfl,
        ⟨smInv_congr st ctx.sm _ rfl rfl rfl rfl hsm, hth, htool⟩⟩
    · rw [if_neg he]
      exact ⟨st, rfl, ⟨hsm, hth, htool⟩⟩
  | metering => exact ⟨st, rfl, ⟨hsm, hth, htool⟩⟩
  | unknown => exact ⟨st, rfl, ⟨hsm, hth, htool⟩⟩

/-- The event fold with a nonempty accumulator is the fold from an
empty accumulator, prefixed. -/
theorem processEvents_shift (events : List KEvent) :
    ∀ (acc : List SseEvt) (ctx : StreamContext),
      events.foldl
        (fun (acc : List SseEvt × StreamContext) e =>
          let (evts, ctx) := acc.2.process_kiro_event e
          (acc.1 ++ evts, ctx))
        (acc, ctx) =
      (acc ++ (processEvents ctx events).1, (processEvents ctx events).2) := by
  induction events with
  | nil =>
    intro acc ctx
    rw [processEvents]
    simp
  | cons e rest ih =>
    intro acc ctx
    rw [List.foldl_cons]
    dsimp only
    rw [ih]
    conv_rhs => rw [processEvents, List.foldl_cons]
    dsimp only
    rw [ih]
    simp [List.append_assoc]

/-- Unfolding one event of `processEvents`. -/
theorem processEvents_cons (ctx : StreamContext) (e : KEvent)
    (rest : List KEvent) :
    processEvents ctx (e :: rest) =
      ((ctx.process_kiro_event e).1 ++
        (processEvents (ctx.process_kiro_event e).2 rest).1,
       (processEvents (ctx.process_kiro_event e).2 rest).2) := by
  rw [processEvents, List.foldl_cons]
  dsimp only
  simp only [List.nil_append]
  exact processEvents_shift rest _ _

/-- The whole upstream event fold is accepted by the checker and
preserves the context invariant. -/
theorem processEvents_chk (events : List KEvent) :
    ∀ (st : ChkSt) (ctx : StreamContext), CtxInv st ctx →
      ∃ st2, chkRun st (processEvents ctx events).1 = some st2 ∧
        CtxInv st2 (processEvents ctx events).2 := by
  induction events with
  | nil =>
    intro st ctx inv
    exact ⟨st, rfl, inv⟩
  | cons e rest ih =>
    intro st ctx inv
    rw [processEvents_cons]
    obtain ⟨st1, h1, i1⟩ := pke_chk st ctx e inv
    obtain ⟨st2, h2, i2⟩ := ih st1 _ i1
    refine ⟨st2, ?_, i2⟩
    simp only [chkRun_append, h1, h2]

/-- The manager invariant for a block-free manager state in the content
phase. -/
theorem smInv_empty (sm : SseStateManager)
    (h1 : sm.messageDeltaSent = false) (h2 : sm.messageEnded = false)
    (h3 : sm.activeBlocks = []) :
    SmInv ⟨1, [], []⟩ sm := by
  refine ⟨rfl, h1, h2, List.nodup_nil, ?_, ?_, ?_, ?_, ?_⟩
  · rw [h3]
    simp
  · intro i
    rw [h3]
    simp [blockOpen, blockLookup]
  · intro i
    rw [h3]
    simp [blockClosed, blockLookup]
  · intro i b hb
    rw [h3] at hb
    simp [blockLookup] at hb
  · intro p hp
    rw [h3] at hp
    simp at hp

/-- The initial events of a fresh stream are accepted by the checker and
establish the context invariant. -/
theorem gen_initial_chk (model : String) (tokens : Int) (thinking : Bool) :
    ∃ st2, chkRun chkInit
        ((StreamContext.new_with_thinking model tokens
          thinking).generate_initial_events).1 = some st2 ∧
      CtxInv st2
        ((StreamContext.new_with_thinking model tokens
          thinking).generate_initial_events).2 := by
  cases thinking with
  | true =>
    refine ⟨⟨1, [], []⟩, by rfl, ?_, ?_, ?_⟩
    · exact smInv_empty _ rfl rfl rfl
    · intro h
      exact Bool.noConfusion h
    · intro q hq
      exact absurd hq (List.not_mem_nil q)
  | false =>
    refine ⟨⟨1, [0], []⟩, by rfl, ?_, ?_, ?_⟩
    · have h0 := smInv_empty
        { SseStateManager.new with messageStarted := true } rfl rfl rfl
      have h1 := smInv_bump ⟨1, [], []⟩
        { SseStateManager.new with messageStarted := true } 1 h0 (Nat.zero_le 1)
      exact smInv_append_fresh _ _ 0 BType.text h1 rfl Nat.zero_lt_one
    · intro h
      exact Bool.noConfusion h
    · intro q hq
      exact absurd hq (List.not_mem_nil q)

/-- The thinking-buffer flush of the context's final events is accepted
by the checker and preserves the manager invariant. -/
theorem flushThinkingBuffer_chk (st : ChkSt) (ctx : StreamContext)
    (inv : CtxInv st ctx) :
    ∃ st2, chkRun st (ctx.flushThinkingBuffer).1 = some st2 ∧
      SmInv st2 (ctx.flushThinkingBuffer).2.sm := by
  obtain ⟨hsm, hth, htool⟩ := inv
  rw [StreamContext.flushThinkingBuffer]
  by_cases hg : (ctx.thinkingEnabled && decide (ctx.thinkingBuffer ≠ [])) =
      true
  · rw [if_pos hg]
    dsimp only
    cases hin : ctx.inThinkingBlock with
    | true =>
      rw [if_pos rfl]
      obtain ⟨ti, hti, b, hb, hbt, hsp⟩ := hth hin
      cases hend : find_real_thinking_end_tag_at_buffer_end
          ctx.thinkingBuffer with
      | some endPos =>
        dsimp only
        have hA : chkRun st (ctx.thinkingContentDelta
            (ctx.thinkingBuffer.take endPos)) = some st :=
          thinkingContentDelta_chk st ctx _ ti hsm hti ⟨b, hb, hsp⟩
        obtain ⟨stB, hrunB, hsmB, heqB⟩ :=
          emitThinkingClose_chk st ctx ti b hsm hti hb hsp
        by_cases hr : trimStartBytes
            ((ctx.emitThinkingClose).2.thinkingBuffer.drop
              (endPos + thinkingCloseTag.length)) ≠ []
        · rw [if_pos hr]
          obtain ⟨stD, hrunD, hsmD, hpresD, tbD, heqD⟩ := create_text_chk stB
            { (ctx.emitThinkingClose).2 with
              thinkingBuffer := []
              inThinkingBlock := false
              thinkingExtracted := true }
            (trimStartBytes ((ctx.emitThinkingClose).2.thinkingBuffer.drop
              (endPos + thinkingCloseTag.length))) hsmB
          refine ⟨stD, ?_, ?_⟩
          · simp only [chkRun_append, hA, hrunB, hrunD]
          · exact hsmD
        · rw [if_neg hr]
          refine ⟨stB, ?_, hsmB⟩
          simp only [chkRun_append, hA, hrunB, chkRun]
      | none =>
        dsimp only
        have hA : chkRun st (ctx.thinkingContentDelta ctx.thinkingBuffer) =
            some st :=
          thinkingContentDelta_chk st ctx _ ti hsm hti ⟨b, hb, hsp⟩
        obtain ⟨stB, hrunB, hsmB, heqB⟩ :=
          emitThinkingClose_chk st ctx ti b hsm hti hb hsp
        refine ⟨stB, ?_, hsmB⟩
        simp only [chkRun_append, hA, hrunB]
    | false =>
      simp only [Bool.false_eq_true, if_false]
      obtain ⟨stD, hrunD, hsmD, hpresD, tbD, heqD⟩ := create_text_chk st ctx
        ctx.thinkingBuffer hsm
      exact ⟨stD, hrunD, hsmD⟩
  · rw [if_neg hg]
    exact ⟨st, rfl, hsm⟩

/-- The manager's final events close every open block and end the
message: the checker accepts and reaches the final phase. -/
theorem smgen_final_chk (st : ChkSt) (sm : SseStateManager)
    (inTok outTok : Int) (inv : SmInv st sm) :
    ∃ st2, chkRun st (sm.generate_final_events inTok outTok).1 = some st2 ∧
      st2.phase = 3 := by
  rw [SseStateManager.generate_final_events]
  obtain ⟨stC, hrunC, hpC, hndC, hoC⟩ :=
    closeAllOpenBlocks_chk sm.activeBlocks st inv.phase inv.ndOpen inv.ndKeys
      (fun i hi => (inv.openIff i).mpr
        (by obtain ⟨b0, hb0, _, hs0⟩ := hi; exact ⟨b0, hb0, hs0⟩))
  have hopenNil : stC.openB = [] := by
    rw [List.eq_nil_iff_forall_not_mem]
    intro j hj
    obtain ⟨hj1, hj2⟩ := (hoC j).mp hj
    obtain ⟨b0, hb0, hs0⟩ := (inv.openIff j).mp hj1
    exact hj2 ⟨b0, hb0, inv.started j b0 hb0, hs0⟩
  simp only [inv.mds, Bool.not_false, if_true]
  simp only [inv.mend, Bool.not_false, if_true]
  refine ⟨{ stC with phase := 3 }, ?_, rfl⟩
  have hdelta : chkStep stC (.messageDelta
      ({ messageStarted := sm.messageStarted, messageDeltaSent := false
         activeBlocks := (closeAllOpenBlocks sm.activeBlocks).2
         messageEnded := false, nextBlockIndex := sm.nextBlockIndex
         stopReason := sm.stopReason
         hasToolUse := sm.hasToolUse } : SseStateManager).get_stop_reason
      inTok outTok) =
      some { stC with phase := 2 } := by
    rw [chkStep, if_pos ⟨hpC, hopenNil⟩]
  have hstop : chkStep { stC with phase := 2 } .messageStop =
      some { stC with phase := 3 } := by
    rw [chkStep]
    exact if_pos rfl
  simp only [chkRun_append, hrunC, chkRun, hdelta, hstop]

/-- The context's final events are accepted and complete the trace. -/
theorem gen_final_chk (st : ChkSt) (ctx : StreamContext)
    (inv : CtxInv st ctx) :
    ∃ st2, chkRun st (ctx.generate_final_events).1 = some st2 ∧
      st2.phase = 3 := by
  obtain ⟨st1, h1, hsm1⟩ := flushThinkingBuffer_chk st ctx inv
  have main : ∀ (st' : ChkSt) (c : StreamContext), SmInv st' c.sm →
      ∃ st3, chkRun st' (c.sm.generate_final_events
        (c.contextInputTokens.getD c.inputTokens) c.outputTokens).1 =
        some st3 ∧ st3.phase = 3 :=
    fun st' c h => smgen_final_chk st' c.sm _ _ h
  rw [StreamContext.generate_final_events]
  dsimp only
  by_cases hg : ((ctx.flushThinkingBuffer).2.thinkingEnabled &&
      (ctx.flushThinkingBuffer).2.thinkingBlockIndex.isSome &&
      !(ctx.flushThinkingBuffer).2.sm.has_non_thinking_blocks) = true
  · rw [if_pos hg]
    obtain ⟨st2, h2, hsm2, hpres2, tb2, heq2⟩ := create_text_chk st1
      { (ctx.flushThinkingBuffer).2 with
        sm := { (ctx.flushThinkingBuffer).2.sm with
          stopReason := some StopReason.maxTokens } }
      (strBytes " ")
      (smInv_congr st1 (ctx.flushThinkingBuffer).2.sm _ rfl rfl rfl rfl hsm1)
    obtain ⟨st3, h3, hp3⟩ := main st2 _ hsm2
    refine ⟨st3, ?_, hp3⟩
    simp only [chkRun_append, h1, h2, h3]
  · rw [if_neg hg]
    obtain ⟨st3, h3, hp3⟩ := main st1 _ hsm1
    refine ⟨st3, ?_, hp3⟩
    simp only [chkRun_append, h1, chkRun, h3, List.nil_append]

/-- C1 (amended): for every model, token estimate, thinking setting and
upstream event sequence, the full SSE stream (initial events, the
processed events, final events) satisfies the per-index block
discipline: `message_start` first, every index started at most once and
stopped exactly once after its start, every `content_block_delta`
strictly between its block's start and stop (never on an unstarted or
stopped block), all blocks closed before the single `message_delta`,
and `message_stop` last. -/
theorem c1_trace_discipline (model : String) (inputTokens : Int)
    (thinking : Bool) (events : List KEvent) :
    traceOk (fullStreamRun model inputTokens thinking events) = true := by
  rw [fullStreamRun]
  dsimp only
  obtain ⟨st1, h1, i1⟩ := gen_initial_chk model inputTokens thinking
  obtain ⟨st2, h2, i2⟩ := processEvents_chk events st1 _ i1
  obtain ⟨st3, h3, hp3⟩ := gen_final_chk st2 _ i2
  rw [traceOk]
  simp only [chkRun_append, h1, h2, h3, hp3]
  rfl

end KiroRs
